import Mathlib

/-!
Verification development for the `json-validate` repository.

The engine under study (src/dist/cli.js: `tryParseJson`, `tryCoerce`,
`getSchemaAtPath`, `removeAdditionalProperties`, `applyDefaults`,
`applyTypeCoercion`, `repairJson`; src/unnamed/part_008: `validateJson`)
is shallowly embedded below.  JSON values are modelled by the inductive
type `JV.Json`; JavaScript numbers are modelled as exact scaled decimals
(the engine only produces numbers by parsing decimal literals, rounding,
and the constants 0/1, so this idealisation of IEEE doubles is faithful
on every value the engine manipulates).  Recursive JS functions are
embedded with an explicit fuel argument (structural recursion on the
fuel); fuel exhaustion returns the input unchanged with no change
records, and every universal theorem quantifies over the fuel, while
concrete runs use a fuel that is large enough for the computation to
complete exactly as in JavaScript.

External collaborators that are not part of the repository (the
JavaScript builtins `JSON.parse`, `String`, `Number`, `RegExp`,
`Math.round`, `toLowerCase`, and the Ajv schema-check capability) are
modelled separately; each such definition carries a doc comment naming
what it models.  Regular-expression construction and matching is kept
as a parameter (`JV.RegexModel`) wherever the engine consumes it, so
that theorems quantify over every possible matcher; concrete theorems
instantiate it with the behaviour of the concrete patterns they use.
-/

namespace JV

/-- A JavaScript number, modelled as the exact scaled decimal
`m / 10 ^ d`.  Values are kept canonical (`d` minimal) by the smart
constructor `JsNum.make`, so distinct representations of the same
JS number do not arise in engine-produced values. -/
structure JsNum where
  m : Int
  d : Nat
  deriving DecidableEq, Repr

/-- Strip factors of ten: reduce `m / 10 ^ d` to lowest scale. -/
def stripTens : Int → Nat → Int × Nat
  | m, 0 => (m, 0)
  | m, d + 1 => if m % 10 = 0 then stripTens (m / 10) d else (m, d + 1)

/-- Canonicalising constructor for `JsNum`. -/
def JsNum.make (m : Int) (d : Nat) : JsNum :=
  if m = 0 then ⟨0, 0⟩ else ⟨(stripTens m d).1, (stripTens m d).2⟩

/-- A JSON value (`JsonValue` of spec section 3): null, boolean, number,
string, ordered sequence, or string-keyed mapping with insertion order
preserved.  (JavaScript's special ordering of integer-like object keys
is not modelled; no claim below depends on it.) -/
inductive Json where
  | null : Json
  | bool (b : Bool) : Json
  | num (q : JsNum) : Json
  | str (s : String) : Json
  | arr (xs : List Json) : Json
  | obj (kvs : List (String × Json)) : Json
  deriving Repr

mutual

def decEqJson : (a b : Json) → Decidable (a = b)
  | .null, .null => isTrue rfl
  | .bool a, .bool b =>
    if h : a = b then isTrue (by rw [h]) else isFalse (fun hh => h (by cases hh; rfl))
  | .num a, .num b =>
    if h : a = b then isTrue (by rw [h]) else isFalse (fun hh => h (by cases hh; rfl))
  | .str a, .str b =>
    if h : a = b then isTrue (by rw [h]) else isFalse (fun hh => h (by cases hh; rfl))
  | .arr a, .arr b =>
    match decEqJsonList a b with
    | isTrue h => isTrue (by rw [h])
    | isFalse h => isFalse (fun hh => h (by cases hh; rfl))
  | .obj a, .obj b =>
    match decEqJsonPairs a b with
    | isTrue h => isTrue (by rw [h])
    | isFalse h => isFalse (fun hh => h (by cases hh; rfl))
  | .null, .bool _ => isFalse (by intro h; cases h)
  | .null, .num _ => isFalse (by intro h; cases h)
  | .null, .str _ => isFalse (by intro h; cases h)
  | .null, .arr _ => isFalse (by intro h; cases h)
  | .null, .obj _ => isFalse (by intro h; cases h)
  | .bool _, .null => isFalse (by intro h; cases h)
  | .bool _, .num _ => isFalse (by intro h; cases h)
  | .bool _, .str _ => isFalse (by intro h; cases h)
  | .bool _, .arr _ => isFalse (by intro h; cases h)
  | .bool _, .obj _ => isFalse (by intro h; cases h)
  | .num _, .null => isFalse (by intro h; cases h)
  | .num _, .bool _ => isFalse (by intro h; cases h)
  | .num _, .str _ => isFalse (by intro h; cases h)
  | .num _, .arr _ => isFalse (by intro h; cases h)
  | .num _, .obj _ => isFalse (by intro h; cases h)
  | .str _, .null => isFalse (by intro h; cases h)
  | .str _, .bool _ => isFalse (by intro h; cases h)
  | .str _, .num _ => isFalse (by intro h; cases h)
  | .str _, .arr _ => isFalse (by intro h; cases h)
  | .str _, .obj _ => isFalse (by intro h; cases h)
  | .arr _, .null => isFalse (by intro h; cases h)
  | .arr _, .bool _ => isFalse (by intro h; cases h)
  | .arr _, .num _ => isFalse (by intro h; cases h)
  | .arr _, .str _ => isFalse (by intro h; cases h)
  | .arr _, .obj _ => isFalse (by intro h; cases h)
  | .obj _, .null => isFalse (by intro h; cases h)
  | .obj _, .bool _ => isFalse (by intro h; cases h)
  | .obj _, .num _ => isFalse (by intro h; cases h)
  | .obj _, .str _ => isFalse (by intro h; cases h)
  | .obj _, .arr _ => isFalse (by intro h; cases h)

def decEqJsonList : (a b : List Json) → Decidable (a = b)
  | [], [] => isTrue rfl
  | [], _ :: _ => isFalse (by intro h; cases h)
  | _ :: _, [] => isFalse (by intro h; cases h)
  | x :: xs, y :: ys =>
    match decEqJson x y, decEqJsonList xs ys with
    | isTrue h1, isTrue h2 => isTrue (by rw [h1, h2])
    | isFalse h1, _ => isFalse (fun hh => h1 (by cases hh; rfl))
    | isTrue _, isFalse h2 => isFalse (fun hh => h2 (by cases hh; rfl))

def decEqJsonPairs : (a b : List (String × Json)) → Decidable (a = b)
  | [], [] => isTrue rfl
  | [], _ :: _ => isFalse (by intro h; cases h)
  | _ :: _, [] => isFalse (by intro h; cases h)
  | (k1, v1) :: xs, (k2, v2) :: ys =>
    if hk : k1 = k2 then
      match decEqJson v1 v2, decEqJsonPairs xs ys with
      | isTrue h1, isTrue h2 => isTrue (by rw [hk, h1, h2])
      | isFalse h1, _ => isFalse (fun hh => h1 (by cases hh; rfl))
      | isTrue _, isFalse h2 => isFalse (fun hh => h2 (by cases hh; rfl))
    else isFalse (fun hh => hk (by cases hh; rfl))

end

instance : DecidableEq Json := decEqJson

/-- First-occurrence lookup in an ordered key/value list (JS property
read `o[k]`; JS objects cannot hold duplicate keys). -/
def jlookup : List (String × Json) → String → Option Json
  | [], _ => none
  | (k', v) :: rest, k => if k' = k then some v else jlookup rest k

/-- JS property write `o[k] = v`: replace in place if the key exists,
otherwise append at the end (insertion order). -/
def assignKey : List (String × Json) → String → Json → List (String × Json)
  | [], k, v => [(k, v)]
  | (k', v') :: rest, k, v =>
    if k' = k then (k, v) :: rest else (k', v') :: assignKey rest k v

/-- JS `k in o`. -/
def hasKey (kvs : List (String × Json)) (k : String) : Bool :=
  kvs.any (fun p => p.1 = k)

/-- Decimal digits of a natural number (own implementation so that the
kernel can evaluate it; `fuel` bounds the digit count). -/
def natDigitsAux : Nat → Nat → List Char
  | 0, _ => []
  | fuel + 1, n =>
    if n < 10 then [Char.ofNat (48 + n)]
    else natDigitsAux fuel (n / 10) ++ [Char.ofNat (48 + n % 10)]

/-- Render a natural number in decimal. -/
def natToString (n : Nat) : String := String.mk (natDigitsAux (n + 1) n)

/-- Render an integer in decimal. -/
def intToString (i : Int) : String :=
  if i < 0 then "-" ++ natToString i.natAbs else natToString i.natAbs

/-- Modelled from the JS builtin number-to-string conversion for the
exact decimals the engine produces: plain decimal notation (JS
exponential notation for extreme magnitudes is not modelled; no claim
inspects such a string). -/
def jsNumToString (q : JsNum) : String :=
  if q.d = 0 then intToString q.m
  else
    let digits := natDigitsAux (q.m.natAbs + 1) q.m.natAbs
    let padded := List.replicate (q.d + 1 - digits.length) '0' ++ digits
    let intPart := padded.take (padded.length - q.d)
    let fracPart := padded.drop (padded.length - q.d)
    (if q.m < 0 then "-" else "") ++ String.mk intPart ++ "." ++ String.mk fracPart

/-- JS `typeof` on a JSON value (`typeof null` is `"object"`, arrays are
`"object"`). -/
def jsTypeof : Json → String
  | .null => "object"
  | .bool _ => "boolean"
  | .num _ => "number"
  | .str _ => "string"
  | .arr _ => "object"
  | .obj _ => "object"

/-- The `currentType` computation of `applyTypeCoercion` (line 423):
`Array.isArray(obj) ? 'array' : obj === null ? 'null' : typeof obj`. -/
def typeNameOf : Json → String
  | .null => "null"
  | .bool _ => "boolean"
  | .num _ => "number"
  | .str _ => "string"
  | .arr _ => "array"
  | .obj _ => "object"

mutual

/-- Modelled from the JS builtin `String(value)` conversion: `null` →
`"null"`, booleans, decimal numbers, strings unchanged, arrays join
their element conversions with `","` (null elements become empty), and
plain objects become `"[object Object]"`. -/
def jsToString : Json → String
  | .null => "null"
  | .bool b => if b then "true" else "false"
  | .num q => jsNumToString q
  | .str s => s
  | .arr xs => jsToStringList xs
  | .obj _ => "[object Object]"

def jsToStringList : List Json → String
  | [] => ""
  | [.null] => ""
  | [x] => jsToString x
  | .null :: xs => "," ++ jsToStringList xs
  | x :: xs => jsToString x ++ "," ++ jsToStringList xs

end

/-- ASCII lower-casing of one character (the engine compares lower-cased
strings against `"true"`/`"false"` only, for which ASCII case folding
agrees with JS `toLowerCase`). -/
def lowerChar (c : Char) : Char :=
  if 'A' ≤ c ∧ c ≤ 'Z' then Char.ofNat (c.toNat + 32) else c

/-- Modelled from the JS builtin `String.prototype.toLowerCase`. -/
def lowerStr (s : String) : String := String.mk (s.data.map lowerChar)

/-- Render a pointer path from its segments exactly as the engine builds
its path strings: each segment is appended as `"/" ++ segment`, the
root is `""`. -/
def renderPath (segs : List String) : String :=
  segs.foldl (fun acc s => acc ++ "/" ++ s) ""

/-- The `type` keyword of a schema node: a single scalar name or a set
of allowed names (spec section 3; the engine distinguishes the two
shapes, e.g. `schema.type === 'object'` is false for `["object"]`). -/
inductive SchemaType where
  | single (s : String) : SchemaType
  | multi (ss : List String) : SchemaType
  deriving DecidableEq, Repr

/-- `Array.isArray(schemaType) ? schemaType : [schemaType]`
(line 421). -/
def SchemaType.toList : SchemaType → List String
  | .single s => [s]
  | .multi ss => ss

/-- JS truthiness of `schema.type` as used by `if (!schemaType)`:
absent or the empty string are falsy, an array is always truthy. -/
def schemaTypeFalsy : Option SchemaType → Bool
  | none => true
  | some (.single s) => s = ""
  | some (.multi _) => false

/-- A schema node of the draft-07 subset the engine interprets (spec
section 3): `type`, `properties`, `items`, `required`,
`additionalProperties`, `default`, `patternProperties`.  `Option`
distinguishes an absent field from a present (possibly empty) one,
mirroring JS truthiness checks. -/
inductive SchemaNode where
  | mk (type : Option SchemaType)
       (properties : Option (List (String × SchemaNode)))
       (items : Option SchemaNode)
       (required : Option (List String))
       (addl : Option Bool)
       (dflt : Option Json)
       (patternProps : Option (List (String × SchemaNode)))
  deriving Repr

def SchemaNode.type : SchemaNode → Option SchemaType
  | .mk t _ _ _ _ _ _ => t

def SchemaNode.properties : SchemaNode → Option (List (String × SchemaNode))
  | .mk _ p _ _ _ _ _ => p

def SchemaNode.items : SchemaNode → Option SchemaNode
  | .mk _ _ i _ _ _ _ => i

def SchemaNode.required : SchemaNode → Option (List String)
  | .mk _ _ _ r _ _ _ => r

/-- The `additionalProperties` field (only its comparison with the
literal `false` matters to the engine). -/
def SchemaNode.addl : SchemaNode → Option Bool
  | .mk _ _ _ _ a _ _ => a

/-- The `default` field of a schema node. -/
def SchemaNode.dflt : SchemaNode → Option Json
  | .mk _ _ _ _ _ d _ => d

def SchemaNode.patternProps : SchemaNode → Option (List (String × SchemaNode))
  | .mk _ _ _ _ _ _ pp => pp

/-- First-occurrence lookup among declared properties (JS `props[part]`;
schema objects cannot hold duplicate keys). -/
def slookup : List (String × SchemaNode) → String → Option SchemaNode
  | [], _ => none
  | (k', v) :: rest, k => if k' = k then some v else slookup rest k

/-- `key in properties`. -/
def hasProp (props : List (String × SchemaNode)) (k : String) : Bool :=
  props.any (fun p => p.1 = k)

/-- Modelled from the JS builtin `RegExp`: `ok p` tells whether
`new RegExp(p)` constructs without throwing, and `test p s` is
`new RegExp(p).test(s)` for valid `p`.  The engine is parameterised
over this model, so universal theorems cover every matcher; concrete
theorems instantiate it with the behaviour of the patterns they use. -/
structure RegexModel where
  ok : String → Bool
  test : String → String → Bool

/-- JS whitespace for `Number` trimming. -/
def isJsSpace (c : Char) : Bool :=
  c = ' ' ∨ c = '\t' ∨ c = '\n' ∨ c = '\r' ∨ c = Char.ofNat 11 ∨ c = Char.ofNat 12

def isDigitChar (c : Char) : Bool := '0' ≤ c ∧ c ≤ '9'

def isHexChar (c : Char) : Bool :=
  ('0' ≤ c ∧ c ≤ '9') ∨ ('a' ≤ c ∧ c ≤ 'f') ∨ ('A' ≤ c ∧ c ≤ 'F')

def digitsToNat (cs : List Char) : Nat :=
  cs.foldl (fun a c => a * 10 + (c.toNat - 48)) 0

def hexToNat (cs : List Char) : Nat :=
  cs.foldl
    (fun a c =>
      a * 16 +
        (if c.toNat ≥ 97 then c.toNat - 87
         else if c.toNat ≥ 65 then c.toNat - 55
         else c.toNat - 48))
    0

/-- `10 ^ d` as an integer. -/
def tenPowI (d : Nat) : Int := Int.ofNat (10 ^ d)

/-- Build the JS number `sign * (I.F) * 10 ^ ex` from decimal parts. -/
def decimalValue (neg : Bool) (intDigits fracDigits : List Char) (ex : Int) : JsNum :=
  let m0 : Int := Int.ofNat (digitsToNat intDigits * 10 ^ fracDigits.length + digitsToNat fracDigits)
  let m1 : Int := if neg then -m0 else m0
  let e' : Int := ex - Int.ofNat fracDigits.length
  if 0 ≤ e' then JsNum.make (m1 * tenPowI e'.natAbs) 0 else JsNum.make m1 e'.natAbs

/-- Modelled from the JS builtin `Number(string)`: trims whitespace,
empty means `0`, otherwise a decimal literal (optional sign, optional
fraction, optional exponent) or an unsigned hexadecimal literal;
anything else is NaN (`none`).  (JS also accepts `Infinity`, octal and
binary prefixes; those produce values outside this model and are
treated as NaN here — no claim exercises them.) -/
def jsNumber (s : String) : Option JsNum :=
  let cs := (s.data.dropWhile isJsSpace).reverse.dropWhile isJsSpace |>.reverse
  match cs with
  | [] => some (JsNum.make 0 0)
  | _ =>
    match cs with
    | '0' :: 'x' :: rest =>
      if rest ≠ [] ∧ rest.all isHexChar then some (JsNum.make (Int.ofNat (hexToNat rest)) 0) else none
    | '0' :: 'X' :: rest =>
      if rest ≠ [] ∧ rest.all isHexChar then some (JsNum.make (Int.ofNat (hexToNat rest)) 0) else none
    | _ =>
      let (neg, body) :=
        match cs with
        | '-' :: rest => (true, rest)
        | '+' :: rest => (false, rest)
        | _ => (false, cs)
      let intPart := body.takeWhile isDigitChar
      let afterInt := body.dropWhile isDigitChar
      let (fracPart, afterFrac) :=
        match afterInt with
        | '.' :: rest => (rest.takeWhile isDigitChar, rest.dropWhile isDigitChar)
        | _ => ([], afterInt)
      if intPart = [] ∧ fracPart = [] then none
      else
        match afterFrac with
        | [] => some (decimalValue neg intPart fracPart 0)
        | e :: rest =>
          if e = 'e' ∨ e = 'E' then
            let (eneg, edigits) :=
              match rest with
              | '-' :: r => (true, r)
              | '+' :: r => (false, r)
              | _ => (false, rest)
            if edigits ≠ [] ∧ edigits.all isDigitChar then
              let ex : Int :=
                if eneg then -Int.ofNat (digitsToNat edigits) else Int.ofNat (digitsToNat edigits)
              some (decimalValue neg intPart fracPart ex)
            else none
          else none

/-- Modelled from the JS builtin `Math.round`: floor of `v + 1/2`
(ties round toward positive infinity). -/
def jsRound (q : JsNum) : Int :=
  if q.d = 0 then q.m else (2 * q.m + tenPowI q.d) / (2 * tenPowI q.d)

/-- `value !== 0` for a number. -/
def numIsZero (q : JsNum) : Bool := q.m = 0

/-- The `tryCoerce` helper (cli.js lines 196–246): attempt to convert a
value to `targetType`; returns the (possibly coerced) value and a
success flag.  `none` models the JS `undefined` argument (the early
`value === null || value === undefined` return). -/
def tryCoerce (value : Option Json) (targetType : String) : Option Json × Bool :=
  match value with
  | none => (value, false)
  | some .null => (value, false)
  | some v =>
    if targetType = "string" then
      match v with
      | .str _ => (value, false)
      | _ => (some (.str (jsToString v)), true)
    else if targetType = "number" ∨ targetType = "integer" then
      match v with
      | .str s =>
        match jsNumber s with
        | some n =>
          if targetType = "integer" then (some (.num (JsNum.make (jsRound n) 0)), true)
          else (some (.num n), true)
        | none => (value, false)
      | .bool b => (some (.num (JsNum.make (if b then 1 else 0) 0)), true)
      | _ => (value, false)
    else if targetType = "boolean" then
      match v with
      | .str s =>
        if lowerStr s = "true" ∨ s = "1" then (some (.bool true), true)
        else if lowerStr s = "false" ∨ s = "0" ∨ s = "" then (some (.bool false), true)
        else (value, false)
      | .num n => (some (.bool (¬ numIsZero n)), true)
      | _ => (value, false)
    else if targetType = "array" then
      match v with
      | .arr _ => (value, false)
      | _ => (some (.arr [v]), true)
    else if targetType = "null" then
      if v = .str "" ∨ v = .str "null" then (some .null, true) else (value, false)
    else (value, false)

/-- Split a pointer string at `'/'`. -/
def splitSlashAux : List Char → List Char → List String
  | [], acc => [String.mk acc.reverse]
  | '/' :: rest, acc => String.mk acc.reverse :: splitSlashAux rest []
  | c :: rest, acc => splitSlashAux rest (c :: acc)

/-- `path.split('/').filter(p => p !== '')` (cli.js line 253). -/
def pathParts (path : String) : List String :=
  (splitSlashAux path.data []).filter (fun p => p ≠ "")

def getSchemaLoop : List String → SchemaNode → Option SchemaNode
  | [], cur => some cur
  | part :: rest, cur =>
    if cur.type = some (.single "object") ∧ cur.properties.isSome then
      match slookup (cur.properties.getD []) part with
      | some sub => getSchemaLoop rest sub
      | none => none
    else
      match cur.items with
      | some sub =>
        if cur.type = some (.single "array") then getSchemaLoop rest sub else none
      | none => none

/-- The Schema Navigator `getSchemaAtPath` (cli.js lines 250–273). -/
def getSchemaAtPath (schema : SchemaNode) (path : String) : Option SchemaNode :=
  if path = "" ∨ path = "/" then some schema
  else getSchemaLoop (pathParts path) schema

/-- A Change Ledger entry (spec section 3 `ChangeRecord`); `fromVal` and
`toVal` are the source's `from`/`to` (`from` is a Lean keyword). -/
structure ChangeRecord where
  path : String
  action : String
  fromVal : Option Json
  toVal : Option Json
  reason : String
  deriving DecidableEq, Repr

/-- `JSON.parse(JSON.stringify(x))` (cli.js line 191) — the identity on
the modelled JSON values. -/
def deepClone (v : Json) : Json := v

/-- `Object.keys(patternProps).some(pattern => new RegExp(pattern).test(key))`
(cli.js line 298): sequential, stopping at the first match; `none`
models the exception thrown when an invalid pattern is constructed
before any pattern matched. -/
def someRegex (rx : RegexModel) (key : String) : List String → Option Bool
  | [] => some false
  | p :: ps =>
    if rx.ok p then
      if rx.test p key then some true else someRegex rx key ps
    else none

/-- One step of the pruner's per-element array loop (cli.js line 283);
`recur` is the recursive call on the item. -/
def pruneArrStep (recur : Json → SchemaNode → List String → Option (Json × List ChangeRecord))
    (itemSchema : SchemaNode) (path : List String) (ix : Nat × Json)
    (acc : Option (List Json × List ChangeRecord)) :
    Option (List Json × List ChangeRecord) := do
  let (restVals, restDelta) ← acc
  let (v', d) ← recur ix.2 itemSchema (path ++ [natToString ix.1])
  some (v' :: restVals, d ++ restDelta)

/-- One step of the pruner's per-key loop (cli.js lines 296–316):
decide removal, or recurse into a declared key; the three components
accumulate the surviving pairs, the recursion deltas, and the removal
records (pushed after the loop in the source). -/
def pruneStep (recur : Json → SchemaNode → List String → Option (Json × List ChangeRecord))
    (rx : RegexModel) (schema : SchemaNode) (path : List String) (kv : String × Json)
    (acc : Option (List (String × Json) × List ChangeRecord × List ChangeRecord)) :
    Option (List (String × Json) × List ChangeRecord × List ChangeRecord) := do
  let (restKvs, restRec, restRem) ← acc
  let key := kv.1
  let properties := schema.properties.getD []
  let isKnownProperty := hasProp properties key
  let matchesPattern ←
    match schema.patternProps with
    | none => some false
    | some pats => someRegex rx key (pats.map (fun p => p.1))
  if ¬ (schema.addl ≠ some false) ∧ ¬ isKnownProperty ∧ matchesPattern = false then
    some (restKvs, restRec,
      ChangeRecord.mk (renderPath (path ++ [key])) "removed" (some kv.2) none
        "Property not allowed by schema (additionalProperties: false)" :: restRem)
  else
    match slookup properties key with
    | some sub => do
      let (v', d) ← recur kv.2 sub (path ++ [key])
      some ((key, v') :: restKvs, d ++ restRec, restRem)
    | none => some ((key, kv.2) :: restKvs, restRec, restRem)

/-- The Additional-Property Pruner `removeAdditionalProperties`
(cli.js lines 277–318).  Returns the pruned value and the appended
change records (the source mutates `obj` and pushes onto `changes`);
`none` models an exception escaping the pass (invalid pattern regex).
Recursion is by fuel; fuel exhaustion leaves the value unchanged. -/
def removeAdditionalProperties (fuel : Nat) (rx : RegexModel) (obj : Json)
    (schema : SchemaNode) (path : List String) : Option (Json × List ChangeRecord) :=
  match fuel with
  | 0 => some (obj, [])
  | fuel + 1 =>
    match obj with
    | .arr xs =>
      match schema.items with
      | some itemSchema =>
        let processed := xs.enum.foldr
          (pruneArrStep (fun v sub p => removeAdditionalProperties fuel rx v sub p)
            itemSchema path)
          (some ([], []))
        match processed with
        | none => none
        | some (vals, delta) => some (.arr vals, delta)
      | none => some (.arr xs, [])
    | .obj kvs =>
      if schema.type = some (.single "object") ∨ schema.properties.isSome then
        let processed := kvs.foldr
          (pruneStep (fun v sub p => removeAdditionalProperties fuel rx v sub p)
            rx schema path)
          (some ([], [], []))
        match processed with
        | none => none
        | some (kvs', recDeltas, removals) => some (.obj kvs', recDeltas ++ removals)
      else some (.obj kvs, [])
    | v => some (v, [])

/-- The first-applicable-rule loop of `applyTypeCoercion`
(cli.js lines 442–454). -/
def coerceFirst (pathStr : String) (obj : Json) : List String → Json × List ChangeRecord
  | [] => (obj, [])
  | t :: ts =>
    match tryCoerce (some obj) t with
    | (some c, true) =>
      (c, [ChangeRecord.mk pathStr "coerced" (some obj) (some c)
            ("Coerced " ++ jsTypeof obj ++ " to " ++ t)])
    | (none, true) => (obj, [])
    | (_, false) => coerceFirst pathStr obj ts

/-- One step of the coercer's per-property loop (cli.js lines
429–433); `recur` is the recursive call on the present property
value. -/
def coercePropsStep (recur : Json → SchemaNode → List String → Json × List ChangeRecord)
    (path : List String) (acc : List (String × Json) × List ChangeRecord)
    (pe : String × SchemaNode) : List (String × Json) × List ChangeRecord :=
  match jlookup acc.1 pe.1 with
  | some v =>
    let r := recur v pe.2 (path ++ [pe.1])
    (assignKey acc.1 pe.1 r.1, acc.2 ++ r.2)
  | none => acc

/-- The Type Coercer `applyTypeCoercion` (cli.js lines 417–456). -/
def applyTypeCoercion (fuel : Nat) (obj : Json) (schema : SchemaNode)
    (path : List String) : Json × List ChangeRecord :=
  match fuel with
  | 0 => (obj, [])
  | fuel + 1 =>
    if schemaTypeFalsy schema.type then (obj, [])
    else
      let types := (schema.type.getD (.single "")).toList
      let currentType := typeNameOf obj
      if types.contains currentType then
        match obj, schema.properties with
        | .obj kvs, some props =>
          let r := props.foldl
            (coercePropsStep (fun v sub p => applyTypeCoercion fuel v sub p) path)
            (kvs, [])
          (.obj r.1, r.2)
        | .arr xs, _ =>
          match schema.items with
          | some itemSchema =>
            let rs := xs.enum.map
              (fun ix => applyTypeCoercion fuel ix.2 itemSchema (path ++ [natToString ix.1]))
            (.arr (rs.map Prod.fst), rs.foldr (fun r acc => r.2 ++ acc) [])
          | none => (obj, [])
        | _, _ => (obj, [])
      else coerceFirst (renderPath path) obj types

/-- One step of the Default Applicator's per-property loop (cli.js
lines 341–382): fill a missing property from its default or required
container skeleton, or recurse into a present one (`recur`). -/
def defaultsStep (recur : Json → SchemaNode → List String → Json × List ChangeRecord)
    (required : List String) (path : List String)
    (acc : List (String × Json) × List ChangeRecord)
    (pe : String × SchemaNode) : List (String × Json) × List ChangeRecord :=
  let propName := pe.1
  let propSchema := pe.2
  let propPath := renderPath (path ++ [propName])
  match jlookup acc.1 propName with
  | none =>
    match propSchema.dflt with
    | some d =>
      (assignKey acc.1 propName (deepClone d),
       acc.2 ++ [ChangeRecord.mk propPath "defaulted" none (some d)
         "Applied schema default value"])
    | none =>
      if required.contains propName then
        if propSchema.type = some (.single "object") then
          (assignKey acc.1 propName (.obj []),
           acc.2 ++ [ChangeRecord.mk propPath "added" none (some (.obj []))
             "Added required object property"])
        else if propSchema.type = some (.single "array") then
          (assignKey acc.1 propName (.arr []),
           acc.2 ++ [ChangeRecord.mk propPath "added" none (some (.arr []))
             "Added required array property"])
        else acc
      else acc
  | some v =>
    let rr := recur v propSchema (path ++ [propName])
    (assignKey acc.1 propName rr.1, acc.2 ++ rr.2)

/-- The Default Applicator `applyDefaults` (cli.js lines 322–413). -/
def applyDefaults (fuel : Nat) (obj : Json) (schema : SchemaNode)
    (path : List String) : Json × List ChangeRecord :=
  match fuel with
  | 0 => (obj, [])
  | fuel + 1 =>
    if schema.type = some (.single "object") ∨ schema.properties.isSome then
      let objectPart := fun (kvs0 : List (String × Json)) =>
        let r := (schema.properties.getD []).foldl
          (defaultsStep (fun v sub p => applyDefaults fuel v sub p)
            (schema.required.getD []) path)
          (kvs0, ([] : List ChangeRecord))
        (Json.obj r.1, r.2)
      match obj with
      | .obj kvs => objectPart kvs
      | other =>
        match schema.dflt with
        | some d =>
          (deepClone d,
           [ChangeRecord.mk (renderPath path) "defaulted" (some other) (some d)
             "Applied schema default for missing object"])
        | none => objectPart []
    else
      match schema.type, schema.items with
      | some (.single "array"), some itemSchema =>
        match obj with
        | .arr xs =>
          let rs := xs.enum.map
            (fun ix => applyDefaults fuel ix.2 itemSchema (path ++ [natToString ix.1]))
          (.arr (rs.map Prod.fst), rs.foldr (fun r acc => r.2 ++ acc) [])
        | other =>
          match schema.dflt with
          | some d =>
            (deepClone d,
             [ChangeRecord.mk (renderPath path) "defaulted" (some other) (some d)
               "Applied schema default for non-array value"])
          | none => (obj, [])
      | _, _ => (obj, [])

/-- The value already has the container shape `applyDefaults` would
silently impose: no object-typed schema node governs a non-object
value without a `default` (cli.js line 389 substitutes `{}` there
with no record), recursively along the applicator's own descent. -/
def skelFree (fuel : Nat) (v : Json) (s : SchemaNode) : Bool :=
  match fuel with
  | 0 => true
  | fuel + 1 =>
    if s.type = some (.single "object") ∨ s.properties.isSome then
      match v with
      | .obj kvs =>
        (s.properties.getD []).all (fun pe =>
          match jlookup kvs pe.1 with
          | some w => skelFree fuel w pe.2
          | none => true)
      | _ => false
    else
      match s.type, s.items with
      | some (.single "array"), some itemSchema =>
        match v with
        | .arr xs => xs.all (fun x => skelFree fuel x itemSchema)
        | _ => true
      | _, _ => true

mutual
/-- All key paths (object keys, descending through array indices the
way the engine renders them) present in a value. -/
def keyPaths : Json → List (List String)
  | .obj kvs => keyPathsPairs kvs
  | .arr xs => keyPathsElems 0 xs
  | .null => []
  | .bool _ => []
  | .num _ => []
  | .str _ => []

def keyPathsPairs : List (String × Json) → List (List String)
  | [] => []
  | (k, w) :: rest => [k] :: ((keyPaths w).map (fun q => k :: q) ++ keyPathsPairs rest)

def keyPathsElems : Nat → List Json → List (List String)
  | _, [] => []
  | i, w :: rest => (keyPaths w).map (fun q => natToString i :: q) ++ keyPathsElems (i + 1) rest
end

/-- A key path `p` (relative to the node at `path`) is accounted for by
some change record in `rs`: the record's action is one of `acts` and its
rendered path is a prefix of the key path's rendering. -/
def covers (acts : List String) (path p : List String) (rs : List ChangeRecord) : Prop :=
  ∃ r ∈ rs, r.action ∈ acts ∧ ∃ pre, pre <+: p ∧ r.path = renderPath (path ++ pre)

/-- A string free of `'/'`, the path separator. -/
def slashFree (s : String) : Bool := s.data.all (fun c => c ≠ '/')

def segsSlashFree (segs : List String) : Bool := segs.all slashFree

/-- Decimal value of a digit string (left fold). -/
def digitsVal (cs : List Char) : Nat := cs.foldl (fun acc c => acc * 10 + (c.toNat - 48)) 0

/-- Character-level encoding of a rendered path: each segment
contributes a slash followed by its characters. -/
def pathChars (segs : List String) : List Char :=
  (segs.map (fun s => '/' :: s.data)).flatten

def distinctKeysB : List String → Bool
  | [] => true
  | k :: rest => !(rest.contains k) && distinctKeysB rest

mutual
/-- Well-formed value: every object has pairwise-distinct, slash-free
keys (true of any value produced by `JSON.parse` or a live JS object;
our `Json` type is more liberal). -/
def wfJson : Json → Bool
  | .obj kvs => distinctKeysB (kvs.map Prod.fst) &&
      (kvs.map Prod.fst).all slashFree && wfJsonPairs kvs
  | .arr xs => wfJsonElems xs
  | .null => true
  | .bool _ => true
  | .num _ => true
  | .str _ => true

def wfJsonPairs : List (String × Json) → Bool
  | [] => true
  | kv :: rest => wfJson kv.2 && wfJsonPairs rest

def wfJsonElems : List Json → Bool
  | [] => true
  | w :: rest => wfJson w && wfJsonElems rest
end

mutual
/-- Well-formed schema: no node mixes `properties` with `items`, and
property names are pairwise distinct and slash-free, recursively. -/
def wfSchema : SchemaNode → Bool
  | .mk _ ps it _ _ _ _ =>
    (match ps, it with
     | some _, some _ => false
     | _, _ => true) &&
    (match ps with
     | some l => distinctKeysB (l.map Prod.fst) && (l.map Prod.fst).all slashFree &&
         wfSchemaList l
     | none => true) &&
    (match it with
     | some sub => wfSchema sub
     | none => true)

def wfSchemaList : List (String × SchemaNode) → Bool
  | [] => true
  | pe :: rest => wfSchema pe.2 && wfSchemaList rest
end

/-- The pruner's descent relation: from value `v` governed by schema
`s`, the segment list reaches value `w` governed by `s'` through
declared properties and array items (cli.js lines 283 and 302). -/
inductive PReach : Json → SchemaNode → List String → Json → SchemaNode → Prop where
  | refl (v : Json) (s : SchemaNode) : PReach v s [] v s
  | key {kvs : List (String × Json)} {s : SchemaNode} {k : String} {u : Json}
      {sub : SchemaNode} {rest : List String} {w : Json} {s' : SchemaNode} :
      jlookup kvs k = some u →
      slookup (s.properties.getD []) k = some sub →
      PReach u sub rest w s' →
      PReach (.obj kvs) s (k :: rest) w s'
  | idx {xs : List Json} {s : SchemaNode} {j : Nat} {u : Json}
      {sub : SchemaNode} {rest : List String} {w : Json} {s' : SchemaNode} :
      xs.get? j = some u →
      s.items = some sub →
      PReach u sub rest w s' →
      PReach (.arr xs) s (natToString j :: rest) w s'

/-- Schema-only over-approximation of positions at which the Default
Applicator can place a change record. -/
inductive SPos : SchemaNode → List String → Prop where
  | nil (s : SchemaNode) : SPos s []
  | key {s : SchemaNode} {k : String} {sub : SchemaNode} {rest : List String} :
      slookup (s.properties.getD []) k = some sub →
      SPos sub rest →
      SPos s (k :: rest)
  | idx {s : SchemaNode} {j : Nat} {sub : SchemaNode} {rest : List String} :
      ¬ (s.type = some (.single "object") ∨ s.properties.isSome = true) →
      s.type = some (.single "array") →
      s.items = some sub →
      SPos sub rest →
      SPos s (natToString j :: rest)

/-- Schema-only over-approximation of positions at which the Type
Coercer can place a change record. -/
inductive CPos : SchemaNode → List String → Prop where
  | nil (s : SchemaNode) : CPos s []
  | key {s : SchemaNode} {k : String} {sub : SchemaNode} {rest : List String} :
      ((s.type.getD (.single "")).toList).contains "object" = true →
      slookup (s.properties.getD []) k = some sub →
      CPos sub rest → CPos s (k :: rest)
  | idx {s : SchemaNode} {j : Nat} {sub : SchemaNode} {rest : List String} :
      ((s.type.getD (.single "")).toList).contains "array" = true →
      s.items = some sub →
      CPos sub rest → CPos s (natToString j :: rest)

def c8Schema : SchemaNode :=
  .mk (some (.single "object"))
    (some [("a", .mk (some (.single "object"))
        (some [("b", .mk (some (.single "integer")) none none none none none none)])
        none none none none none)])
    none none (some false) none none

/-- JSON whitespace (`JSON.parse`). -/
def isJsonWs (c : Char) : Bool := c = ' ' ∨ c = '\t' ∨ c = '\n' ∨ c = '\r'

def skipWs (cs : List Char) : List Char := cs.dropWhile isJsonWs

/-- Strict JSON number token (used by the `JSON.parse` model). -/
def parseNumberTok (cs : List Char) : Option (Json × List Char) :=
  let (neg, r0) := match cs with | '-' :: r => (true, r) | _ => (false, cs)
  match r0 with
  | [] => none
  | c :: _ =>
    if ¬ isDigitChar c then none
    else
      let intD := r0.takeWhile isDigitChar
      let r1 := r0.dropWhile isDigitChar
      if intD.length > 1 ∧ intD.headD '0' = '0' then none
      else
        let fracOk : Bool :=
          match r1 with
          | '.' :: r => !(r.takeWhile isDigitChar).isEmpty
          | _ => true
        if fracOk = false then none
        else
          let (fracD, r2) :=
            match r1 with
            | '.' :: r => (r.takeWhile isDigitChar, r.dropWhile isDigitChar)
            | _ => ([], r1)
          match r2 with
          | e :: r3 =>
            if e = 'e' ∨ e = 'E' then
              let (eneg, r4) :=
                match r3 with
                | '-' :: r => (true, r)
                | '+' :: r => (false, r)
                | _ => (false, r3)
              let expD := r4.takeWhile isDigitChar
              let r5 := r4.dropWhile isDigitChar
              if expD = [] then none
              else
                some (.num (decimalValue neg intD fracD
                  (if eneg then -Int.ofNat (digitsToNat expD) else Int.ofNat (digitsToNat expD))), r5)
            else some (.num (decimalValue neg intD fracD 0), r2)
          | [] => some (.num (decimalValue neg intD fracD 0), r2)

mutual

/-- Modelled from the JS builtin `JSON.parse` (strict grammar; returns
the parsed value and the remaining input).  Fuel-bounded recursion;
`jsonParse` supplies ample fuel. -/
def parseValue : Nat → List Char → Option (Json × List Char)
  | 0, _ => none
  | fuel + 1, cs =>
    match cs with
    | 'n' :: 'u' :: 'l' :: 'l' :: rest => some (.null, rest)
    | 't' :: 'r' :: 'u' :: 'e' :: rest => some (.bool true, rest)
    | 'f' :: 'a' :: 'l' :: 's' :: 'e' :: rest => some (.bool false, rest)
    | '"' :: rest =>
      match parseStringBody fuel rest [] with
      | some (s, r) => some (.str s, r)
      | none => none
    | '{' :: rest =>
      match skipWs rest with
      | '}' :: r2 => some (.obj [], r2)
      | r1 => parseMembers fuel r1 []
    | '[' :: rest =>
      match skipWs rest with
      | ']' :: r2 => some (.arr [], r2)
      | r1 => parseElements fuel r1 []
    | _ => parseNumberTok cs

def parseMembers : Nat → List Char → List (String × Json) → Option (Json × List Char)
  | 0, _, _ => none
  | fuel + 1, cs, acc =>
    match cs with
    | '"' :: rest =>
      match parseStringBody fuel rest [] with
      | none => none
      | some (k, r1) =>
        match skipWs r1 with
        | ':' :: r2 =>
          match parseValue fuel (skipWs r2) with
          | none => none
          | some (v, r3) =>
            match skipWs r3 with
            | ',' :: r4 => parseMembers fuel (skipWs r4) (assignKey acc k v)
            | '}' :: r4 => some (.obj (assignKey acc k v), r4)
            | _ => none
        | _ => none
    | _ => none

def parseElements : Nat → List Char → List Json → Option (Json × List Char)
  | 0, _, _ => none
  | fuel + 1, cs, acc =>
    match parseValue fuel cs with
    | none => none
    | some (v, r1) =>
      match skipWs r1 with
      | ',' :: r2 => parseElements fuel (skipWs r2) (acc ++ [v])
      | ']' :: r2 => some (.arr (acc ++ [v]), r2)
      | _ => none

def parseStringBody : Nat → List Char → List Char → Option (String × List Char)
  | 0, _, _ => none
  | fuel + 1, cs, acc =>
    match cs with
    | [] => none
    | '"' :: rest => some (String.mk acc.reverse, rest)
    | '\\' :: e :: rest =>
      if e = '"' then parseStringBody fuel rest ('"' :: acc)
      else if e = '\\' then parseStringBody fuel rest ('\\' :: acc)
      else if e = '/' then parseStringBody fuel rest ('/' :: acc)
      else if e = 'b' then parseStringBody fuel rest (Char.ofNat 8 :: acc)
      else if e = 'f' then parseStringBody fuel rest (Char.ofNat 12 :: acc)
      else if e = 'n' then parseStringBody fuel rest ('\n' :: acc)
      else if e = 'r' then parseStringBody fuel rest ('\r' :: acc)
      else if e = 't' then parseStringBody fuel rest ('\t' :: acc)
      else if e = 'u' then
        match rest with
        | a :: b :: c :: d :: r2 =>
          if isHexChar a ∧ isHexChar b ∧ isHexChar c ∧ isHexChar d then
            parseStringBody fuel r2 (Char.ofNat (hexToNat [a, b, c, d]) :: acc)
          else none
        | _ => none
      else none
    | c :: rest => if c.toNat < 32 then none else parseStringBody fuel rest (c :: acc)

end

/-- Modelled from the JS builtin `JSON.parse(text)`: parse the whole
text as one JSON value. -/
def jsonParse (text : String) : Option Json :=
  match parseValue (2 * text.length + 2) (skipWs text.data) with
  | some (v, rest) => if skipWs rest = [] then some v else none
  | none => none

/-- JS regex `\s` (ASCII part; the Unicode space characters are not
modelled — the texts of the claims contain none). -/
def isWsRegex (c : Char) : Bool := isJsSpace c

def isIdentStart (c : Char) : Bool :=
  ('a' ≤ c ∧ c ≤ 'z') ∨ ('A' ≤ c ∧ c ≤ 'Z') ∨ c = '_'

def isIdentChar (c : Char) : Bool := isIdentStart c ∨ isDigitChar c

/-- JS regex `\w`. -/
def isWordChar (c : Char) : Bool := isIdentChar c

/-- Fix 1 (cli.js line 102): global replace of `,(\s*[}\]])` by `$1`. -/
def fixTrailingCommas : Nat → List Char → List Char
  | 0, cs => cs
  | fuel + 1, cs =>
    match cs with
    | [] => []
    | ',' :: rest =>
      let ws := rest.takeWhile isWsRegex
      match rest.dropWhile isWsRegex with
      | '}' :: r2 => ws ++ '}' :: fixTrailingCommas fuel r2
      | ']' :: r2 => ws ++ ']' :: fixTrailingCommas fuel r2
      | _ => ',' :: fixTrailingCommas fuel rest
    | c :: rest => c :: fixTrailingCommas fuel rest

/-- Fix 2 (cli.js line 104): replace every `'` by `"` (the source's
comment notwithstanding, the replacement is global and does not spare
quotes inside strings). -/
def fixSingleQuotes (cs : List Char) : List Char :=
  cs.map (fun c => if c = '\'' then '"' else c)

/-- Fix 3 (cli.js line 106): global replace of
`(\{|\,)\s*([a-zA-Z_][a-zA-Z0-9_]*)\s*:` by `$1"$2":`. -/
def fixUnquotedKeys : Nat → List Char → List Char
  | 0, cs => cs
  | fuel + 1, cs =>
    match cs with
    | [] => []
    | c :: rest =>
      if c = '{' ∨ c = ',' then
        let r1 := rest.dropWhile isWsRegex
        match r1 with
        | i :: _ =>
          if isIdentStart i then
            let ident := r1.takeWhile isIdentChar
            let r2 := (r1.dropWhile isIdentChar).dropWhile isWsRegex
            match r2 with
            | ':' :: r4 => c :: '"' :: (ident ++ '"' :: ':' :: fixUnquotedKeys fuel r4)
            | _ => c :: fixUnquotedKeys fuel rest
          else c :: fixUnquotedKeys fuel rest
        | [] => c :: fixUnquotedKeys fuel rest
      else c :: fixUnquotedKeys fuel rest

/-- Fix 4a (cli.js line 108): strip `//` line comments. -/
def stripLineComments : Nat → List Char → List Char
  | 0, cs => cs
  | fuel + 1, cs =>
    match cs with
    | [] => []
    | '/' :: '/' :: rest => stripLineComments fuel (rest.dropWhile (fun c => c ≠ '\n'))
    | c :: rest => c :: stripLineComments fuel rest

def findBlockEnd : Nat → List Char → Option (List Char)
  | 0, _ => none
  | _ + 1, [] => none
  | _ + 1, '*' :: '/' :: rest => some rest
  | fuel + 1, _ :: rest => findBlockEnd fuel rest

/-- Fix 4b (cli.js line 109): strip `/* ... */` block comments (lazy;
an unterminated opener is left in place). -/
def stripBlockComments : Nat → List Char → List Char
  | 0, cs => cs
  | fuel + 1, cs =>
    match cs with
    | [] => []
    | '/' :: '*' :: rest =>
      match findBlockEnd (rest.length + 1) rest with
      | some r2 => stripBlockComments fuel r2
      | none => '/' :: stripBlockComments fuel ('*' :: rest)
    | c :: rest => c :: stripBlockComments fuel rest

/-- Fix 5 (cli.js lines 111–112): global replace of `:\s*KW\b` by
`: null` for the bare keywords `undefined` and `NaN`. -/
def fixColonKeyword (kw : List Char) : Nat → List Char → List Char
  | 0, cs => cs
  | fuel + 1, cs =>
    match cs with
    | [] => []
    | ':' :: rest =>
      let r1 := rest.dropWhile isWsRegex
      if kw.isPrefixOf r1 then
        let r2 := r1.drop kw.length
        match r2 with
        | c :: _ =>
          if isWordChar c then ':' :: fixColonKeyword kw fuel rest
          else ':' :: ' ' :: 'n' :: 'u' :: 'l' :: 'l' :: fixColonKeyword kw fuel r2
        | [] => [':', ' ', 'n', 'u', 'l', 'l']
      else ':' :: fixColonKeyword kw fuel rest
    | c :: rest => c :: fixColonKeyword kw fuel rest

/-- The Text Recovery Pass `tryParseJson` (cli.js lines 91–124): one
strict parse, then the fixed sequence of five rewrites, then exactly
one re-parse. -/
def tryParseJson (text : String) : Option Json × List String :=
  match jsonParse text with
  | some v => (some v, [])
  | none =>
    let r1 := fixTrailingCommas (text.data.length + 1) text.data
    let r2 := fixSingleQuotes r1
    let r3 := fixUnquotedKeys (r2.length + 1) r2
    let r4 := stripLineComments (r3.length + 1) r3
    let r5 := stripBlockComments (r4.length + 1) r4
    let r6 := fixColonKeyword "undefined".data (r5.length + 1) r5
    let r7 := fixColonKeyword "NaN".data (r6.length + 1) r6
    match jsonParse (String.mk r7) with
    | some parsed =>
      (some parsed,
       ["Standard JSON parse failed, attempting repairs...",
        "JSON repaired successfully with syntax fixes"])
    | none =>
      (none,
       ["Standard JSON parse failed, attempting repairs...",
        "Could not repair JSON syntax"])

/-- A validation error as the engine shapes it (part_008
`convertError`): keyword, instance path, and — for `required` errors —
the missing property name (`params.missingProperty`).  The remaining
fields (message, schemaPath, other params) carry no information the
claims consult. -/
structure VErr where
  keyword : String
  instPath : String
  missing : Option String
  deriving DecidableEq, Repr

/-- Draft-07 `type` keyword check for one type name (`integer` accepts
exactly the integral numbers, i.e. scale-0 decimals here). -/
def typeMatches (t : String) (v : Json) : Bool :=
  match v with
  | .null => t = "null"
  | .bool _ => t = "boolean"
  | .num q => t = "number" ∨ (t = "integer" ∧ q.d = 0)
  | .str _ => t = "string"
  | .arr _ => t = "array"
  | .obj _ => t = "object"

/-- The per-node (non-recursive) part of the modelled Ajv check:
`type`, `required` and `additionalProperties` errors of the node
itself, with the already-rendered instance path. -/
def nodeErrs (rx : RegexModel) (s : SchemaNode) (v : Json) (ps : String) : List VErr :=
  (match s.type with
   | none => []
   | some st =>
     if st.toList.any (fun t => typeMatches t v) then []
     else [VErr.mk "type" ps none]) ++
  (match v with
   | .obj kvs =>
     (s.required.getD []).filterMap
       (fun r => if hasKey kvs r then none
                 else some (VErr.mk "required" ps (some r))) ++
     (if s.addl = some false then
        kvs.filterMap (fun kv =>
          if hasProp (s.properties.getD []) kv.1
              ∨ (s.patternProps.getD []).any (fun p => rx.test p.1 kv.1) then none
          else some (VErr.mk "additionalProperties" ps none))
      else [])
   | _ => [])

/-- One step of the modelled check's per-member recursion (declared
property, then every matching pattern property); `recur` is the
recursive check. -/
def ajvRecStep (recur : SchemaNode → Json → List String → List VErr)
    (rx : RegexModel) (s : SchemaNode) (path : List String)
    (kv : String × Json) (acc : List VErr) : List VErr :=
  (match slookup (s.properties.getD []) kv.1 with
   | some sub => recur sub kv.2 (path ++ [kv.1])
   | none => []) ++
  ((s.patternProps.getD []).foldr
    (fun p acc2 =>
      (if rx.test p.1 kv.1 then recur p.2 kv.2 (path ++ [kv.1]) else []) ++ acc2)
    []) ++ acc

/-- One step of the modelled check's per-element recursion. -/
def ajvArrStep (recur : SchemaNode → Json → List String → List VErr)
    (isch : SchemaNode) (path : List String)
    (ix : Nat × Json) (acc : List VErr) : List VErr :=
  recur isch ix.2 (path ++ [natToString ix.1]) ++ acc

/-- Modelled from the spec: the external schema-check capability
(Ajv, spec sections 4.6 and 6 — its source is not part of this
repository) restricted to the keywords the claims consult: `type`,
`required`, `additionalProperties`, and recursion through
`properties`, `patternProperties` and `items`.  Errors carry the Ajv
`instancePath` (root is `""` before the engine normalises it). -/
def ajvErrors (fuel : Nat) (rx : RegexModel) (s : SchemaNode) (v : Json)
    (path : List String) : List VErr :=
  match fuel with
  | 0 => []
  | fuel + 1 =>
    nodeErrs rx s v (renderPath path) ++
    (match v with
     | .obj kvs =>
       kvs.foldr (ajvRecStep (fun sub w p => ajvErrors fuel rx sub w p) rx s path) []
     | .arr xs =>
       match s.items with
       | some isch =>
         xs.enum.foldr (ajvArrStep (fun sub w p => ajvErrors fuel rx sub w p) isch path) []
       | none => []
     | _ => [])

/-- Modelled from the spec: success of `ajv.compile` on a schema of the
typed `SchemaNode` universe.  Within that universe, the only structural
invalidity expressible is a `patternProperties` key that is not a valid
regular expression (Ajv compiles each such pattern, and an invalid one
makes compilation throw). -/
def ajvCompileOk (fuel : Nat) (rx : RegexModel) (s : SchemaNode) : Bool :=
  match fuel with
  | 0 => true
  | fuel + 1 =>
    (s.patternProps.getD []).all (fun p => rx.ok p.1) &&
    (s.properties.getD []).all (fun p => ajvCompileOk fuel rx p.2) &&
    (s.patternProps.getD []).all (fun p => ajvCompileOk fuel rx p.2) &&
    (match s.items with
     | some i => ajvCompileOk fuel rx i
     | none => true)

/-- The dynamic `input.schema` argument.  The gate
`!input.schema || typeof input.schema !== 'object'` (cli.js line 463)
sends `undefined`, `null`, booleans, numbers and strings to
`notObjectShaped`; a JS array (`arrayObject`) passes the gate — every
engine pass then finds all schema fields absent — but Ajv rejects it at
compile time; a plain object is a `SchemaNode`. -/
inductive SchemaInput where
  | notObjectShaped : SchemaInput
  | arrayObject : SchemaInput
  | node (s : SchemaNode) : SchemaInput

def emptySchemaNode : SchemaNode := .mk none none none none none none none

/-- The outcome of `repairJson`: the success payload (with the
`parseErrors` field omitted when empty, and the envelope's warnings),
or an error envelope (code, message). -/
inductive RepairOut where
  | ok (repaired : Json) (changes : List ChangeRecord)
       (parseErrors : Option (List String)) (warnings : List String) : RepairOut
  | err (code : String) (message : String) : RepairOut
  deriving DecidableEq, Repr

/-- The instance intake of `repairJson` (cli.js lines 469–479): a string
argument goes through the Text Recovery Pass, anything else is
deep-cloned. -/
def parsedInputOf (instance_or_text : Json) : Option Json × List String :=
  match instance_or_text with
  | .str text => tryParseJson text
  | v => (some (deepClone v), [])

/-- The passes-and-compile body of `repairJson` (cli.js lines 481–508),
applied to the parsed or cloned instance delivered by
`parsedInputOf`. -/
def repairPipeline (fuel : Nat) (rx : RegexModel) (s : SchemaNode) (compOk : Bool)
    (instance_or_text : Json) : RepairOut :=
  match parsedInputOf instance_or_text with
  | (none, _) => .err "PARSE_ERROR" "Could not parse or repair JSON string"
  | (some inst, parseErrors) =>
    match removeAdditionalProperties fuel rx inst s [] with
    | none => .err "INTERNAL_ERROR" "Repair failed: exception escaped a repair pass"
    | some (v1, d1) =>
      let (v2, d2) := applyTypeCoercion fuel v1 s []
      let (v3, d3) := applyDefaults fuel v2 s []
      if compOk = false then .err "INVALID_INPUT" "Invalid JSON Schema"
      else
        .ok v3 (d1 ++ d2 ++ d3)
          (if parseErrors.isEmpty then none else some parseErrors)
          (if (ajvErrors fuel rx s v3 []).isEmpty then []
           else ["Repaired JSON still has validation errors - some issues could not be automatically fixed"])

/-- The repair entry point `repairJson` (cli.js lines 460–513). -/
def repairJson (fuel : Nat) (rx : RegexModel) (schema : SchemaInput)
    (instance_or_text : Json) : RepairOut :=
  match schema with
  | .notObjectShaped => .err "INVALID_INPUT" "Schema must be a valid JSON Schema object"
  | .arrayObject => repairPipeline fuel rx emptySchemaNode false instance_or_text
  | .node s => repairPipeline fuel rx s (ajvCompileOk fuel rx s) instance_or_text

/-- The outcome of `validateJson`. -/
inductive ValidateOut where
  | ok (valid : Bool) (errors : List VErr) : ValidateOut
  | err (code : String) (message : String) : ValidateOut
  deriving DecidableEq, Repr

/-- The validation entry point `validateJson` (part_008 lines 37–90):
shape gate, compile, then the check, with the root instance path
normalised to `"/"` by `convertError`. -/
def validateJson (fuel : Nat) (rx : RegexModel) (schema : SchemaInput)
    (inst : Json) : ValidateOut :=
  match schema with
  | .notObjectShaped => .err "INVALID_INPUT" "Schema must be a valid JSON Schema object"
  | .arrayObject => .err "INVALID_INPUT" "Invalid JSON Schema"
  | .node s =>
    if ajvCompileOk fuel rx s = false then .err "INVALID_INPUT" "Invalid JSON Schema"
    else
      let errs := (ajvErrors fuel rx s inst []).map
        (fun e => if e.instPath = "" then VErr.mk e.keyword "/" e.missing else e)
      .ok errs.isEmpty errs

/-- The error kinds the engine targets (claim C4): keyword `type`,
keyword `additionalProperties`, and `required` errors whose missing
property has a schema default (looked up through the Navigator);
projected to (keyword, path) pairs. -/
def targetedPairs (schema : SchemaNode) (errs : List VErr) : List (String × String) :=
  errs.filterMap (fun e =>
    if e.keyword = "type" ∨ e.keyword = "additionalProperties" then
      some (e.keyword, e.instPath)
    else if e.keyword = "required" then
      match e.missing with
      | some prop =>
        match getSchemaAtPath schema (e.instPath ++ "/" ++ prop) with
        | some sub => if sub.dflt.isSome then some (e.keyword, e.instPath) else none
        | none => none
      | none => none
    else none)

/-! ### Concrete instantiations used by the scenario claims -/

/-- Regex model for runs whose schemas declare no `patternProperties`:
the matcher is never consulted, so any total behaviour is a faithful
instantiation. -/
def rxNoPatterns : RegexModel := ⟨fun _ => true, fun _ _ => false⟩

/-- Regex model for the patterns appearing in the pattern-recursion
scenario: the only pattern used is `""`, and `new RegExp("")` is valid
and matches every string. -/
def rxEmptyPattern : RegexModel := ⟨fun _ => true, fun p _ => p = ""⟩

/-- Regex model for the invalid-pattern scenario: the only pattern used
is `"("`, and `new RegExp("(")` throws a `SyntaxError` (unterminated
group). -/
def rxInvalidParen : RegexModel := ⟨fun p => p ≠ "(", fun _ _ => false⟩

/-- Scenario 1 schema: `{type:"object", properties:{name:{type:"string"},
age:{type:"integer"}, active:{type:"boolean", default:true}},
additionalProperties:false}`. -/
def c1Schema : SchemaNode :=
  .mk (some (.single "object"))
    (some [("name", .mk (some (.single "string")) none none none none none none),
           ("age", .mk (some (.single "integer")) none none none none none none),
           ("active", .mk (some (.single "boolean")) none none none none (some (.bool true)) none)])
    none none (some false) none none

/-- The schema `{type:"object"}`. -/
def typeObjectSchema : SchemaNode :=
  .mk (some (.single "object")) none none none none none none

/-- A sub-schema `{type:"object", properties:{}, additionalProperties:false}`. -/
def c5Sub : SchemaNode :=
  .mk (some (.single "object")) (some []) none none (some false) none none

/-- The schema `{type:"object", properties:{},
patternProperties:{"": {type:"object", properties:{},
additionalProperties:false}}, additionalProperties:false}`. -/
def c5Schema : SchemaNode :=
  .mk (some (.single "object")) (some []) none none (some false) none (some [("", c5Sub)])

/-- The schema `{type:"object", patternProperties:{"(": {}}}` whose only
pattern is an invalid regular expression. -/
def c7Schema : SchemaNode :=
  .mk (some (.single "object")) none none none none none (some [("(", emptySchemaNode)])

/-- The schema `{properties:{age:{type:"integer"}}}` with no top-level
`type` keyword. -/
def c9Schema : SchemaNode :=
  .mk none (some [("age", .mk (some (.single "integer")) none none none none none none)])
    none none none none none

/-- The schema `{type:"object", properties:{a:{type:"string", default:5}}}`
whose default violates its own property schema. -/
def c4Schema : SchemaNode :=
  .mk (some (.single "object"))
    (some [("a", .mk (some (.single "string")) none none none none (some (.num ⟨5, 0⟩)) none)])
    none none none none none

/-- The schema `{type:"object", properties:{a:{default:{foo:1}}}}` with
an object-valued default whose inner key has no governing schema. -/
def c2Schema : SchemaNode :=
  .mk (some (.single "object"))
    (some [("a", .mk none none none none none (some (.obj [("foo", .num ⟨1, 0⟩)])) none)])
    none none none none none

end JV

namespace JV

/-! ### Claims -/


/-- Byte-wise string prefix test on rendered paths. -/
def pathBelow (a b : String) : Bool := a.data.isPrefixOf b.data

/-- Two rendered paths interfere: one is a string prefix of the
other (with the engine's unescaped `/`-concatenation this is the
sound notion of lying on one root-to-leaf line). -/
def pathTouches (a b : String) : Bool := pathBelow a b || pathBelow b a

mutual
/-- Schema restriction for the amended C4: no `patternProperties`
anywhere, and a node carrying `properties` declares no conflicting
`type` (its `type` is absent or exactly `object`), recursively. -/
def propsOk : SchemaNode → Bool
  | .mk t ps it _ _ _ pp =>
    pp.isNone &&
    (match ps with
     | some l => (t = none ∨ t = some (.single "object")) && propsOkList l
     | none => true) &&
    (match it with
     | some i => propsOk i
     | none => true)

def propsOkList : List (String × SchemaNode) → Bool
  | [] => true
  | pe :: rest => propsOk pe.2 && propsOkList rest
end

/-- Root-to-node chain through a value and its governing schema along
the descent shared by the modelled check, the pruner, the coercer and
the defaulter: declared properties and array elements. -/
inductive EChain : Json → SchemaNode → List String → Json → SchemaNode → Prop where
  | nil (v : Json) (s : SchemaNode) : EChain v s [] v s
  | key {kvs : List (String × Json)} {s : SchemaNode} {k : String} {u1 : Json}
      {sub1 : SchemaNode} {rest : List String} {w : Json} {out : SchemaNode} :
      (k, u1) ∈ kvs → slookup (s.properties.getD []) k = some sub1 →
      EChain u1 sub1 rest w out → EChain (.obj kvs) s (k :: rest) w out
  | idx {xs : List Json} {s : SchemaNode} {j : Nat} {x : Json} {isch : SchemaNode}
      {rest : List String} {w : Json} {out : SchemaNode} :
      (j, x) ∈ xs.enum → s.items = some isch →
      EChain x isch rest w out → EChain (.arr xs) s (natToString j :: rest) w out

/-- Shallow agreement: same constructor, same key sequence for
objects, same integrality for numbers — exactly what the per-node
check consults. -/
def sameShallow (a b : Json) : Bool :=
  match a, b with
  | .obj ka, .obj kb => ka.map Prod.fst == kb.map Prod.fst
  | .arr _, .arr _ => true
  | .num qa, .num qb => (qa.d == 0) == (qb.d == 0)
  | .str _, .str _ => true
  | .bool _, .bool _ => true
  | .null, .null => true
  | _, _ => false

/-- Schema for the amended C4 witness: one declared property of type
`null` holding a string the coercer cannot convert. -/
def c4wSchema : SchemaNode :=
  .mk (some (.single "object"))
    (some [("a", .mk (some (.single "null")) none none none none none none)])
    none none none none none


/-- **C1.**  For the Scenario 1 schema and the input text
`"\x7b'name': 'John', 'age': '30', 'extra': 'field',\x7d"`, `repairJson`
succeeds and returns repaired `{name:"John", age:30, active:true}`,
and its change list contains a `removed` record at `/extra`, a
`coerced` record at `/age`, and a `defaulted` record at `/active`. -/
theorem C1_scenario_repair :
    repairJson 100 rxNoPatterns (.node c1Schema)
      (.str "\x7b'name': 'John', 'age': '30', 'extra': 'field',\x7d") =
      .ok (.obj [("name", .str "John"), ("age", .num ⟨30, 0⟩), ("active", .bool true)])
        [⟨"/extra", "removed", some (.str "field"), none,
           "Property not allowed by schema (additionalProperties: false)"⟩,
         ⟨"/age", "coerced", some (.str "30"), some (.num ⟨30, 0⟩), "Coerced string to integer"⟩,
         ⟨"/active", "defaulted", none, some (.bool true), "Applied schema default value"⟩]
        (some ["Standard JSON parse failed, attempting repairs...",
               "JSON repaired successfully with syntax fixes"])
        [] ∧
    (∃ ch, repairJson 100 rxNoPatterns (.node c1Schema)
        (.str "\x7b'name': 'John', 'age': '30', 'extra': 'field',\x7d") =
        .ok (.obj [("name", .str "John"), ("age", .num ⟨30, 0⟩), ("active", .bool true)])
          ch (some ["Standard JSON parse failed, attempting repairs...",
                    "JSON repaired successfully with syntax fixes"]) [] ∧
      (∃ r ∈ ch, r.action = "removed" ∧ r.path = "/extra") ∧
      (∃ r ∈ ch, r.action = "coerced" ∧ r.path = "/age") ∧
      (∃ r ∈ ch, r.action = "defaulted" ∧ r.path = "/active")) := by
  have h : repairJson 100 rxNoPatterns (.node c1Schema)
      (.str "\x7b'name': 'John', 'age': '30', 'extra': 'field',\x7d") =
      .ok (.obj [("name", .str "John"), ("age", .num ⟨30, 0⟩), ("active", .bool true)])
        [⟨"/extra", "removed", some (.str "field"), none,
           "Property not allowed by schema (additionalProperties: false)"⟩,
         ⟨"/age", "coerced", some (.str "30"), some (.num ⟨30, 0⟩), "Coerced string to integer"⟩,
         ⟨"/active", "defaulted", none, some (.bool true), "Applied schema default value"⟩]
        (some ["Standard JSON parse failed, attempting repairs...",
               "JSON repaired successfully with syntax fixes"])
        [] := by decide
  refine ⟨h, ⟨_, h, ?_, ?_, ?_⟩⟩
  · exact ⟨⟨"/extra", "removed", some (.str "field"), none,
      "Property not allowed by schema (additionalProperties: false)"⟩, by decide, by decide, by decide⟩
  · exact ⟨⟨"/age", "coerced", some (.str "30"), some (.num ⟨30, 0⟩),
      "Coerced string to integer"⟩, by decide, by decide, by decide⟩
  · exact ⟨⟨"/active", "defaulted", none, some (.bool true),
      "Applied schema default value"⟩, by decide, by decide, by decide⟩

/-- **C6, counterexample.**  The Type Coercer does not convert an absent
value to `null`: `tryCoerce(undefined, 'null')` takes the early
`value === undefined` return and reports failure, contradicting the
claim that an absent source is converted to `null` under a
null-accepting schema. -/
theorem C6_absent_not_converted :
    tryCoerce none "null" = (none, false) ∧
    ¬ tryCoerce none "null" = (some .null, true) := by
  exact ⟨by decide, by decide⟩

/-- **C6, amended.**  Under any schema whose allowed type is `null`, the
Type Coercer converts the empty string and the string `"null"` to
`null`, logging a `coerced` record; an absent value, by contrast, is
never converted (`tryCoerce` fails on `undefined`). -/
theorem C6_null_coercions (fuel : Nat) (s : SchemaNode) (path : List String)
    (h : s.type = some (.single "null")) :
    applyTypeCoercion (fuel + 1) (.str "") s path =
      (.null, [⟨renderPath path, "coerced", some (.str ""), some .null,
                "Coerced string to null"⟩]) ∧
    applyTypeCoercion (fuel + 1) (.str "null") s path =
      (.null, [⟨renderPath path, "coerced", some (.str "null"), some .null,
                "Coerced string to null"⟩]) ∧
    tryCoerce none "null" = (none, false) := by
  refine ⟨?_, ?_, by decide⟩ <;>
  · simp [applyTypeCoercion, h, schemaTypeFalsy, SchemaType.toList, typeNameOf,
      coerceFirst, tryCoerce]
    decide

/-- Witness for `C6_null_coercions` at a concrete schema and path. -/
theorem C6_null_coercions_witness :
    applyTypeCoercion 1 (.str "")
        (SchemaNode.mk (some (.single "null")) none none none none none none) [] =
      (.null, [⟨"", "coerced", some (.str ""), some .null, "Coerced string to null"⟩]) :=
  (C6_null_coercions 0 (SchemaNode.mk (some (.single "null")) none none none none none none)
    [] rfl).1

/-- **C9.**  When the governing schema node declares no `type` keyword
the Type Coercer returns the value unchanged with no records — it
neither coerces the node nor recurses into children; consequently, for
the root schema `{properties:{age:{type:"integer"}}}` and the value
`{age:"30"}`, `repairJson` leaves the nested numeric string uncoerced
and produces no `coerced` record. -/
theorem C9_no_type_no_coercion :
    (∀ (fuel : Nat) (obj : Json) (s : SchemaNode) (path : List String),
      s.type = none → applyTypeCoercion fuel obj s path = (obj, [])) ∧
    repairJson 100 rxNoPatterns (.node c9Schema) (.obj [("age", .str "30")]) =
      .ok (.obj [("age", .str "30")]) [] none
        ["Repaired JSON still has validation errors - some issues could not be automatically fixed"] := by
  constructor
  · intro fuel obj s path h
    cases fuel with
    | zero => rfl
    | succ n => simp [applyTypeCoercion, h, schemaTypeFalsy]
  · decide

/-- Witness for `C9_no_type_no_coercion`'s universal component at a
concrete schema lacking `type`. -/
theorem C9_no_type_no_coercion_witness :
    applyTypeCoercion 7 (.obj [("age", .str "30")]) c9Schema [] =
      (.obj [("age", .str "30")], []) :=
  C9_no_type_no_coercion.1 7 (.obj [("age", .str "30")]) c9Schema [] rfl

/-- **C10.**  The single-quote rewrite of the Text Recovery Pass
replaces every apostrophe, including those inside double-quoted string
literals: for the text `{"msg": "it's",}` — whose only syntax error is
the trailing comma — `repairJson` returns `PARSE_ERROR`, although
applying the trailing-comma fix alone would have produced valid JSON,
because the subsequent quote rewrite corrupts the string data. -/
theorem C10_quote_rewrite_breaks_parse :
    repairJson 100 rxNoPatterns (.node typeObjectSchema) (.str "\x7b\"msg\": \"it's\",\x7d") =
      .err "PARSE_ERROR" "Could not parse or repair JSON string" ∧
    jsonParse (String.mk (fixTrailingCommas 100 "\x7b\"msg\": \"it's\",\x7d".data)) =
      some (.obj [("msg", .str "it's")]) ∧
    fixSingleQuotes (fixTrailingCommas 100 "\x7b\"msg\": \"it's\",\x7d".data) =
      "\x7b\"msg\": \"it\"s\"\x7d".data := by
  exact ⟨by decide, by decide, by decide⟩

/-- **C7, counterexample.**  The schema
`{type:"object", patternProperties:{"(": {}}}` is structurally invalid
for the external check capability (compiling it throws on the invalid
regular expression), yet for the instance `{a:1}` `repairJson` surfaces
`INTERNAL_ERROR` — the pruner constructs the invalid regex before the
compile step runs — contradicting the claim that every such schema
yields `INVALID_INPUT` and never `INTERNAL_ERROR`. -/
theorem C7_invalid_schema_internal_error :
    ajvCompileOk 100 rxInvalidParen c7Schema = false ∧
    repairJson 100 rxInvalidParen (.node c7Schema) (.obj [("a", .num ⟨1, 0⟩)]) =
      .err "INTERNAL_ERROR" "Repair failed: exception escaped a repair pass" := by
  exact ⟨by decide, by decide⟩

/-- **C7, amended.**  `repairJson` fails with `INVALID_INPUT` whenever
the schema argument is not object-shaped (checked before any
traversal), and whenever the schema fails to compile provided the
instance was obtained and the pruner completed without throwing; a
compile-invalid schema never yields success — but one whose invalid
`patternProperties` regex is reached by the pruner surfaces
`INTERNAL_ERROR` instead (see the counterexample). -/
theorem C7_invalid_input_cases :
    (∀ (fuel : Nat) (rx : RegexModel) (inst : Json),
      repairJson fuel rx .notObjectShaped inst =
        .err "INVALID_INPUT" "Schema must be a valid JSON Schema object") ∧
    (∀ (fuel : Nat) (rx : RegexModel) (s : SchemaNode) (inst : Json)
        (v : Json) (ch : List ChangeRecord) (pe : Option (List String)) (w : List String),
      ajvCompileOk fuel rx s = false →
      repairJson fuel rx (.node s) inst ≠ .ok v ch pe w) ∧
    (∀ (fuel : Nat) (rx : RegexModel) (s : SchemaNode) (inst parsed : Json)
        (perrs : List String) (pr : Json × List ChangeRecord),
      parsedInputOf inst = (some parsed, perrs) →
      removeAdditionalProperties fuel rx parsed s [] = some pr →
      ajvCompileOk fuel rx s = false →
      repairJson fuel rx (.node s) inst = .err "INVALID_INPUT" "Invalid JSON Schema") := by
  refine ⟨fun _ _ _ => rfl, ?_, ?_⟩
  · intro fuel rx s inst v ch pe w hcomp
    match h1 : parsedInputOf inst with
    | (none, perrs) => simp [repairJson, repairPipeline, h1]
    | (some parsed, perrs) =>
      match h2 : removeAdditionalProperties fuel rx parsed s [] with
      | none => simp [repairJson, repairPipeline, h1, h2]
      | some (v1, d1) => simp [repairJson, repairPipeline, h1, h2, hcomp]
  · intro fuel rx s inst parsed perrs pr h1 h2 hcomp
    simp [repairJson, repairPipeline, h1, h2, hcomp]

/-- Witness for `C7_invalid_input_cases`: the compile-invalid schema
`c7Schema` with an empty-object instance (which the pruner traverses
without consulting any pattern) yields `INVALID_INPUT`. -/
theorem C7_invalid_input_cases_witness :
    repairJson 5 rxInvalidParen (.node c7Schema) (.obj []) =
      .err "INVALID_INPUT" "Invalid JSON Schema" :=
  C7_invalid_input_cases.2.2 5 rxInvalidParen c7Schema (.obj []) (.obj []) []
    (.obj [], []) (by decide) (by decide) (by decide)

/-! ### Pruner step lemmas (shared helpers) -/

theorem slookup_some_hasProp {ps : List (String × SchemaNode)} {k : String} {sub : SchemaNode}
    (h : slookup ps k = some sub) : hasProp ps k = true := by
  induction ps with
  | nil => simp [slookup] at h
  | cons p rest ih =>
    obtain ⟨k0, s0⟩ := p
    by_cases hk : k0 = k
    · simp [hasProp, hk]
    · simp [slookup, hk] at h
      simpa [hasProp, hk] using ih h

/-- Any completed pruner step either drops its key or re-emits it in
front of the accumulated survivors. -/
theorem pruneStep_shape {recur : Json → SchemaNode → List String → Option (Json × List ChangeRecord)}
    {rx : RegexModel} {s : SchemaNode} {path : List String} {k0 : String} {v0 : Json}
    {rk : List (String × Json)} {rrec rrem : List ChangeRecord}
    {out : List (String × Json) × List ChangeRecord × List ChangeRecord}
    (h : pruneStep recur rx s path (k0, v0) (some (rk, rrec, rrem)) = some out) :
    out.1 = rk ∨ ∃ x, out.1 = (k0, x) :: rk := by
  unfold pruneStep at h
  cases hpp : s.patternProps with
  | none =>
    rw [hpp] at h
    simp [Option.bind] at h
    split at h
    · simp at h
      exact Or.inl (by rw [← h])
    · rcases hsl : slookup (s.properties.getD []) k0 with _ | sub
      · simp only [hsl] at h
        simp at h
        exact Or.inr ⟨v0, by rw [← h]⟩
      · simp only [hsl] at h
        rcases hr : recur v0 sub (path ++ [k0]) with _ | ⟨v', d⟩
        · simp only [hr] at h; simp at h
        · simp only [hr] at h
          simp at h
          exact Or.inr ⟨v', by rw [← h]⟩
  | some qs =>
    rw [hpp] at h
    rcases hsr : someRegex rx k0 (qs.map (fun q => q.1)) with _ | mp
    · simp only [hsr] at h; simp at h
    · simp only [hsr] at h
      simp [Option.bind] at h
      split at h
      · simp at h
        exact Or.inl (by rw [← h])
      · rcases hsl : slookup (s.properties.getD []) k0 with _ | sub
        · simp only [hsl] at h
          simp at h
          exact Or.inr ⟨v0, by rw [← h]⟩
        · simp only [hsl] at h
          rcases hr : recur v0 sub (path ++ [k0]) with _ | ⟨v', d⟩
          · simp only [hr] at h; simp at h
          · simp only [hr] at h
            simp at h
            exact Or.inr ⟨v', by rw [← h]⟩

/-- A pruner step on an undeclared but pattern-matched key keeps the
key with its value untouched and appends nothing. -/
theorem pruneStep_kept_matched {recur : Json → SchemaNode → List String → Option (Json × List ChangeRecord)}
    {rx : RegexModel} {s : SchemaNode} {path : List String} {key : String} {v0 : Json}
    {rk : List (String × Json)} {rrec rrem : List ChangeRecord}
    {out : List (String × Json) × List ChangeRecord × List ChangeRecord}
    {pats : List (String × SchemaNode)}
    (hundecl : slookup (s.properties.getD []) key = none)
    (hpats : s.patternProps = some pats)
    (hmatch : someRegex rx key (pats.map (fun q => q.1)) = some true)
    (h : pruneStep recur rx s path (key, v0) (some (rk, rrec, rrem)) = some out) :
    out = ((key, v0) :: rk, rrec, rrem) := by
  unfold pruneStep at h
  rw [hpats] at h
  simp only [hmatch] at h
  simp [Option.bind, hundecl] at h
  rw [← h]

/-- A pruner step on a declared key recurses into its sub-schema and
re-emits the recursion's value. -/
theorem pruneStep_declared {recur : Json → SchemaNode → List String → Option (Json × List ChangeRecord)}
    {rx : RegexModel} {s : SchemaNode} {path : List String} {key : String} {v0 : Json}
    {rk : List (String × Json)} {rrec rrem : List ChangeRecord} {sub : SchemaNode}
    {out : List (String × Json) × List ChangeRecord × List ChangeRecord}
    (hdecl : slookup (s.properties.getD []) key = some sub)
    (h : pruneStep recur rx s path (key, v0) (some (rk, rrec, rrem)) = some out) :
    ∃ v' d, recur v0 sub (path ++ [key]) = some (v', d) ∧
      out = ((key, v') :: rk, d ++ rrec, rrem) := by
  unfold pruneStep at h
  have hknown := slookup_some_hasProp hdecl
  cases hpp : s.patternProps with
  | none =>
    rw [hpp] at h
    simp [Option.bind, hknown] at h
    simp only [hdecl] at h
    rcases hr : recur v0 sub (path ++ [key]) with _ | ⟨v', d⟩
    · simp only [hr] at h; simp at h
    · simp only [hr] at h
      simp at h
      exact ⟨v', d, rfl, by rw [← h]⟩
  | some qs =>
    rw [hpp] at h
    rcases hsr : someRegex rx key (qs.map (fun q => q.1)) with _ | mp
    · simp only [hsr] at h; simp at h
    · simp only [hsr] at h
      simp [Option.bind, hknown] at h
      simp only [hdecl] at h
      rcases hr : recur v0 sub (path ++ [key]) with _ | ⟨v', d⟩
      · simp only [hr] at h; simp at h
      · simp only [hr] at h
        simp at h
        exact ⟨v', d, rfl, by rw [← h]⟩

/-- Through the whole per-key loop, an undeclared pattern-matched key
survives with its subtree verbatim. -/
theorem prune_fold_keeps {recur : Json → SchemaNode → List String → Option (Json × List ChangeRecord)}
    {rx : RegexModel} {s : SchemaNode} {path : List String} {key : String} {v : Json}
    {pats : List (String × SchemaNode)}
    (hundecl : slookup (s.properties.getD []) key = none)
    (hpats : s.patternProps = some pats)
    (hmatch : someRegex rx key (pats.map (fun q => q.1)) = some true) :
    ∀ (kvs : List (String × Json)) (out : List (String × Json) × List ChangeRecord × List ChangeRecord),
      jlookup kvs key = some v →
      kvs.foldr (pruneStep recur rx s path) (some ([], [], [])) = some out →
      jlookup out.1 key = some v := by
  intro kvs
  induction kvs with
  | nil => intro out h; simp [jlookup] at h
  | cons kv rest ih =>
    intro out hv hout
    obtain ⟨k0, v0⟩ := kv
    rw [List.foldr_cons] at hout
    rcases hacc : rest.foldr (pruneStep recur rx s path) (some ([], [], [])) with _ | ⟨rk, rrec, rrem⟩
    · rw [hacc] at hout; simp [pruneStep] at hout
    · rw [hacc] at hout
      by_cases hk : k0 = key
      · subst hk
        simp [jlookup] at hv
        subst hv
        have := pruneStep_kept_matched hundecl hpats hmatch hout
        rw [this]
        simp [jlookup]
      · simp only [jlookup, if_neg hk] at hv
        have hrk := ih (rk, rrec, rrem) hv hacc
        rcases pruneStep_shape hout with h1 | ⟨x, h1⟩
        · rw [h1]; exact hrk
        · rw [h1]; simpa [jlookup, hk] using hrk

/-- Through the whole per-key loop, a declared present key is recursed
into and its recursion value survives. -/
theorem prune_fold_declared {recur : Json → SchemaNode → List String → Option (Json × List ChangeRecord)}
    {rx : RegexModel} {s : SchemaNode} {path : List String} {key : String} {v : Json} {sub : SchemaNode}
    (hdecl : slookup (s.properties.getD []) key = some sub) :
    ∀ (kvs : List (String × Json)) (out : List (String × Json) × List ChangeRecord × List ChangeRecord),
      jlookup kvs key = some v →
      kvs.foldr (pruneStep recur rx s path) (some ([], [], [])) = some out →
      ∃ v' d, recur v sub (path ++ [key]) = some (v', d) ∧ jlookup out.1 key = some v' := by
  intro kvs
  induction kvs with
  | nil => intro out h; simp [jlookup] at h
  | cons kv rest ih =>
    intro out hv hout
    obtain ⟨k0, v0⟩ := kv
    rw [List.foldr_cons] at hout
    rcases hacc : rest.foldr (pruneStep recur rx s path) (some ([], [], [])) with _ | ⟨rk, rrec, rrem⟩
    · rw [hacc] at hout; simp [pruneStep] at hout
    · rw [hacc] at hout
      by_cases hk : k0 = key
      · subst hk
        simp [jlookup] at hv
        subst hv
        obtain ⟨v', d, hr, hform⟩ := pruneStep_declared hdecl hout
        exact ⟨v', d, hr, by rw [hform]; simp [jlookup]⟩
      · simp only [jlookup, if_neg hk] at hv
        obtain ⟨v', d, hr, hl⟩ := ih (rk, rrec, rrem) hv hacc
        rcases pruneStep_shape hout with h1 | ⟨x, h1⟩
        · exact ⟨v', d, hr, by rw [h1]; exact hl⟩
        · exact ⟨v', d, hr, by rw [h1]; simpa [jlookup, hk] using hl⟩

/-- **C5, counterexample.**  For the schema whose `patternProperties`
pattern `""` (which matches every key) carries a sub-schema with
`additionalProperties:false`, and the input `{data:{bad:1}}`, the
pruner leaves the nested disallowed key `bad` in place and logs
nothing — the change list is empty and the value is returned verbatim —
contradicting the claim that pattern-matched keys are recursed into and
`/data/bad` is removed and logged. -/
theorem C5_matched_key_not_recursed_counterexample :
    repairJson 100 rxEmptyPattern (.node c5Schema) (.obj [("data", .obj [("bad", .num ⟨1, 0⟩)])]) =
      .ok (.obj [("data", .obj [("bad", .num ⟨1, 0⟩)])]) [] none
        ["Repaired JSON still has validation errors - some issues could not be automatically fixed"] := by
  decide

/-- **C5, amended.**  During pruning, every object key declared in
`properties` is recursed into against its sub-schema; a key that is
only matched by a `patternProperties` regex is retained but *not*
recursed into — its entire subtree survives verbatim, so nested
disallowed keys beneath it are not removed. -/
theorem C5_prune_recursion_behaviour :
    (∀ (fuel : Nat) (rx : RegexModel) (kvs : List (String × Json)) (s : SchemaNode)
        (path : List String) (key : String) (v : Json) (sub : SchemaNode)
        (out : Json × List ChangeRecord),
      jlookup kvs key = some v →
      slookup (s.properties.getD []) key = some sub →
      (s.type = some (.single "object") ∨ s.properties.isSome = true) →
      removeAdditionalProperties (fuel + 1) rx (.obj kvs) s path = some out →
      ∃ v' d kvs', removeAdditionalProperties fuel rx v sub (path ++ [key]) = some (v', d) ∧
        out.1 = .obj kvs' ∧ jlookup kvs' key = some v') ∧
    (∀ (fuel : Nat) (rx : RegexModel) (kvs : List (String × Json)) (s : SchemaNode)
        (path : List String) (key : String) (v : Json)
        (out : Json × List ChangeRecord) (pats : List (String × SchemaNode)),
      jlookup kvs key = some v →
      slookup (s.properties.getD []) key = none →
      s.patternProps = some pats →
      someRegex rx key (pats.map (fun q => q.1)) = some true →
      removeAdditionalProperties fuel rx (.obj kvs) s path = some out →
      ∃ kvs', out.1 = .obj kvs' ∧ jlookup kvs' key = some v) := by
  constructor
  · intro fuel rx kvs s path key v sub out hv hdecl hcond hrun
    simp only [removeAdditionalProperties, if_pos hcond] at hrun
    rcases hproc : kvs.foldr (pruneStep (fun v sub p => removeAdditionalProperties fuel rx v sub p) rx s path)
        (some ([], [], [])) with _ | ⟨kvs', recD, remD⟩
    · rw [hproc] at hrun; simp at hrun
    · rw [hproc] at hrun
      simp at hrun
      obtain ⟨v', d, hr, hl⟩ := prune_fold_declared hdecl kvs (kvs', recD, remD) hv hproc
      exact ⟨v', d, kvs', hr, by rw [← hrun], hl⟩
  · intro fuel rx kvs s path key v out pats hv hundecl hpats hmatch hrun
    cases fuel with
    | zero =>
      simp [removeAdditionalProperties] at hrun
      exact ⟨kvs, by rw [← hrun], hv⟩
    | succ fuel =>
      by_cases hcond : (s.type = some (.single "object") ∨ s.properties.isSome = true)
      · simp only [removeAdditionalProperties, if_pos hcond] at hrun
        rcases hproc : kvs.foldr (pruneStep (fun v sub p => removeAdditionalProperties fuel rx v sub p) rx s path)
            (some ([], [], [])) with _ | ⟨kvs', recD, remD⟩
        · rw [hproc] at hrun; simp at hrun
        · rw [hproc] at hrun
          simp at hrun
          have := prune_fold_keeps hundecl hpats hmatch kvs (kvs', recD, remD) hv hproc
          exact ⟨kvs', by rw [← hrun], this⟩
      · simp only [removeAdditionalProperties] at hrun
        rw [if_neg hcond] at hrun
        simp at hrun
        exact ⟨kvs, by rw [← hrun], hv⟩

/-- Witness for `C5_prune_recursion_behaviour` at the concrete
pattern-matched scenario. -/
theorem C5_prune_recursion_behaviour_witness :
    ∃ kvs', (Json.obj [("data", .obj [("bad", .num ⟨1, 0⟩)])], ([] : List ChangeRecord)).1 = .obj kvs' ∧
      jlookup kvs' "data" = some (.obj [("bad", .num ⟨1, 0⟩)]) :=
  C5_prune_recursion_behaviour.2 3 rxEmptyPattern [("data", .obj [("bad", .num ⟨1, 0⟩)])]
    c5Schema [] "data" (.obj [("bad", .num ⟨1, 0⟩)])
    (.obj [("data", .obj [("bad", .num ⟨1, 0⟩)])], []) [("", c5Sub)]
    (by decide) rfl rfl (by decide) (by decide)

/-! ### General helper lemmas -/

theorem assignKey_self {kvs : List (String × Json)} {k : String} {v : Json}
    (h : jlookup kvs k = some v) : assignKey kvs k v = kvs := by
  induction kvs with
  | nil => simp [jlookup] at h
  | cons kv rest ih =>
    obtain ⟨k0, v0⟩ := kv
    by_cases hk : k0 = k
    · subst hk
      simp [jlookup] at h
      simp [assignKey, h]
    · simp [jlookup, hk] at h
      simp [assignKey, hk, ih h]

theorem coerceFirst_nil {pathStr : String} {obj : Json} {ts : List String} {v' : Json}
    (h : coerceFirst pathStr obj ts = (v', [])) : v' = obj := by
  induction ts with
  | nil => simp [coerceFirst] at h; exact h.symm
  | cons t rest ih =>
    unfold coerceFirst at h
    rcases htc : tryCoerce (some obj) t with ⟨oc, b⟩
    rw [htc] at h
    match oc, b with
    | some c, true => simp at h
    | none, true => simp at h; exact h.symm
    | some c, false => exact ih h
    | none, false => exact ih h

theorem foldr_append_eq_nil {α β : Type} {rs : List (α × List β)}
    (h : rs.foldr (fun r acc => r.2 ++ acc) [] = []) : ∀ r ∈ rs, r.2 = [] := by
  induction rs with
  | nil => intro r hr; simp at hr
  | cons r0 rest ih =>
    rw [List.foldr_cons] at h
    rcases List.append_eq_nil.mp h with ⟨h1, h2⟩
    intro r hr
    rcases hr with _ | hr
    · exact h1
    · exact ih h2 r (by assumption)

theorem enumFrom_map_snd' {α : Type} : ∀ (n : Nat) (l : List α), (l.enumFrom n).map Prod.snd = l := by
  intro n l
  induction l generalizing n with
  | nil => rfl
  | cons x xs ih => simp [List.enumFrom, ih]

theorem enum_map_snd' {α : Type} (l : List α) : l.enum.map Prod.snd = l :=
  enumFrom_map_snd' 0 l

/-! ### Coercer step and branch equations -/

theorem coercePropsStep_eq_none {recur : Json → SchemaNode → List String → Json × List ChangeRecord}
    {path : List String} {acc : List (String × Json) × List ChangeRecord} {pe : String × SchemaNode}
    (hj : jlookup acc.1 pe.1 = none) : coercePropsStep recur path acc pe = acc := by
  unfold coercePropsStep
  rw [hj]

theorem coercePropsStep_eq_some {recur : Json → SchemaNode → List String → Json × List ChangeRecord}
    {path : List String} {acc : List (String × Json) × List ChangeRecord} {pe : String × SchemaNode}
    {v : Json} (hj : jlookup acc.1 pe.1 = some v) :
    coercePropsStep recur path acc pe =
      (assignKey acc.1 pe.1 (recur v pe.2 (path ++ [pe.1])).1,
       acc.2 ++ (recur v pe.2 (path ++ [pe.1])).2) := by
  unfold coercePropsStep
  rw [hj]

theorem coerce_fold_delta_mono {recur : Json → SchemaNode → List String → Json × List ChangeRecord}
    {path : List String} :
    ∀ (props : List (String × SchemaNode)) (acc : List (String × Json) × List ChangeRecord),
      ∃ t, (props.foldl (coercePropsStep recur path) acc).2 = acc.2 ++ t := by
  intro props
  induction props with
  | nil => exact fun acc => ⟨[], by simp⟩
  | cons pe rest ih =>
    intro acc
    rw [List.foldl_cons]
    obtain ⟨t, ht⟩ := ih (coercePropsStep recur path acc pe)
    rcases hj : jlookup acc.1 pe.1 with _ | v
    · rw [coercePropsStep_eq_none hj] at ht
      exact ⟨t, by rw [coercePropsStep_eq_none hj, ht]⟩
    · rw [coercePropsStep_eq_some hj] at ht
      refine ⟨(recur v pe.2 (path ++ [pe.1])).2 ++ t, ?_⟩
      rw [coercePropsStep_eq_some hj, ht]
      simp

theorem coerce_fold_nil {recur : Json → SchemaNode → List String → Json × List ChangeRecord}
    {path : List String}
    (hrec : ∀ v sub p, (recur v sub p).2 = [] → (recur v sub p).1 = v) :
    ∀ (props : List (String × SchemaNode)) (kvs0 : List (String × Json)) (out : List (String × Json) × List ChangeRecord),
      props.foldl (coercePropsStep recur path) (kvs0, []) = out → out.2 = [] → out.1 = kvs0 := by
  intro props
  induction props with
  | nil =>
    intro kvs0 out h hn
    simp only [List.foldl_nil] at h
    rw [← h]
  | cons pe rest ih =>
    intro kvs0 out h hn
    rw [List.foldl_cons] at h
    rcases hj : jlookup kvs0 pe.1 with _ | v
    · rw [coercePropsStep_eq_none (by simpa using hj)] at h
      exact ih kvs0 out h hn
    · rw [coercePropsStep_eq_some (by simpa using hj)] at h
      obtain ⟨t, ht⟩ := @coerce_fold_delta_mono recur path rest
        (assignKey kvs0 pe.1 (recur v pe.2 (path ++ [pe.1])).1,
         [] ++ (recur v pe.2 (path ++ [pe.1])).2)
      rw [h, hn] at ht
      have h2 : (recur v pe.2 (path ++ [pe.1])).2 = [] := by
        simp at ht
        exact ht.1
      rw [hrec v pe.2 (path ++ [pe.1]) h2, assignKey_self hj] at h
      have h3 : ([] : List ChangeRecord) ++ (recur v pe.2 (path ++ [pe.1])).2 = [] := by
        simp [h2]
      rw [h3] at h
      exact ih kvs0 out h hn

theorem applyTypeCoercion_falsy {fuel : Nat} {v : Json} {s : SchemaNode} {path : List String}
    (hf : schemaTypeFalsy s.type = true) :
    applyTypeCoercion (fuel + 1) v s path = (v, []) := by
  rw [applyTypeCoercion.eq_def]
  dsimp only
  simp only [hf, if_true]

theorem applyTypeCoercion_nomatch {fuel : Nat} {v : Json} {s : SchemaNode} {path : List String}
    (hf : schemaTypeFalsy s.type = false)
    (hct : ((s.type.getD (.single "")).toList).contains (typeNameOf v) = false) :
    applyTypeCoercion (fuel + 1) v s path =
      coerceFirst (renderPath path) v ((s.type.getD (.single "")).toList) := by
  rw [applyTypeCoercion.eq_def]
  dsimp only
  simp only [hf, hct, Bool.false_eq_true, if_false]

theorem applyTypeCoercion_obj {fuel : Nat} {kvs : List (String × Json)} {s : SchemaNode}
    {path : List String} {props : List (String × SchemaNode)}
    (hf : schemaTypeFalsy s.type = false)
    (hct : ((s.type.getD (.single "")).toList).contains "object" = true)
    (hpp : s.properties = some props) :
    applyTypeCoercion (fuel + 1) (.obj kvs) s path =
      (.obj (props.foldl (coercePropsStep (fun v sub p => applyTypeCoercion fuel v sub p) path) (kvs, [])).1,
       (props.foldl (coercePropsStep (fun v sub p => applyTypeCoercion fuel v sub p) path) (kvs, [])).2) := by
  rw [applyTypeCoercion.eq_def]
  dsimp only
  simp only [hf, Bool.false_eq_true, if_false, typeNameOf, hct, if_true, hpp]

theorem applyTypeCoercion_obj_noprops {fuel : Nat} {kvs : List (String × Json)} {s : SchemaNode}
    {path : List String}
    (hf : schemaTypeFalsy s.type = false)
    (hct : ((s.type.getD (.single "")).toList).contains "object" = true)
    (hpp : s.properties = none) :
    applyTypeCoercion (fuel + 1) (.obj kvs) s path = (.obj kvs, []) := by
  rw [applyTypeCoercion.eq_def]
  dsimp only
  simp only [hf, Bool.false_eq_true, if_false, typeNameOf, hct, if_true, hpp]

theorem applyTypeCoercion_arr {fuel : Nat} {xs : List Json} {s : SchemaNode}
    {path : List String} {itemSchema : SchemaNode}
    (hf : schemaTypeFalsy s.type = false)
    (hct : ((s.type.getD (.single "")).toList).contains "array" = true)
    (hit : s.items = some itemSchema) :
    applyTypeCoercion (fuel + 1) (.arr xs) s path =
      (.arr ((xs.enum.map (fun ix => applyTypeCoercion fuel ix.2 itemSchema (path ++ [natToString ix.1]))).map Prod.fst),
       (xs.enum.map (fun ix => applyTypeCoercion fuel ix.2 itemSchema (path ++ [natToString ix.1]))).foldr
         (fun r acc => r.2 ++ acc) []) := by
  rw [applyTypeCoercion.eq_def]
  dsimp only
  cases hpp : s.properties <;>
    simp only [hf, Bool.false_eq_true, if_false, typeNameOf, hct, if_true, hpp, hit]

theorem applyTypeCoercion_arr_noitems {fuel : Nat} {xs : List Json} {s : SchemaNode}
    {path : List String}
    (hf : schemaTypeFalsy s.type = false)
    (hct : ((s.type.getD (.single "")).toList).contains "array" = true)
    (hit : s.items = none) :
    applyTypeCoercion (fuel + 1) (.arr xs) s path = (.arr xs, []) := by
  rw [applyTypeCoercion.eq_def]
  dsimp only
  cases hpp : s.properties <;>
    simp only [hf, Bool.false_eq_true, if_false, typeNameOf, hct, if_true, hpp, hit]

theorem applyTypeCoercion_scalar_match {fuel : Nat} {v : Json} {s : SchemaNode}
    {path : List String}
    (hf : schemaTypeFalsy s.type = false)
    (hct : ((s.type.getD (.single "")).toList).contains (typeNameOf v) = true)
    (hv : (match v with | .obj _ => False | .arr _ => False | _ => True)) :
    applyTypeCoercion (fuel + 1) v s path = (v, []) := by
  rw [applyTypeCoercion.eq_def]
  dsimp only
  cases v with
  | obj kvs => exact hv.elim
  | arr xs => exact hv.elim
  | null => simp only [hf, Bool.false_eq_true, if_false, hct, if_true]
  | bool b => simp only [hf, Bool.false_eq_true, if_false, hct, if_true]
  | num q => simp only [hf, Bool.false_eq_true, if_false, hct, if_true]
  | str t => simp only [hf, Bool.false_eq_true, if_false, hct, if_true]

/-- A coercion run that appended no records left the value unchanged. -/
theorem applyTypeCoercion_nil_id :
    ∀ (fuel : Nat) (v : Json) (s : SchemaNode) (path : List String),
      (applyTypeCoercion fuel v s path).2 = [] → (applyTypeCoercion fuel v s path).1 = v := by
  intro fuel
  induction fuel with
  | zero => intro v s path _; rfl
  | succ fuel ih =>
    intro v s path hnil
    by_cases hf : schemaTypeFalsy s.type = true
    · rw [applyTypeCoercion_falsy hf]
    · rw [Bool.not_eq_true] at hf
      by_cases hct : ((s.type.getD (.single "")).toList).contains (typeNameOf v) = true
      · cases v with
        | obj kvs =>
          cases hpp : s.properties with
          | some props =>
            rw [applyTypeCoercion_obj hf hct hpp] at hnil ⊢
            exact congrArg Json.obj (coerce_fold_nil (fun w sub p => ih w sub p) props kvs _ rfl hnil)
          | none => rw [applyTypeCoercion_obj_noprops hf hct hpp]
        | arr xs =>
          cases hit : s.items with
          | some itemSchema =>
            rw [applyTypeCoercion_arr hf hct hit] at hnil ⊢
            dsimp only at hnil ⊢
            have hall := foldr_append_eq_nil hnil
            have hmap : ((xs.enum.map
                (fun ix => applyTypeCoercion fuel ix.2 itemSchema (path ++ [natToString ix.1]))).map Prod.fst) = xs := by
              rw [List.map_map]
              have h1 : xs.enum.map
                  (Prod.fst ∘ fun ix => applyTypeCoercion fuel ix.2 itemSchema (path ++ [natToString ix.1])) =
                  xs.enum.map Prod.snd := by
                refine List.map_congr_left ?_
                intro ix hix
                exact ih ix.2 itemSchema (path ++ [natToString ix.1])
                  (hall _ (List.mem_map_of_mem _ hix))
              rw [h1, enum_map_snd']
            rw [hmap]
          | none => rw [applyTypeCoercion_arr_noitems hf hct hit]
        | null => rw [applyTypeCoercion_scalar_match hf hct trivial]
        | bool b => rw [applyTypeCoercion_scalar_match hf hct trivial]
        | num q => rw [applyTypeCoercion_scalar_match hf hct trivial]
        | str t => rw [applyTypeCoercion_scalar_match hf hct trivial]
      · rw [Bool.not_eq_true] at hct
        rw [applyTypeCoercion_nomatch hf hct] at hnil ⊢
        exact coerceFirst_nil (by
          rcases hcf : coerceFirst (renderPath path) v ((s.type.getD (.single "")).toList) with ⟨a, b⟩
          rw [hcf] at hnil
          simp at hnil
          subst hnil
          rfl)

/-! ### Pass nil-identity lemmas (shared helpers) -/

theorem pruneStep_cases {recur : Json → SchemaNode → List String → Option (Json × List ChangeRecord)}
    {rx : RegexModel} {s : SchemaNode} {path : List String} {k0 : String} {v0 : Json}
    {rk : List (String × Json)} {rrec rrem : List ChangeRecord}
    {out : List (String × Json) × List ChangeRecord × List ChangeRecord}
    (h : pruneStep recur rx s path (k0, v0) (some (rk, rrec, rrem)) = some out) :
    (s.addl = some false ∧ hasProp (s.properties.getD []) k0 = false ∧
       out = (rk, rrec, ChangeRecord.mk (renderPath (path ++ [k0])) "removed" (some v0) none
         "Property not allowed by schema (additionalProperties: false)" :: rrem)) ∨
    (∃ sub v' d, slookup (s.properties.getD []) k0 = some sub ∧
       recur v0 sub (path ++ [k0]) = some (v', d) ∧ out = ((k0, v') :: rk, d ++ rrec, rrem)) ∨
    (slookup (s.properties.getD []) k0 = none ∧ out = ((k0, v0) :: rk, rrec, rrem)) := by
  unfold pruneStep at h
  cases hpp : s.patternProps with
  | none =>
    rw [hpp] at h
    simp [Option.bind] at h
    split at h
    · rename_i hcond
      exact Or.inl ⟨hcond.1, hcond.2, by simp at h; rw [← h]⟩
    · rcases hsl : slookup (s.properties.getD []) k0 with _ | sub
      · simp only [hsl] at h
        simp at h
        exact Or.inr (Or.inr ⟨rfl, by rw [← h]⟩)
      · simp only [hsl] at h
        rcases hr : recur v0 sub (path ++ [k0]) with _ | ⟨v', d⟩
        · simp only [hr] at h; simp at h
        · simp only [hr] at h
          simp at h
          exact Or.inr (Or.inl ⟨sub, v', d, rfl, hr, by rw [← h]⟩)
  | some qs =>
    rw [hpp] at h
    rcases hsr : someRegex rx k0 (qs.map (fun q => q.1)) with _ | mp
    · simp only [hsr] at h; simp at h
    · simp only [hsr] at h
      simp [Option.bind] at h
      split at h
      · rename_i hcond
        refine Or.inl ⟨hcond.1, ?_, by simp at h; rw [← h]⟩
        · have h2 := hcond.2.1
          simp [hasProp] at h2 ⊢
          exact h2
      · rcases hsl : slookup (s.properties.getD []) k0 with _ | sub
        · simp only [hsl] at h
          simp at h
          exact Or.inr (Or.inr ⟨rfl, by rw [← h]⟩)
        · simp only [hsl] at h
          rcases hr : recur v0 sub (path ++ [k0]) with _ | ⟨v', d⟩
          · simp only [hr] at h; simp at h
          · simp only [hr] at h
            simp at h
            exact Or.inr (Or.inl ⟨sub, v', d, rfl, hr, by rw [← h]⟩)

theorem pruneArrStep_cases {recur : Json → SchemaNode → List String → Option (Json × List ChangeRecord)}
    {itemSchema : SchemaNode} {path : List String} {ix : Nat × Json}
    {rv : List Json} {rd : List ChangeRecord} {out : List Json × List ChangeRecord}
    (h : pruneArrStep recur itemSchema path ix (some (rv, rd)) = some out) :
    ∃ v' d, recur ix.2 itemSchema (path ++ [natToString ix.1]) = some (v', d) ∧
      out = (v' :: rv, d ++ rd) := by
  unfold pruneArrStep at h
  rcases hr : recur ix.2 itemSchema (path ++ [natToString ix.1]) with _ | ⟨v', d⟩
  · simp only [hr] at h; simp [Option.bind] at h
  · simp only [hr] at h
    simp [Option.bind] at h
    exact ⟨v', d, rfl, by rw [← h]⟩

theorem prune_fold_nil {recur : Json → SchemaNode → List String → Option (Json × List ChangeRecord)}
    {rx : RegexModel} {s : SchemaNode} {path : List String}
    (hrec : ∀ v sub p v', recur v sub p = some (v', []) → v' = v) :
    ∀ (kvs kvs' : List (String × Json)),
      kvs.foldr (pruneStep recur rx s path) (some ([], [], [])) = some (kvs', [], []) →
      kvs' = kvs := by
  intro kvs
  induction kvs with
  | nil =>
    intro kvs' h
    simp at h
    first
    | exact h
    | exact h.symm
  | cons kv rest ih =>
    intro kvs' h
    obtain ⟨k0, v0⟩ := kv
    rw [List.foldr_cons] at h
    rcases hacc : rest.foldr (pruneStep recur rx s path) (some ([], [], [])) with _ | ⟨rk, rrec, rrem⟩
    · rw [hacc] at h; simp [pruneStep] at h
    · rw [hacc] at h
      rcases pruneStep_cases h with ⟨_, _, hout⟩ | ⟨sub, v', d, hsl, hr, hout⟩ | ⟨hsl, hout⟩
      · simp at hout
      · injection hout with h1 h2
        injection h2 with h2 h3
        rcases List.append_eq_nil.mp h2.symm with ⟨hd, hrrec⟩
        subst hd
        have hrk := ih rk (by rw [hacc, hrrec, ← h3])
        rw [h1, hrk, hrec v0 sub (path ++ [k0]) v' hr]
      · injection hout with h1 h2
        injection h2 with h2 h3
        have hrk := ih rk (by rw [hacc, ← h2, ← h3])
        rw [h1, hrk]

theorem prune_arrfold_nil {recur : Json → SchemaNode → List String → Option (Json × List ChangeRecord)}
    {itemSchema : SchemaNode} {path : List String}
    (hrec : ∀ v p v', recur v itemSchema p = some (v', []) → v' = v) :
    ∀ (xs : List Json) (n : Nat) (vals : List Json),
      (xs.enumFrom n).foldr (pruneArrStep recur itemSchema path) (some ([], [])) = some (vals, []) →
      vals = xs := by
  intro xs
  induction xs with
  | nil =>
    intro n vals h
    simp [List.enumFrom] at h
    first
    | exact h
    | exact h.symm
  | cons x rest ih =>
    intro n vals h
    rw [List.enumFrom, List.foldr_cons] at h
    rcases hacc : (rest.enumFrom (n + 1)).foldr (pruneArrStep recur itemSchema path) (some ([], []))
      with _ | ⟨rv, rd⟩
    · rw [hacc] at h; simp [pruneArrStep] at h
    · rw [hacc] at h
      obtain ⟨v', d, hr, hout⟩ := pruneArrStep_cases h
      injection hout with h1 h2
      rcases List.append_eq_nil.mp h2.symm with ⟨hd, hrd⟩
      subst hd
      have hrv := ih (n + 1) rv (by rw [hacc, hrd])
      rw [h1, hrv, hrec x (path ++ [natToString (n, x).1]) v' hr]

/-- A pruner run that appended no records left the value unchanged. -/
theorem prune_nil_id :
    ∀ (fuel : Nat) (rx : RegexModel) (v : Json) (s : SchemaNode) (path : List String) (v' : Json),
      removeAdditionalProperties fuel rx v s path = some (v', []) → v' = v := by
  intro fuel
  induction fuel with
  | zero =>
    intro rx v s path v' h
    simp [removeAdditionalProperties] at h
    first
    | exact h
    | exact h.symm
  | succ fuel ih =>
    intro rx v s path v' h
    cases v with
    | arr xs =>
      rw [removeAdditionalProperties.eq_def] at h
      dsimp only at h
      cases hit : s.items with
      | none =>
        rw [hit] at h; simp at h
        first
        | exact h
        | exact h.symm
      | some itemSchema =>
        simp only [hit] at h
        rcases hproc : (xs.enum.foldr
            (pruneArrStep (fun v sub p => removeAdditionalProperties fuel rx v sub p) itemSchema path)
            (some ([], []))) with _ | ⟨vals, delta⟩
        · simp only [hproc] at h; exact Option.noConfusion h
        · simp only [hproc] at h
          simp at h
          obtain ⟨h1, h2⟩ := h
          subst h2
          rw [← h1]
          exact congrArg Json.arr
            (prune_arrfold_nil (fun w p w' hw => ih rx w itemSchema p w' hw) xs 0 vals hproc)
    | obj kvs =>
      rw [removeAdditionalProperties.eq_def] at h
      dsimp only at h
      by_cases hcond : (s.type = some (.single "object") ∨ s.properties.isSome = true)
      · rw [if_pos hcond] at h
        rcases hproc : (kvs.foldr
            (pruneStep (fun v sub p => removeAdditionalProperties fuel rx v sub p) rx s path)
            (some ([], [], []))) with _ | ⟨kvs', recD, remD⟩
        · simp only [hproc] at h; exact Option.noConfusion h
        · simp only [hproc] at h
          simp at h
          obtain ⟨h1, hrec2, hrem2⟩ := h
          subst hrec2
          subst hrem2
          rw [← h1]
          exact congrArg Json.obj
            (prune_fold_nil (fun w sub p w' hw => ih rx w sub p w' hw) kvs kvs' hproc)
      · rw [if_neg hcond] at h
        simp at h
        first
        | exact h
        | exact h.symm
    | null =>
      simp [removeAdditionalProperties] at h
      first
      | exact h
      | exact h.symm
    | bool b =>
      simp [removeAdditionalProperties] at h
      first
      | exact h
      | exact h.symm
    | num q =>
      simp [removeAdditionalProperties] at h
      first
      | exact h
      | exact h.symm
    | str t =>
      simp [removeAdditionalProperties] at h
      first
      | exact h
      | exact h.symm

theorem defaultsStep_cases {recur : Json → SchemaNode → List String → Json × List ChangeRecord}
    {req : List String} {path : List String}
    (acc : List (String × Json) × List ChangeRecord) (pe : String × SchemaNode) :
    (jlookup acc.1 pe.1 = none ∧
       (defaultsStep recur req path acc pe = acc ∨
        ∃ x r, defaultsStep recur req path acc pe = (assignKey acc.1 pe.1 x, acc.2 ++ [r]) ∧
          (r.action = "defaulted" ∨ r.action = "added") ∧
          r.path = renderPath (path ++ [pe.1]))) ∨
    (∃ v, jlookup acc.1 pe.1 = some v ∧
       defaultsStep recur req path acc pe =
         (assignKey acc.1 pe.1 (recur v pe.2 (path ++ [pe.1])).1,
          acc.2 ++ (recur v pe.2 (path ++ [pe.1])).2)) := by
  rcases hj : jlookup acc.1 pe.1 with _ | v
  · left
    refine ⟨rfl, ?_⟩
    rcases hd : pe.2.dflt with _ | d
    · by_cases hreq : req.contains pe.1 = true
      · have hreq2 : pe.1 ∈ req := by simpa using hreq
        by_cases ho : pe.2.type = some (.single "object")
        · right
          exact ⟨Json.obj [],
            ChangeRecord.mk (renderPath (path ++ [pe.1])) "added" none (some (.obj []))
              "Added required object property",
            by simp [defaultsStep, hj, hd, hreq2, ho], Or.inr rfl, rfl⟩
        · by_cases ha : pe.2.type = some (.single "array")
          · right
            exact ⟨Json.arr [],
              ChangeRecord.mk (renderPath (path ++ [pe.1])) "added" none (some (.arr []))
                "Added required array property",
              by simp [defaultsStep, hj, hd, hreq2, ho, ha], Or.inr rfl, rfl⟩
          · left
            simp [defaultsStep, hj, hd, hreq2, ho, ha]
      · have hreq2 : pe.1 ∉ req := by simpa using hreq
        left
        simp [defaultsStep, hj, hd, hreq2]
    · right
      exact ⟨deepClone d,
        ChangeRecord.mk (renderPath (path ++ [pe.1])) "defaulted" none (some d)
          "Applied schema default value",
        by simp [defaultsStep, hj, hd], Or.inl rfl, rfl⟩
  · right
    exact ⟨v, rfl, by simp [defaultsStep, hj]⟩

theorem defaults_fold_delta_mono {recur : Json → SchemaNode → List String → Json × List ChangeRecord}
    {req : List String} {path : List String} :
    ∀ (props : List (String × SchemaNode)) (acc : List (String × Json) × List ChangeRecord),
      ∃ t, (props.foldl (defaultsStep recur req path) acc).2 = acc.2 ++ t := by
  intro props
  induction props with
  | nil => exact fun acc => ⟨[], by simp⟩
  | cons pe rest ih =>
    intro acc
    rw [List.foldl_cons]
    rcases @defaultsStep_cases recur req path acc pe with
      ⟨hj, hid | ⟨x, r, heq, hract, hrpath⟩⟩ | ⟨v, hj, heq⟩
    · rw [hid]
      exact ih acc
    · rw [heq]
      obtain ⟨t, ht⟩ := ih (assignKey acc.1 pe.1 x, acc.2 ++ [r])
      exact ⟨[r] ++ t, by rw [ht]; simp⟩
    · rw [heq]
      obtain ⟨t, ht⟩ := ih
        (assignKey acc.1 pe.1 (recur v pe.2 (path ++ [pe.1])).1,
         acc.2 ++ (recur v pe.2 (path ++ [pe.1])).2)
      exact ⟨(recur v pe.2 (path ++ [pe.1])).2 ++ t, by rw [ht]; simp⟩

theorem defaults_fold_nil {recur : Json → SchemaNode → List String → Json × List ChangeRecord}
    {req : List String} {path : List String} :
    ∀ (props : List (String × SchemaNode)) (kvs0 : List (String × Json)),
      (∀ pe ∈ props, ∀ v, jlookup kvs0 pe.1 = some v →
        (recur v pe.2 (path ++ [pe.1])).2 = [] → (recur v pe.2 (path ++ [pe.1])).1 = v) →
      ∀ out, props.foldl (defaultsStep recur req path) (kvs0, []) = out → out.2 = [] →
        out.1 = kvs0 := by
  intro props
  induction props with
  | nil =>
    intro kvs0 _ out h hn
    simp only [List.foldl_nil] at h
    rw [← h]
  | cons pe rest ih =>
    intro kvs0 hrec out h hn
    rw [List.foldl_cons] at h
    rcases @defaultsStep_cases recur req path (kvs0, []) pe with
      ⟨hj, hid | ⟨x, r, heq, hract, hrpath⟩⟩ | ⟨v, hj, heq⟩
    · rw [hid] at h
      exact ih kvs0 (fun q hq => hrec q (List.mem_cons_of_mem pe hq)) out h hn
    · rw [heq] at h
      obtain ⟨t, ht⟩ := @defaults_fold_delta_mono recur req path rest
        (assignKey (kvs0, ([] : List ChangeRecord)).1 pe.1 x, (kvs0, ([] : List ChangeRecord)).2 ++ [r])
      rw [h, hn] at ht
      simp at ht
    · rw [heq] at h
      obtain ⟨t, ht⟩ := @defaults_fold_delta_mono recur req path rest
        (assignKey (kvs0, ([] : List ChangeRecord)).1 pe.1 (recur v pe.2 (path ++ [pe.1])).1,
         (kvs0, ([] : List ChangeRecord)).2 ++ (recur v pe.2 (path ++ [pe.1])).2)
      rw [h, hn] at ht
      simp at ht
      have h2 : (recur v pe.2 (path ++ [pe.1])).2 = [] := ht.1
      have hv : (recur v pe.2 (path ++ [pe.1])).1 = v :=
        hrec pe (List.mem_cons_self pe rest) v (by simpa using hj) h2
      rw [hv, assignKey_self (by simpa using hj)] at h
      have h3 : ((kvs0, ([] : List ChangeRecord)).2 ++ (recur v pe.2 (path ++ [pe.1])).2) = [] := by
        simp [h2]
      rw [h3] at h
      exact ih kvs0 (fun q hq => hrec q (List.mem_cons_of_mem pe hq)) out h hn

/-- A defaults run that appended no records left the value unchanged,
provided no object-typed node silently swallowed a non-object value. -/
theorem applyDefaults_nil_id :
    ∀ (fuel : Nat) (v : Json) (s : SchemaNode) (path : List String) (out : Json × List ChangeRecord),
      skelFree fuel v s = true →
      applyDefaults fuel v s path = out → out.2 = [] → out.1 = v := by
  intro fuel
  induction fuel with
  | zero => intro v s path out _ h _; rw [← h]; rfl
  | succ fuel ih =>
    intro v s path out hsf h hn
    rw [applyDefaults.eq_def] at h
    dsimp only at h
    by_cases hc : (s.type = some (.single "object") ∨ s.properties.isSome = true)
    · rw [if_pos hc] at h
      rw [skelFree.eq_def] at hsf
      dsimp only at hsf
      rw [if_pos hc] at hsf
      cases v with
      | obj kvs =>
        dsimp only at h
        rcases hfold : ((s.properties.getD []).foldl
            (defaultsStep (fun v sub p => applyDefaults fuel v sub p) (s.required.getD []) path)
            (kvs, [])) with ⟨kvs2, d2⟩
        rw [hfold] at h
        rw [← h] at hn
        dsimp only at hn
        have hall := List.all_eq_true.mp hsf
        have hrec : ∀ pe ∈ s.properties.getD [], ∀ w, jlookup kvs pe.1 = some w →
            (applyDefaults fuel w pe.2 (path ++ [pe.1])).2 = [] →
            (applyDefaults fuel w pe.2 (path ++ [pe.1])).1 = w := by
          intro pe hpe w hj hnil2
          have hskel := hall pe hpe
          simp only [hj] at hskel
          exact ih w pe.2 (path ++ [pe.1]) _ hskel rfl hnil2
        have hkv : ((kvs2, d2) : List (String × Json) × List ChangeRecord).1 = kvs :=
          defaults_fold_nil (s.properties.getD []) kvs hrec (kvs2, d2) hfold (by simpa using hn)
        rw [← h]
        dsimp only
        dsimp only at hkv
        rw [hkv]
      | null => simp at hsf
      | bool b => simp at hsf
      | num q => simp at hsf
      | str t => simp at hsf
      | arr xs => simp at hsf
    · rw [if_neg hc] at h
      rw [skelFree.eq_def] at hsf
      dsimp only at hsf
      rw [if_neg hc] at hsf
      split at h
      · rename_i itemSchema hty hit
        cases v with
        | arr xs =>
          dsimp only at h
          simp only [hty, hit] at hsf
          rw [← h] at hn
          dsimp only at hn
          have hall := foldr_append_eq_nil hn
          have helem := List.all_eq_true.mp hsf
          have hmap : ((xs.enum.map
              (fun ix => applyDefaults fuel ix.2 itemSchema (path ++ [natToString ix.1]))).map Prod.fst) = xs := by
            rw [List.map_map]
            have h1 : xs.enum.map
                (Prod.fst ∘ fun ix => applyDefaults fuel ix.2 itemSchema (path ++ [natToString ix.1])) =
                xs.enum.map Prod.snd := by
              refine List.map_congr_left ?_
              intro ix hix
              have hmem : ix.2 ∈ xs := by
                have := List.mem_map_of_mem Prod.snd hix
                rwa [enum_map_snd'] at this
              exact ih ix.2 itemSchema (path ++ [natToString ix.1]) _
                (helem ix.2 hmem) rfl (hall _ (List.mem_map_of_mem _ hix))
            rw [h1, enum_map_snd']
          rw [← h]
          dsimp only
          rw [hmap]
        | null =>
          dsimp only at h
          split at h
          · rw [← h] at hn; simp at hn
          · rw [← h]
        | bool b =>
          dsimp only at h
          split at h
          · rw [← h] at hn; simp at hn
          · rw [← h]
        | num q =>
          dsimp only at h
          split at h
          · rw [← h] at hn; simp at hn
          · rw [← h]
        | str t =>
          dsimp only at h
          split at h
          · rw [← h] at hn; simp at hn
          · rw [← h]
        | obj kvs =>
          dsimp only at h
          split at h
          · rw [← h] at hn; simp at hn
          · rw [← h]
      · rw [← h]

/-! ### C3: the Change Ledger and unlogged mutations -/

/-- Counterexample to C3: `repairJson` on schema `{type:"object"}` and
instance `5` succeeds with an empty changes list, yet the repaired value
`{}` differs from the parsed input `5` — the Default Applicator's silent
empty-object skeleton (cli.js line 389) is an unlogged mutation. -/
theorem C3_silent_skeleton_counterexample :
    repairJson 100 rxNoPatterns (.node typeObjectSchema) (.num ⟨5, 0⟩) =
      .ok (.obj []) [] none [] ∧ (Json.obj []) ≠ (.num ⟨5, 0⟩) := by
  exact ⟨by decide, by decide⟩

/-- C3 (amended): on runs where no object-typed schema node governs a
non-object value without a default (`skelFree`), an empty change ledger
does imply the repaired value equals the parsed input: each of the three
passes leaves the value unchanged whenever it appends no records. -/
theorem C3_empty_ledger_identity :
    ∀ (fuel : Nat) (rx : RegexModel) (s : SchemaNode) (it parsed : Json)
      (v : Json) (ch : List ChangeRecord) (po : Option (List String)) (w : List String),
      (parsedInputOf it).1 = some parsed →
      skelFree fuel parsed s = true →
      repairJson fuel rx (.node s) it = .ok v ch po w →
      ch = [] →
      v = parsed := by
  intro fuel rx s it parsed v ch po w hp hskel h hch
  subst hch
  match h1 : parsedInputOf it with
  | (none, perrs) => rw [h1] at hp; simp at hp
  | (some p0, perrs) =>
    rw [h1] at hp
    dsimp only at hp
    injection hp with hp
    subst hp
    match h2 : removeAdditionalProperties fuel rx p0 s [] with
    | none => simp [repairJson, repairPipeline, h1, h2] at h
    | some (v1, d1) =>
      rcases h3 : applyTypeCoercion fuel v1 s [] with ⟨v2, d2⟩
      rcases h4 : applyDefaults fuel v2 s [] with ⟨v3, d3⟩
      by_cases hcomp : ajvCompileOk fuel rx s = false
      · simp [repairJson, repairPipeline, h1, h2, h3, h4, hcomp] at h
      · simp [repairJson, repairPipeline, h1, h2, h3, h4, hcomp] at h
        obtain ⟨hv, ⟨hd1, hd2, hd3⟩, _⟩ := h
        have hv1 : v1 = p0 := prune_nil_id fuel rx p0 s [] v1 (by rw [h2, hd1])
        have hv2 : v2 = v1 := by
          have := applyTypeCoercion_nil_id fuel v1 s [] (by rw [h3, hd2])
          rw [h3] at this
          exact this
        have hv3 : v3 = v2 := by
          have hsk2 : skelFree fuel v2 s = true := by rw [hv2, hv1]; exact hskel
          exact applyDefaults_nil_id fuel v2 s [] (v3, d3) hsk2 h4 (by simpa using hd3)
        rw [← hv, hv3, hv2, hv1]

/-- Witness for `C3_empty_ledger_identity` at schema `{type:"object"}`
and instance `{}`. -/
theorem C3_empty_ledger_identity_witness :
    skelFree 3 (.obj []) typeObjectSchema = true ∧ (Json.obj []) = (.obj []) :=
  ⟨by decide, C3_empty_ledger_identity 3 rxNoPatterns typeObjectSchema (.obj []) (.obj [])
    (.obj []) [] none [] rfl (by decide) (by decide) rfl⟩

/-! ### Key-path tracking (shared helpers) -/

theorem jlookup_mem {kvs : List (String × Json)} {k : String} {v : Json}
    (h : jlookup kvs k = some v) : (k, v) ∈ kvs := by
  induction kvs with
  | nil => simp [jlookup] at h
  | cons kv rest ih =>
    obtain ⟨k0, v0⟩ := kv
    by_cases hk : k0 = k
    · subst hk
      simp [jlookup] at h
      simp [h]
    · simp [jlookup, hk] at h
      exact List.mem_cons_of_mem _ (ih h)

theorem mem_assignKey {kvs : List (String × Json)} {key k : String} {x w : Json}
    (h : (k, w) ∈ assignKey kvs key x) : (k, w) ∈ kvs ∨ (k = key ∧ w = x) := by
  induction kvs with
  | nil =>
    simp [assignKey] at h
    exact Or.inr h
  | cons kv rest ih =>
    obtain ⟨k0, v0⟩ := kv
    by_cases hk : k0 = key
    · subst hk
      simp [assignKey] at h
      rcases h with ⟨h1, h2⟩ | h
      · exact Or.inr ⟨h1, h2⟩
      · exact Or.inl (List.mem_cons_of_mem _ h)
    · simp [assignKey, hk] at h
      rcases h with ⟨h1, h2⟩ | h
      · exact Or.inl (by simp [h1, h2])
      · rcases ih h with h' | h'
        · exact Or.inl (List.mem_cons_of_mem _ h')
        · exact Or.inr h'

theorem keyPathsPairs_intro_key {kvs : List (String × Json)} {k : String} {w : Json}
    (h : (k, w) ∈ kvs) : [k] ∈ keyPathsPairs kvs := by
  induction kvs with
  | nil => simp at h
  | cons kv rest ih =>
    obtain ⟨k0, w0⟩ := kv
    rcases List.mem_cons.mp h with h' | h'
    · injection h' with h1 h2
      subst h1
      simp [keyPathsPairs]
    · simp [keyPathsPairs]
      right; right
      simpa [keyPathsPairs] using ih h'

theorem keyPathsPairs_intro_sub {kvs : List (String × Json)} {k : String} {w : Json}
    {q : List String} (h : (k, w) ∈ kvs) (hq : q ∈ keyPaths w) :
    (k :: q) ∈ keyPathsPairs kvs := by
  induction kvs with
  | nil => simp at h
  | cons kv rest ih =>
    obtain ⟨k0, w0⟩ := kv
    rcases List.mem_cons.mp h with h' | h'
    · injection h' with h1 h2
      subst h1; subst h2
      simp [keyPathsPairs]
      right; left
      first
      | exact hq
      | exact ⟨q, hq, rfl⟩
    · simp [keyPathsPairs]
      right; right
      simpa [keyPathsPairs] using ih h'

theorem keyPathsPairs_elim {kvs : List (String × Json)} {p : List String}
    (h : p ∈ keyPathsPairs kvs) :
    ∃ k w, (k, w) ∈ kvs ∧ (p = [k] ∨ ∃ q, q ∈ keyPaths w ∧ p = k :: q) := by
  induction kvs with
  | nil => simp [keyPathsPairs] at h
  | cons kv rest ih =>
    obtain ⟨k0, w0⟩ := kv
    simp [keyPathsPairs] at h
    rcases h with h | ⟨q, hq, hp⟩ | h
    · exact ⟨k0, w0, by simp, Or.inl h⟩
    · exact ⟨k0, w0, by simp, Or.inr ⟨q, hq, hp.symm⟩⟩
    · obtain ⟨k, w, hm, hrest⟩ := ih h
      exact ⟨k, w, List.mem_cons_of_mem _ hm, hrest⟩

theorem keyPathsElems_intro :
    ∀ {xs : List Json} {i j : Nat} {w : Json} {q : List String},
      (j, w) ∈ xs.enumFrom i → q ∈ keyPaths w →
      (natToString j :: q) ∈ keyPathsElems i xs := by
  intro xs
  induction xs with
  | nil => intro i j w q h _; simp [List.enumFrom] at h
  | cons x rest ih =>
    intro i j w q h hq
    rw [List.enumFrom] at h
    rcases List.mem_cons.mp h with h' | h'
    · injection h' with h1 h2
      subst h1; subst h2
      simp [keyPathsElems]
      left
      first
      | exact hq
      | exact ⟨q, hq, rfl⟩
    · simp [keyPathsElems]
      right
      exact ih h' hq

theorem keyPathsElems_elim :
    ∀ {xs : List Json} {i : Nat} {p : List String},
      p ∈ keyPathsElems i xs →
      ∃ j w q, (j, w) ∈ xs.enumFrom i ∧ q ∈ keyPaths w ∧ p = natToString j :: q := by
  intro xs
  induction xs with
  | nil => intro i p h; simp [keyPathsElems] at h
  | cons x rest ih =>
    intro i p h
    simp [keyPathsElems] at h
    rcases h with ⟨q, hq, hp⟩ | h
    · exact ⟨i, x, q, by simp [List.enumFrom], hq, hp.symm⟩
    · obtain ⟨j, w, q, hm, hq, hp⟩ := ih h
      exact ⟨j, w, q, by rw [List.enumFrom]; exact List.mem_cons_of_mem _ hm, hq, hp⟩

theorem covers_append_left {acts path p rs rs'} (h : covers acts path p rs) :
    covers acts path p (rs ++ rs') := by
  obtain ⟨r, hr, ha, pre, hpre, hp⟩ := h
  exact ⟨r, List.mem_append_left _ hr, ha, pre, hpre, hp⟩

theorem covers_append_right {acts path p rs rs'} (h : covers acts path p rs') :
    covers acts path p (rs ++ rs') := by
  obtain ⟨r, hr, ha, pre, hpre, hp⟩ := h
  exact ⟨r, List.mem_append_right _ hr, ha, pre, hpre, hp⟩

theorem covers_cons_step {acts path q rs} {k : String} (h : covers acts (path ++ [k]) q rs) :
    covers acts path (k :: q) rs := by
  obtain ⟨r, hr, ha, pre, hpre, hp⟩ := h
  refine ⟨r, hr, ha, k :: pre, ?_, ?_⟩
  · obtain ⟨t, ht⟩ := hpre
    exact ⟨t, by rw [← ht]; rfl⟩
  · rw [hp]
    exact congrArg renderPath (by simp)

theorem prune_fold_mem {recur : Json → SchemaNode → List String → Option (Json × List ChangeRecord)}
    {rx : RegexModel} {s : SchemaNode} {path : List String} :
    ∀ (kvs : List (String × Json)) (out : List (String × Json) × List ChangeRecord × List ChangeRecord),
      kvs.foldr (pruneStep recur rx s path) (some ([], [], [])) = some out →
      ∀ k w', (k, w') ∈ out.1 →
        ∃ w, (k, w) ∈ kvs ∧ (w' = w ∨ ∃ sub p' d, recur w sub p' = some (w', d)) := by
  intro kvs
  induction kvs with
  | nil =>
    intro out h k w' hm
    simp at h
    rw [← h] at hm
    simp at hm
  | cons kv rest ih =>
    intro out h k w' hm
    obtain ⟨k0, v0⟩ := kv
    rw [List.foldr_cons] at h
    rcases hacc : rest.foldr (pruneStep recur rx s path) (some ([], [], [])) with _ | ⟨rk, rrec, rrem⟩
    · rw [hacc] at h; simp [pruneStep] at h
    · rw [hacc] at h
      rcases pruneStep_cases h with ⟨_, _, hout⟩ | ⟨sub, v', d, hsl, hr, hout⟩ | ⟨hsl, hout⟩
      · rw [hout] at hm
        dsimp only at hm
        obtain ⟨w, hw, hrel⟩ := ih (rk, rrec, rrem) hacc k w' hm
        exact ⟨w, List.mem_cons_of_mem _ hw, hrel⟩
      · rw [hout] at hm
        dsimp only at hm
        rcases List.mem_cons.mp hm with h' | h'
        · injection h' with h1 h2
          refine ⟨v0, by rw [h1]; simp, Or.inr ⟨sub, path ++ [k0], d, ?_⟩⟩
          rw [h2]
          exact hr
        · obtain ⟨w, hw, hrel⟩ := ih (rk, rrec, rrem) hacc k w' h'
          exact ⟨w, List.mem_cons_of_mem _ hw, hrel⟩
      · rw [hout] at hm
        dsimp only at hm
        rcases List.mem_cons.mp hm with h' | h'
        · injection h' with h1 h2
          exact ⟨v0, by rw [h1]; simp, Or.inl h2⟩
        · obtain ⟨w, hw, hrel⟩ := ih (rk, rrec, rrem) hacc k w' h'
          exact ⟨w, List.mem_cons_of_mem _ hw, hrel⟩

theorem prune_arrfold_mem {recur : Json → SchemaNode → List String → Option (Json × List ChangeRecord)}
    {itemSchema : SchemaNode} {path : List String} :
    ∀ (xs : List Json) (n : Nat) (vals : List Json) (delta : List ChangeRecord),
      (xs.enumFrom n).foldr (pruneArrStep recur itemSchema path) (some ([], [])) = some (vals, delta) →
      ∀ j w', (j, w') ∈ vals.enumFrom n →
        ∃ w, (j, w) ∈ xs.enumFrom n ∧ ∃ p' d, recur w itemSchema p' = some (w', d) := by
  intro xs
  induction xs with
  | nil =>
    intro n vals delta h j w' hm
    simp [List.enumFrom] at h
    rw [h.1] at hm
    simp [List.enumFrom] at hm
  | cons x rest ih =>
    intro n vals delta h j w' hm
    rw [List.enumFrom, List.foldr_cons] at h
    rcases hacc : (rest.enumFrom (n + 1)).foldr (pruneArrStep recur itemSchema path) (some ([], []))
      with _ | ⟨rv, rd⟩
    · rw [hacc] at h; simp [pruneArrStep] at h
    · rw [hacc] at h
      obtain ⟨v', d, hr, hout⟩ := pruneArrStep_cases h
      injection hout with h1 h2
      rw [h1, List.enumFrom] at hm
      rcases List.mem_cons.mp hm with h' | h'
      · injection h' with hj hw
        refine ⟨x, ?_, path ++ [natToString n], d, ?_⟩
        · rw [List.enumFrom, hj]; simp
        · rw [hw]; exact hr
      · obtain ⟨w, hw, hrel⟩ := ih (n + 1) rv rd hacc j w' h'
        exact ⟨w, by rw [List.enumFrom]; exact List.mem_cons_of_mem _ hw, hrel⟩

/-- The pruner introduces no key path: every key path of its output is
a key path of its input. -/
theorem prune_keys_subset :
    ∀ (fuel : Nat) (rx : RegexModel) (v : Json) (s : SchemaNode) (path : List String)
      (out : Json × List ChangeRecord),
      removeAdditionalProperties fuel rx v s path = some out →
      ∀ p, p ∈ keyPaths out.1 → p ∈ keyPaths v := by
  intro fuel
  induction fuel with
  | zero =>
    intro rx v s path out h p hp
    simp [removeAdditionalProperties] at h
    rw [← h] at hp
    exact hp
  | succ fuel ih =>
    intro rx v s path out h p hp
    cases v with
    | arr xs =>
      rw [removeAdditionalProperties.eq_def] at h
      dsimp only at h
      cases hit : s.items with
      | none =>
        rw [hit] at h; simp at h
        rw [← h] at hp
        exact hp
      | some itemSchema =>
        simp only [hit] at h
        rcases hproc : (xs.enum.foldr
            (pruneArrStep (fun v sub p => removeAdditionalProperties fuel rx v sub p) itemSchema path)
            (some ([], []))) with _ | ⟨vals, delta⟩
        · simp only [hproc] at h; exact Option.noConfusion h
        · simp only [hproc] at h
          simp at h
          rw [← h] at hp
          have hp2 : p ∈ keyPathsElems 0 vals := hp
          obtain ⟨j, w', q, hm, hq, hpeq⟩ := keyPathsElems_elim hp2
          obtain ⟨w, hwm, p', d, hr⟩ := prune_arrfold_mem xs 0 vals delta hproc j w' hm
          have hq2 : q ∈ keyPaths w := ih rx w itemSchema p' (w', d) hr q hq
          rw [hpeq]
          exact keyPathsElems_intro hwm hq2
    | obj kvs =>
      rw [removeAdditionalProperties.eq_def] at h
      dsimp only at h
      by_cases hcond : (s.type = some (.single "object") ∨ s.properties.isSome = true)
      · rw [if_pos hcond] at h
        rcases hproc : (kvs.foldr
            (pruneStep (fun v sub p => removeAdditionalProperties fuel rx v sub p) rx s path)
            (some ([], [], []))) with _ | ⟨kvs', recD, remD⟩
        · simp only [hproc] at h; exact Option.noConfusion h
        · simp only [hproc] at h
          simp at h
          rw [← h] at hp
          have hp2 : p ∈ keyPathsPairs kvs' := hp
          obtain ⟨k, w', hm, hcase⟩ := keyPathsPairs_elim hp2
          obtain ⟨w, hwm, hrel⟩ := prune_fold_mem kvs (kvs', recD, remD) hproc k w' hm
          rcases hcase with hpk | ⟨q, hq, hpq⟩
          · rw [hpk]
            exact keyPathsPairs_intro_key hwm
          · have hq2 : q ∈ keyPaths w := by
              rcases hrel with heq | ⟨sub, p', d, hr⟩
              · rw [← heq]; exact hq
              · exact ih rx w sub p' (w', d) hr q hq
            rw [hpq]
            exact keyPathsPairs_intro_sub hwm hq2
      · rw [if_neg hcond] at h
        simp at h
        rw [← h] at hp
        exact hp
    | null => simp [removeAdditionalProperties] at h; rw [← h] at hp; exact hp
    | bool b => simp [removeAdditionalProperties] at h; rw [← h] at hp; exact hp
    | num q => simp [removeAdditionalProperties] at h; rw [← h] at hp; exact hp
    | str t => simp [removeAdditionalProperties] at h; rw [← h] at hp; exact hp

theorem coerceFirst_cases {pathStr : String} {obj : Json} :
    ∀ {ts : List String},
      coerceFirst pathStr obj ts = (obj, []) ∨
      ∃ c r, coerceFirst pathStr obj ts = (c, [r]) ∧
        r.action = "coerced" ∧ r.path = pathStr := by
  intro ts
  induction ts with
  | nil => left; rfl
  | cons t rest ih =>
    rcases htc : tryCoerce (some obj) t with ⟨oc, b⟩
    rcases oc with _ | c <;> rcases b with _ | _
    · simp only [coerceFirst, htc]
      exact ih
    · left
      simp only [coerceFirst, htc]
    · simp only [coerceFirst, htc]
      exact ih
    · right
      refine ⟨c, ChangeRecord.mk pathStr "coerced" (some obj) (some c)
        ("Coerced " ++ jsTypeof obj ++ " to " ++ t), ?_, rfl, rfl⟩
      simp only [coerceFirst, htc]

theorem coerce_fold_covered {recur : Json → SchemaNode → List String → Json × List ChangeRecord}
    {path : List String}
    (hrec : ∀ v sub p', ∀ q ∈ keyPaths (recur v sub p').1,
      q ∈ keyPaths v ∨ covers ["coerced"] p' q (recur v sub p').2) :
    ∀ (props : List (String × SchemaNode)) (B : List (String × Json))
      (acc : List (String × Json) × List ChangeRecord),
      (∀ p ∈ keyPathsPairs acc.1, p ∈ keyPathsPairs B ∨ covers ["coerced"] path p acc.2) →
      ∀ p ∈ keyPathsPairs (props.foldl (coercePropsStep recur path) acc).1,
        p ∈ keyPathsPairs B ∨ covers ["coerced"] path p (props.foldl (coercePropsStep recur path) acc).2 := by
  intro props
  induction props with
  | nil =>
    intro B acc hInv p hp
    simp only [List.foldl_nil] at hp ⊢
    exact hInv p hp
  | cons pe rest ih =>
    intro B acc hInv p hp
    rw [List.foldl_cons] at hp ⊢
    refine ih B (coercePropsStep recur path acc pe) ?_ p hp
    intro p' hp'
    rcases hj : jlookup acc.1 pe.1 with _ | v
    · rw [coercePropsStep_eq_none hj] at hp' ⊢
      exact hInv p' hp'
    · rw [coercePropsStep_eq_some hj] at hp' ⊢
      dsimp only at hp' ⊢
      obtain ⟨k, w', hm, hcase⟩ := keyPathsPairs_elim hp'
      rcases mem_assignKey hm with hm' | ⟨hk, hw⟩
      · have hin : p' ∈ keyPathsPairs acc.1 := by
          rcases hcase with h1 | ⟨q, hq, h2⟩
          · rw [h1]; exact keyPathsPairs_intro_key hm'
          · rw [h2]; exact keyPathsPairs_intro_sub hm' hq
        rcases hInv p' hin with h | h
        · exact Or.inl h
        · exact Or.inr (covers_append_left h)
      · subst hk
        rcases hcase with h1 | ⟨q, hq, h2⟩
        · have hin : p' ∈ keyPathsPairs acc.1 := by
            rw [h1]; exact keyPathsPairs_intro_key (jlookup_mem hj)
          rcases hInv p' hin with h | h
          · exact Or.inl h
          · exact Or.inr (covers_append_left h)
        · rw [hw] at hq
          rcases hrec v pe.2 (path ++ [pe.1]) q hq with hq' | hcov
          · have hin : p' ∈ keyPathsPairs acc.1 := by
              rw [h2]; exact keyPathsPairs_intro_sub (jlookup_mem hj) hq'
            rcases hInv p' hin with h | h
            · exact Or.inl h
            · exact Or.inr (covers_append_left h)
          · right
            apply covers_append_right
            rw [h2]
            exact covers_cons_step hcov

theorem coerce_arr_covered {acts : List String}
    {recur : Json → SchemaNode → List String → Json × List ChangeRecord}
    {isch : SchemaNode} {path : List String}
    (hrec : ∀ v p', ∀ q ∈ keyPaths (recur v isch p').1,
      q ∈ keyPaths v ∨ covers acts p' q (recur v isch p').2) :
    ∀ (xs : List Json) (n : Nat) (p : List String),
      p ∈ keyPathsElems n (((xs.enumFrom n).map
        (fun ix => recur ix.2 isch (path ++ [natToString ix.1]))).map Prod.fst) →
      p ∈ keyPathsElems n xs ∨
        covers acts path p
          (((xs.enumFrom n).map (fun ix => recur ix.2 isch (path ++ [natToString ix.1]))).foldr
            (fun r acc => r.2 ++ acc) []) := by
  intro xs
  induction xs with
  | nil => intro n p hp; simp [List.enumFrom, keyPathsElems] at hp
  | cons x rest ih =>
    intro n p hp
    rw [List.enumFrom] at hp ⊢
    simp only [List.map_cons, List.foldr_cons] at hp ⊢
    rw [keyPathsElems] at hp
    rcases List.mem_append.mp hp with h | h
    · obtain ⟨q, hq, hpq⟩ := List.mem_map.mp h
      rcases hrec x (path ++ [natToString n]) q hq with hq' | hcov
      · left
        rw [← hpq, keyPathsElems]
        exact List.mem_append_left _ (List.mem_map.mpr ⟨q, hq', rfl⟩)
      · right
        rw [← hpq]
        exact covers_append_left (covers_cons_step hcov)
    · rcases ih (n + 1) p h with h' | h'
      · left
        rw [keyPathsElems]
        exact List.mem_append_right _ h'
      · right
        exact covers_append_right h'

/-- Every key path of the coercer's output is a key path of its input
or is covered by a `coerced` record it appended. -/
theorem applyTypeCoercion_keys_covered :
    ∀ (fuel : Nat) (v : Json) (s : SchemaNode) (path : List String),
      ∀ p ∈ keyPaths (applyTypeCoercion fuel v s path).1,
        p ∈ keyPaths v ∨ covers ["coerced"] path p (applyTypeCoercion fuel v s path).2 := by
  intro fuel
  induction fuel with
  | zero => intro v s path p hp; exact Or.inl hp
  | succ fuel ih =>
    intro v s path p hp
    by_cases hf : schemaTypeFalsy s.type = true
    · rw [applyTypeCoercion_falsy hf] at hp ⊢
      exact Or.inl hp
    · rw [Bool.not_eq_true] at hf
      by_cases hct : ((s.type.getD (.single "")).toList).contains (typeNameOf v) = true
      · cases v with
        | obj kvs =>
          cases hpp : s.properties with
          | some props =>
            rw [applyTypeCoercion_obj hf hct hpp] at hp ⊢
            dsimp only at hp ⊢
            have hp2 : p ∈ keyPathsPairs (props.foldl
                (coercePropsStep (fun v sub p => applyTypeCoercion fuel v sub p) path) (kvs, [])).1 := hp
            rcases coerce_fold_covered (fun v sub p' q hq => ih v sub p' q hq) props kvs (kvs, [])
              (fun p hp => Or.inl hp) p hp2 with h | h
            · exact Or.inl h
            · exact Or.inr h
          | none =>
            rw [applyTypeCoercion_obj_noprops hf hct hpp] at hp ⊢
            exact Or.inl hp
        | arr xs =>
          cases hit : s.items with
          | some itemSchema =>
            rw [applyTypeCoercion_arr hf hct hit] at hp ⊢
            dsimp only at hp ⊢
            have hp2 : p ∈ keyPathsElems 0 (((xs.enumFrom 0).map
                (fun ix => applyTypeCoercion fuel ix.2 itemSchema (path ++ [natToString ix.1]))).map
                Prod.fst) := hp
            rcases coerce_arr_covered (fun v p' q hq => ih v itemSchema p' q hq) xs 0 p hp2 with h | h
            · exact Or.inl h
            · exact Or.inr h
          | none =>
            rw [applyTypeCoercion_arr_noitems hf hct hit] at hp ⊢
            exact Or.inl hp
        | null => rw [applyTypeCoercion_scalar_match hf hct trivial] at hp ⊢; exact Or.inl hp
        | bool b => rw [applyTypeCoercion_scalar_match hf hct trivial] at hp ⊢; exact Or.inl hp
        | num q => rw [applyTypeCoercion_scalar_match hf hct trivial] at hp ⊢; exact Or.inl hp
        | str t => rw [applyTypeCoercion_scalar_match hf hct trivial] at hp ⊢; exact Or.inl hp
      · rw [Bool.not_eq_true] at hct
        rw [applyTypeCoercion_nomatch hf hct] at hp ⊢
        rcases @coerceFirst_cases (renderPath path) v
            ((s.type.getD (.single "")).toList) with hcf | ⟨c, r, hcf, hract, hrpath⟩
        · rw [hcf] at hp ⊢
          exact Or.inl hp
        · rw [hcf] at hp ⊢
          right
          refine ⟨r, by simp, by simp [hract], [], List.nil_prefix, ?_⟩
          rw [hrpath]
          exact congrArg renderPath (List.append_nil path).symm

theorem defaults_fold_covered {recur : Json → SchemaNode → List String → Json × List ChangeRecord}
    {req : List String} {path : List String}
    (hrec : ∀ v sub p', ∀ q ∈ keyPaths (recur v sub p').1,
      q ∈ keyPaths v ∨ covers ["defaulted", "added"] p' q (recur v sub p').2) :
    ∀ (props : List (String × SchemaNode)) (B : List (String × Json))
      (acc : List (String × Json) × List ChangeRecord),
      (∀ p ∈ keyPathsPairs acc.1, p ∈ keyPathsPairs B ∨ covers ["defaulted", "added"] path p acc.2) →
      ∀ p ∈ keyPathsPairs (props.foldl (defaultsStep recur req path) acc).1,
        p ∈ keyPathsPairs B ∨
          covers ["defaulted", "added"] path p (props.foldl (defaultsStep recur req path) acc).2 := by
  intro props
  induction props with
  | nil =>
    intro B acc hInv p hp
    simp only [List.foldl_nil] at hp ⊢
    exact hInv p hp
  | cons pe rest ih =>
    intro B acc hInv p hp
    rw [List.foldl_cons] at hp ⊢
    refine ih B (defaultsStep recur req path acc pe) ?_ p hp
    intro p' hp'
    rcases @defaultsStep_cases recur req path acc pe with
      ⟨hj, hid | ⟨x, r, heq, hract, hrpath⟩⟩ | ⟨v, hj, heq⟩
    · rw [hid] at hp' ⊢
      exact hInv p' hp'
    · rw [heq] at hp' ⊢
      dsimp only at hp' ⊢
      obtain ⟨k, w', hm, hcase⟩ := keyPathsPairs_elim hp'
      rcases mem_assignKey hm with hm' | ⟨hk, hw⟩
      · have hin : p' ∈ keyPathsPairs acc.1 := by
          rcases hcase with h1 | ⟨q, hq, h2⟩
          · rw [h1]; exact keyPathsPairs_intro_key hm'
          · rw [h2]; exact keyPathsPairs_intro_sub hm' hq
        rcases hInv p' hin with h | h
        · exact Or.inl h
        · exact Or.inr (covers_append_left h)
      · subst hk
        right
        refine ⟨r, List.mem_append_right _ (by simp), ?_, [pe.1], ?_, ?_⟩
        · rcases hract with h | h <;> simp [h]
        · rcases hcase with h1 | ⟨q, hq, h2⟩
          · rw [h1]
          · rw [h2]
            exact ⟨q, rfl⟩
        · exact hrpath
    · rw [heq] at hp' ⊢
      dsimp only at hp' ⊢
      obtain ⟨k, w', hm, hcase⟩ := keyPathsPairs_elim hp'
      rcases mem_assignKey hm with hm' | ⟨hk, hw⟩
      · have hin : p' ∈ keyPathsPairs acc.1 := by
          rcases hcase with h1 | ⟨q, hq, h2⟩
          · rw [h1]; exact keyPathsPairs_intro_key hm'
          · rw [h2]; exact keyPathsPairs_intro_sub hm' hq
        rcases hInv p' hin with h | h
        · exact Or.inl h
        · exact Or.inr (covers_append_left h)
      · subst hk
        rcases hcase with h1 | ⟨q, hq, h2⟩
        · have hin : p' ∈ keyPathsPairs acc.1 := by
            rw [h1]; exact keyPathsPairs_intro_key (jlookup_mem hj)
          rcases hInv p' hin with h | h
          · exact Or.inl h
          · exact Or.inr (covers_append_left h)
        · rw [hw] at hq
          rcases hrec v pe.2 (path ++ [pe.1]) q hq with hq' | hcov
          · have hin : p' ∈ keyPathsPairs acc.1 := by
              rw [h2]; exact keyPathsPairs_intro_sub (jlookup_mem hj) hq'
            rcases hInv p' hin with h | h
            · exact Or.inl h
            · exact Or.inr (covers_append_left h)
          · right
            apply covers_append_right
            rw [h2]
            exact covers_cons_step hcov

/-- Every key path of the Default Applicator's output is a key path of
its input or is covered by a `defaulted`/`added` record it appended. -/
theorem applyDefaults_keys_covered :
    ∀ (fuel : Nat) (v : Json) (s : SchemaNode) (path : List String) (out : Json × List ChangeRecord),
      applyDefaults fuel v s path = out →
      ∀ p ∈ keyPaths out.1, p ∈ keyPaths v ∨ covers ["defaulted", "added"] path p out.2 := by
  intro fuel
  induction fuel with
  | zero =>
    intro v s path out h p hp
    rw [← h] at hp
    exact Or.inl hp
  | succ fuel ih =>
    intro v s path out h p hp
    rw [applyDefaults.eq_def] at h
    dsimp only at h
    by_cases hc : (s.type = some (.single "object") ∨ s.properties.isSome = true)
    · rw [if_pos hc] at h
      cases v with
      | obj kvs =>
        dsimp only at h
        rcases hfold : ((s.properties.getD []).foldl
            (defaultsStep (fun v sub p => applyDefaults fuel v sub p) (s.required.getD []) path)
            (kvs, [])) with ⟨kvs2, d2⟩
        rw [hfold] at h
        rw [← h] at hp
        have hp2 : p ∈ keyPathsPairs kvs2 := hp
        have hres := defaults_fold_covered
          (fun w sub p' q hq => ih w sub p' (applyDefaults fuel w sub p') rfl q hq)
          (s.properties.getD []) kvs (kvs, []) (fun p hp => Or.inl hp) p
          (by rw [hfold]; exact hp2)
        rw [hfold] at hres
        rcases hres with h' | h'
        · exact Or.inl h'
        · right
          rw [← h]
          exact h'
      | null =>
        try dsimp only at h
        split at h
        · rename_i d hd
          right
          rw [← h]
          refine ⟨ChangeRecord.mk (renderPath path) "defaulted" (some .null) (some d)
            "Applied schema default for missing object", by simp, by simp, [], List.nil_prefix, ?_⟩
          exact congrArg renderPath (List.append_nil path).symm
        · try dsimp only at h
          rcases hfold : ((s.properties.getD []).foldl
              (defaultsStep (fun v sub p => applyDefaults fuel v sub p) (s.required.getD []) path)
              ([], [])) with ⟨kvs2, d2⟩
          rw [hfold] at h
          rw [← h] at hp
          have hp2 : p ∈ keyPathsPairs kvs2 := hp
          have hres := defaults_fold_covered
            (fun w sub p' q hq => ih w sub p' (applyDefaults fuel w sub p') rfl q hq)
            (s.properties.getD []) [] ([], []) (fun p hp => Or.inl hp) p
            (by rw [hfold]; exact hp2)
          rw [hfold] at hres
          rcases hres with h' | h'
          · simp [keyPathsPairs] at h'
          · right
            rw [← h]
            exact h'
      | bool b =>
        try dsimp only at h
        split at h
        · rename_i d hd
          right
          rw [← h]
          refine ⟨ChangeRecord.mk (renderPath path) "defaulted" (some (.bool b)) (some d)
            "Applied schema default for missing object", by simp, by simp, [], List.nil_prefix, ?_⟩
          exact congrArg renderPath (List.append_nil path).symm
        · try dsimp only at h
          rcases hfold : ((s.properties.getD []).foldl
              (defaultsStep (fun v sub p => applyDefaults fuel v sub p) (s.required.getD []) path)
              ([], [])) with ⟨kvs2, d2⟩
          rw [hfold] at h
          rw [← h] at hp
          have hp2 : p ∈ keyPathsPairs kvs2 := hp
          have hres := defaults_fold_covered
            (fun w sub p' q hq => ih w sub p' (applyDefaults fuel w sub p') rfl q hq)
            (s.properties.getD []) [] ([], []) (fun p hp => Or.inl hp) p
            (by rw [hfold]; exact hp2)
          rw [hfold] at hres
          rcases hres with h' | h'
          · simp [keyPathsPairs] at h'
          · right
            rw [← h]
            exact h'
      | num q0 =>
        try dsimp only at h
        split at h
        · rename_i d hd
          right
          rw [← h]
          refine ⟨ChangeRecord.mk (renderPath path) "defaulted" (some (.num q0)) (some d)
            "Applied schema default for missing object", by simp, by simp, [], List.nil_prefix, ?_⟩
          exact congrArg renderPath (List.append_nil path).symm
        · try dsimp only at h
          rcases hfold : ((s.properties.getD []).foldl
              (defaultsStep (fun v sub p => applyDefaults fuel v sub p) (s.required.getD []) path)
              ([], [])) with ⟨kvs2, d2⟩
          rw [hfold] at h
          rw [← h] at hp
          have hp2 : p ∈ keyPathsPairs kvs2 := hp
          have hres := defaults_fold_covered
            (fun w sub p' q hq => ih w sub p' (applyDefaults fuel w sub p') rfl q hq)
            (s.properties.getD []) [] ([], []) (fun p hp => Or.inl hp) p
            (by rw [hfold]; exact hp2)
          rw [hfold] at hres
          rcases hres with h' | h'
          · simp [keyPathsPairs] at h'
          · right
            rw [← h]
            exact h'
      | str t =>
        try dsimp only at h
        split at h
        · rename_i d hd
          right
          rw [← h]
          refine ⟨ChangeRecord.mk (renderPath path) "defaulted" (some (.str t)) (some d)
            "Applied schema default for missing object", by simp, by simp, [], List.nil_prefix, ?_⟩
          exact congrArg renderPath (List.append_nil path).symm
        · try dsimp only at h
          rcases hfold : ((s.properties.getD []).foldl
              (defaultsStep (fun v sub p => applyDefaults fuel v sub p) (s.required.getD []) path)
              ([], [])) with ⟨kvs2, d2⟩
          rw [hfold] at h
          rw [← h] at hp
          have hp2 : p ∈ keyPathsPairs kvs2 := hp
          have hres := defaults_fold_covered
            (fun w sub p' q hq => ih w sub p' (applyDefaults fuel w sub p') rfl q hq)
            (s.properties.getD []) [] ([], []) (fun p hp => Or.inl hp) p
            (by rw [hfold]; exact hp2)
          rw [hfold] at hres
          rcases hres with h' | h'
          · simp [keyPathsPairs] at h'
          · right
            rw [← h]
            exact h'
      | arr xs =>
        try dsimp only at h
        split at h
        · rename_i d hd
          right
          rw [← h]
          refine ⟨ChangeRecord.mk (renderPath path) "defaulted" (some (.arr xs)) (some d)
            "Applied schema default for missing object", by simp, by simp, [], List.nil_prefix, ?_⟩
          exact congrArg renderPath (List.append_nil path).symm
        · try dsimp only at h
          rcases hfold : ((s.properties.getD []).foldl
              (defaultsStep (fun v sub p => applyDefaults fuel v sub p) (s.required.getD []) path)
              ([], [])) with ⟨kvs2, d2⟩
          rw [hfold] at h
          rw [← h] at hp
          have hp2 : p ∈ keyPathsPairs kvs2 := hp
          have hres := defaults_fold_covered
            (fun w sub p' q hq => ih w sub p' (applyDefaults fuel w sub p') rfl q hq)
            (s.properties.getD []) [] ([], []) (fun p hp => Or.inl hp) p
            (by rw [hfold]; exact hp2)
          rw [hfold] at hres
          rcases hres with h' | h'
          · simp [keyPathsPairs] at h'
          · right
            rw [← h]
            exact h'
    · rw [if_neg hc] at h
      split at h
      · rename_i itemSchema hty hit
        cases v with
        | arr xs =>
          dsimp only at h
          rw [← h] at hp
          have hp2 : p ∈ keyPathsElems 0 (((xs.enumFrom 0).map
              (fun ix => applyDefaults fuel ix.2 itemSchema (path ++ [natToString ix.1]))).map
              Prod.fst) := hp
          rcases @coerce_arr_covered ["defaulted", "added"] _ _ _
              (fun w p' q hq => ih w itemSchema p' (applyDefaults fuel w itemSchema p') rfl q hq)
              xs 0 p hp2 with h' | h'
          · exact Or.inl h'
          · right
            rw [← h]
            exact h'
        | null =>
          try dsimp only at h
          split at h
          · rename_i d hd
            right
            rw [← h]
            refine ⟨ChangeRecord.mk (renderPath path) "defaulted" (some .null) (some d)
              "Applied schema default for non-array value", by simp, by simp, [], List.nil_prefix, ?_⟩
            exact congrArg renderPath (List.append_nil path).symm
          · rw [← h] at hp
            exact Or.inl hp
        | bool b =>
          try dsimp only at h
          split at h
          · rename_i d hd
            right
            rw [← h]
            refine ⟨ChangeRecord.mk (renderPath path) "defaulted" (some (.bool b)) (some d)
              "Applied schema default for non-array value", by simp, by simp, [], List.nil_prefix, ?_⟩
            exact congrArg renderPath (List.append_nil path).symm
          · rw [← h] at hp
            exact Or.inl hp
        | num q0 =>
          try dsimp only at h
          split at h
          · rename_i d hd
            right
            rw [← h]
            refine ⟨ChangeRecord.mk (renderPath path) "defaulted" (some (.num q0)) (some d)
              "Applied schema default for non-array value", by simp, by simp, [], List.nil_prefix, ?_⟩
            exact congrArg renderPath (List.append_nil path).symm
          · rw [← h] at hp
            exact Or.inl hp
        | str t =>
          try dsimp only at h
          split at h
          · rename_i d hd
            right
            rw [← h]
            refine ⟨ChangeRecord.mk (renderPath path) "defaulted" (some (.str t)) (some d)
              "Applied schema default for non-array value", by simp, by simp, [], List.nil_prefix, ?_⟩
            exact congrArg renderPath (List.append_nil path).symm
          · rw [← h] at hp
            exact Or.inl hp
        | obj kvs =>
          try dsimp only at h
          split at h
          · rename_i d hd
            right
            rw [← h]
            refine ⟨ChangeRecord.mk (renderPath path) "defaulted" (some (.obj kvs)) (some d)
              "Applied schema default for non-array value", by simp, by simp, [], List.nil_prefix, ?_⟩
            exact congrArg renderPath (List.append_nil path).symm
          · rw [← h] at hp
            exact Or.inl hp
      · rw [← h] at hp
        exact Or.inl hp

/-! ### C2: conservativeness of added keys -/

/-- Counterexample to C2: on schema `{type:"object", properties:{a:{default:{foo:1}}}}`
and input `{}`, repair adds the key path `/a/foo` (inside the deep-cloned
default), yet no schema governs `/a/foo` at all — so the new key neither
declares a default nor has type object/array. -/
theorem C2_deep_default_counterexample :
    repairJson 100 rxNoPatterns (.node c2Schema) (.obj []) =
      .ok (.obj [("a", .obj [("foo", .num ⟨1, 0⟩)])])
        [ChangeRecord.mk "/a" "defaulted" none (some (.obj [("foo", .num ⟨1, 0⟩)]))
          "Applied schema default value"] none [] ∧
    ["a", "foo"] ∈ keyPaths (.obj [("a", .obj [("foo", .num ⟨1, 0⟩)])]) ∧
    ["a", "foo"] ∉ keyPaths (Json.obj []) ∧
    (getSchemaAtPath c2Schema "/a/foo").isNone = true := by
  exact ⟨by decide, by decide, by decide, by decide⟩

/-- C2 (amended): every key path present in the repaired value but
absent from the parsed input lies at or below the path of some change
record whose action is `defaulted`, `added` or `coerced` — pruning adds
no keys, and only those record-producing steps do. -/
theorem C2_new_keys_recorded :
    ∀ (fuel : Nat) (rx : RegexModel) (s : SchemaNode) (it parsed : Json)
      (v : Json) (ch : List ChangeRecord) (po : Option (List String)) (w : List String)
      (p : List String),
      (parsedInputOf it).1 = some parsed →
      repairJson fuel rx (.node s) it = .ok v ch po w →
      p ∈ keyPaths v →
      p ∉ keyPaths parsed →
      ∃ r ∈ ch, (r.action = "defaulted" ∨ r.action = "added" ∨ r.action = "coerced") ∧
        ∃ pre, pre <+: p ∧ r.path = renderPath pre := by
  intro fuel rx s it parsed v ch po w p hp h hpv hnp
  match h1 : parsedInputOf it with
  | (none, perrs) => rw [h1] at hp; simp at hp
  | (some p0, perrs) =>
    rw [h1] at hp
    dsimp only at hp
    injection hp with hp
    subst hp
    match h2 : removeAdditionalProperties fuel rx p0 s [] with
    | none => simp [repairJson, repairPipeline, h1, h2] at h
    | some (v1, d1) =>
      rcases h3 : applyTypeCoercion fuel v1 s [] with ⟨v2, d2⟩
      rcases h4 : applyDefaults fuel v2 s [] with ⟨v3, d3⟩
      by_cases hcomp : ajvCompileOk fuel rx s = false
      · simp [repairJson, repairPipeline, h1, h2, h3, h4, hcomp] at h
      · simp [repairJson, repairPipeline, h1, h2, h3, h4, hcomp] at h
        obtain ⟨hv, hch, _⟩ := h
        rw [← hv] at hpv
        rcases applyDefaults_keys_covered fuel v2 s [] (v3, d3) h4 p hpv with hp2 | hcov3
        · have hcc := applyTypeCoercion_keys_covered fuel v1 s [] p (by rw [h3]; exact hp2)
          rw [h3] at hcc
          rcases hcc with hp1 | hcov2
          · exact absurd (prune_keys_subset fuel rx p0 s [] (v1, d1) h2 p hp1) hnp
          · obtain ⟨r, hr, ha, pre, hpre, hrp⟩ := hcov2
            have hr2 : r ∈ d2 := hr
            refine ⟨r, ?_, Or.inr (Or.inr (by simpa using ha)), pre, hpre, by simpa using hrp⟩
            rw [← hch]
            exact List.mem_append_right _ (List.mem_append_left _ hr2)
        · obtain ⟨r, hr, ha, pre, hpre, hrp⟩ := hcov3
          have hr3 : r ∈ d3 := hr
          simp at ha
          refine ⟨r, ?_, ?_, pre, hpre, by simpa using hrp⟩
          · rw [← hch]
            exact List.mem_append_right _ (List.mem_append_right _ hr3)
          · rcases ha with ha | ha
            · exact Or.inl ha
            · exact Or.inr (Or.inl ha)

/-- Witness for `C2_new_keys_recorded`: the defaulted key `a` of the
`c2Schema` run is covered by the `defaulted` record at `/a`. -/
theorem C2_new_keys_recorded_witness :
    (["a"] ∈ keyPaths (.obj [("a", Json.obj [("foo", .num ⟨1, 0⟩)])])) ∧
    (["a"] ∉ keyPaths (Json.obj [])) ∧
    ∃ r ∈ [ChangeRecord.mk "/a" "defaulted" none (some (.obj [("foo", .num ⟨1, 0⟩)]))
        "Applied schema default value"],
      (r.action = "defaulted" ∨ r.action = "added" ∨ r.action = "coerced") ∧
      ∃ pre, pre <+: ["a"] ∧ r.path = renderPath pre :=
  ⟨by decide, by decide,
   C2_new_keys_recorded 100 rxNoPatterns c2Schema (.obj []) (.obj [])
     (.obj [("a", .obj [("foo", .num ⟨1, 0⟩)])])
     [ChangeRecord.mk "/a" "defaulted" none (some (.obj [("foo", .num ⟨1, 0⟩)]))
        "Applied schema default value"] none [] ["a"]
     rfl (by decide) (by decide) (by decide)⟩

/-! ### Well-formedness, rendered-path injectivity and C8 -/

theorem natDigitsAux_ne_slash :
    ∀ (fuel n : Nat) (c : Char), c ∈ natDigitsAux fuel n → c ≠ '/' := by
  intro fuel
  induction fuel with
  | zero => intro n c hc; simp [natDigitsAux] at hc
  | succ fuel ih =>
    intro n c hc
    rw [natDigitsAux] at hc
    by_cases hn : n < 10
    · rw [if_pos hn] at hc
      simp at hc
      subst hc
      interval_cases n <;> decide
    · rw [if_neg hn] at hc
      rcases List.mem_append.mp hc with h | h
      · exact ih (n / 10) c h
      · simp at h
        subst h
        have hm : n % 10 < 10 := Nat.mod_lt _ (by omega)
        set m := n % 10 with hmdef
        interval_cases m <;> decide

theorem natToString_slashFree (n : Nat) : slashFree (natToString n) = true := by
  simp [slashFree, natToString, List.all_eq_true]
  intro c hc
  have := natDigitsAux_ne_slash (n + 1) n c hc
  simpa using this

theorem digitsVal_append_singleton (l : List Char) (c : Char) :
    digitsVal (l ++ [c]) = digitsVal l * 10 + (c.toNat - 48) := by
  simp [digitsVal, List.foldl_append]

theorem natDigitsAux_val :
    ∀ (fuel n : Nat), n < fuel → digitsVal (natDigitsAux fuel n) = n := by
  intro fuel
  induction fuel with
  | zero => intro n h; omega
  | succ fuel ih =>
    intro n h
    rw [natDigitsAux]
    by_cases hn : n < 10
    · rw [if_pos hn]
      interval_cases n <;> decide
    · rw [if_neg hn]
      rw [digitsVal_append_singleton]
      have h10 : n / 10 < fuel := by
        have := Nat.div_lt_self (by omega : 0 < n) (by omega : 1 < 10)
        omega
      rw [ih (n / 10) h10]
      have hm : n % 10 < 10 := Nat.mod_lt _ (by omega)
      have hc : (Char.ofNat (48 + n % 10)).toNat - 48 = n % 10 := by
        set m := n % 10 with hmdef
        interval_cases m <;> decide
      rw [hc]
      omega

theorem natToString_inj {n m : Nat} (h : natToString n = natToString m) : n = m := by
  have hd : natDigitsAux (n + 1) n = natDigitsAux (m + 1) m := by
    have := congrArg String.data h
    simpa [natToString] using this
  have h1 := natDigitsAux_val (n + 1) n (by omega)
  have h2 := natDigitsAux_val (m + 1) m (by omega)
  rw [hd] at h1
  rw [h1] at h2
  exact h2

theorem renderPath_foldl_data :
    ∀ (segs : List String) (acc : String),
      (segs.foldl (fun a s => a ++ "/" ++ s) acc).data = acc.data ++ pathChars segs := by
  intro segs
  induction segs with
  | nil => intro acc; simp [pathChars]
  | cons s rest ih =>
    intro acc
    rw [List.foldl_cons]
    rw [ih (acc ++ "/" ++ s)]
    simp [pathChars]

theorem renderPath_data (segs : List String) : (renderPath segs).data = pathChars segs := by
  rw [renderPath, renderPath_foldl_data]
  rfl

theorem pathChars_shape (segs : List String) :
    pathChars segs = [] ∨ ∃ t, pathChars segs = '/' :: t := by
  cases segs with
  | nil => left; rfl
  | cons s rest => right; exact ⟨s.data ++ pathChars rest, by simp [pathChars]⟩

theorem seg_split_unique :
    ∀ (a : List Char) (b : List Char) (ra rb : List Char),
      (∀ c ∈ a, c ≠ '/') → (∀ c ∈ b, c ≠ '/') →
      (ra = [] ∨ ∃ t, ra = '/' :: t) → (rb = [] ∨ ∃ t, rb = '/' :: t) →
      a ++ ra = b ++ rb → a = b ∧ ra = rb := by
  intro a
  induction a with
  | nil =>
    intro b ra rb _ hb hra hrb h
    cases b with
    | nil => exact ⟨rfl, by simpa using h⟩
    | cons c bs =>
      simp at h
      exfalso
      rcases hra with h0 | ⟨t, ht⟩
      · rw [h0] at h; simp at h
      · rw [ht] at h
        injection h with h1 _
        exact hb c (by simp) h1.symm
  | cons c as ih =>
    intro b ra rb ha hb hra hrb h
    cases b with
    | nil =>
      simp at h
      exfalso
      rcases hrb with h0 | ⟨t, ht⟩
      · rw [h0] at h; simp at h
      · rw [ht] at h
        injection h with h1 _
        exact ha c (by simp) h1
    | cons c' bs =>
      rw [List.cons_append, List.cons_append] at h
      injection h with h1 h2
      obtain ⟨hab, hr⟩ := ih bs ra rb (fun x hx => ha x (by simp [hx]))
        (fun x hx => hb x (by simp [hx])) hra hrb h2
      exact ⟨by rw [h1, hab], hr⟩

theorem pathChars_inj :
    ∀ (p1 p2 : List String),
      segsSlashFree p1 = true → segsSlashFree p2 = true →
      pathChars p1 = pathChars p2 → p1 = p2 := by
  intro p1
  induction p1 with
  | nil =>
    intro p2 _ _ h
    cases p2 with
    | nil => rfl
    | cons s rest => simp [pathChars] at h
  | cons s rest ih =>
    intro p2 h1 h2 h
    cases p2 with
    | nil => simp [pathChars] at h
    | cons s' rest' =>
      simp only [pathChars, List.map_cons, List.flatten_cons] at h
      rw [List.cons_append, List.cons_append] at h
      injection h with _ h
      have hs : ∀ c ∈ s.data, c ≠ '/' := by
        have hsf : slashFree s = true := List.all_eq_true.mp h1 s (by simp)
        intro c hc
        have := List.all_eq_true.mp hsf c hc
        simpa using this
      have hs' : ∀ c ∈ s'.data, c ≠ '/' := by
        have hsf : slashFree s' = true := List.all_eq_true.mp h2 s' (by simp)
        intro c hc
        have := List.all_eq_true.mp hsf c hc
        simpa using this
      obtain ⟨hseg, hrest⟩ := seg_split_unique s.data s'.data _ _ hs hs'
        (pathChars_shape rest) (pathChars_shape rest') h
      have hseq : s = s' := by
        cases s; cases s'
        exact congrArg String.mk hseg
      rw [hseq]
      have hr1 : segsSlashFree rest = true := by
        rw [segsSlashFree, List.all_eq_true]
        intro x hx
        exact List.all_eq_true.mp h1 x (List.mem_cons_of_mem _ hx)
      have hr2 : segsSlashFree rest' = true := by
        rw [segsSlashFree, List.all_eq_true]
        intro x hx
        exact List.all_eq_true.mp h2 x (List.mem_cons_of_mem _ hx)
      rw [ih rest' hr1 hr2 hrest]

theorem renderPath_inj {p1 p2 : List String}
    (h1 : segsSlashFree p1 = true) (h2 : segsSlashFree p2 = true)
    (h : renderPath p1 = renderPath p2) : p1 = p2 := by
  apply pathChars_inj p1 p2 h1 h2
  rw [← renderPath_data, ← renderPath_data, h]

theorem wfJsonPairs_mem {kvs : List (String × Json)} {k : String} {w : Json}
    (hm : (k, w) ∈ kvs) : wfJsonPairs kvs = true → wfJson w = true := by
  induction hm with
  | head rest =>
    intro hp
    rw [wfJsonPairs] at hp
    simp only [Bool.and_eq_true] at hp
    exact hp.1
  | tail kv hmem ih =>
    intro hp
    rw [wfJsonPairs] at hp
    simp only [Bool.and_eq_true] at hp
    exact ih hp.2

theorem wfJson_obj_mem {kvs : List (String × Json)} {k : String} {w : Json}
    (hwf : wfJson (.obj kvs) = true) (hm : (k, w) ∈ kvs) :
    wfJson w = true ∧ slashFree k = true := by
  rw [wfJson] at hwf
  simp only [Bool.and_eq_true] at hwf
  obtain ⟨⟨_, hsf⟩, hpairs⟩ := hwf
  exact ⟨wfJsonPairs_mem hm hpairs, List.all_eq_true.mp hsf k (List.mem_map_of_mem Prod.fst hm)⟩

theorem wfJsonElems_mem {xs : List Json} {w : Json}
    (hm : w ∈ xs) : wfJsonElems xs = true → wfJson w = true := by
  induction hm with
  | head rest =>
    intro hp
    rw [wfJsonElems] at hp
    simp only [Bool.and_eq_true] at hp
    exact hp.1
  | tail x hmem ih =>
    intro hp
    rw [wfJsonElems] at hp
    simp only [Bool.and_eq_true] at hp
    exact ih hp.2

theorem wfJson_arr_mem {xs : List Json} {w : Json}
    (hwf : wfJson (.arr xs) = true) (hm : w ∈ xs) : wfJson w = true := by
  rw [wfJson] at hwf
  exact wfJsonElems_mem hm hwf

theorem wfSchema_props {s : SchemaNode} {props : List (String × SchemaNode)}
    (hwf : wfSchema s = true) (hp : s.properties = some props) :
    distinctKeysB (props.map Prod.fst) = true ∧
    (props.map Prod.fst).all slashFree = true ∧ wfSchemaList props = true := by
  obtain ⟨t, ps, it, req, addl, dflt, pp⟩ := s
  rw [wfSchema.eq_def] at hwf
  dsimp only at hwf
  simp only [Bool.and_eq_true] at hwf
  obtain ⟨⟨_, hps⟩, _⟩ := hwf
  simp [SchemaNode.properties] at hp
  rw [hp] at hps
  simp only [Bool.and_eq_true] at hps
  exact ⟨hps.1.1, hps.1.2, hps.2⟩

theorem wfSchema_not_both {s : SchemaNode}
    (hwf : wfSchema s = true) : ¬ (s.properties.isSome = true ∧ s.items.isSome = true) := by
  obtain ⟨t, ps, it, req, addl, dflt, pp⟩ := s
  rw [wfSchema.eq_def] at hwf
  dsimp only at hwf
  simp only [Bool.and_eq_true] at hwf
  obtain ⟨⟨hboth, _⟩, _⟩ := hwf
  simp [SchemaNode.properties, SchemaNode.items]
  intro hps
  cases ps with
  | none => simp at hps
  | some l =>
    cases it with
    | none => simp
    | some sub => simp at hboth

theorem wfSchemaList_mem {props : List (String × SchemaNode)} {pe : String × SchemaNode}
    (hm : pe ∈ props) : wfSchemaList props = true → wfSchema pe.2 = true := by
  induction hm with
  | head rest =>
    intro hwf
    rw [wfSchemaList] at hwf
    simp only [Bool.and_eq_true] at hwf
    exact hwf.1
  | tail q hmem ih =>
    intro hwf
    rw [wfSchemaList] at hwf
    simp only [Bool.and_eq_true] at hwf
    exact ih hwf.2

theorem slookup_mem :
    ∀ {ps : List (String × SchemaNode)} {k : String} {sub : SchemaNode},
      slookup ps k = some sub → (k, sub) ∈ ps := by
  intro ps
  induction ps with
  | nil => intro k sub h; simp [slookup] at h
  | cons q rest ih =>
    intro k sub h
    obtain ⟨k0, s0⟩ := q
    by_cases hk : k0 = k
    · subst hk
      simp [slookup] at h
      simp [h]
    · simp [slookup, hk] at h
      exact List.mem_cons_of_mem _ (ih h)

theorem wfSchema_slookup {s : SchemaNode} {k : String} {sub : SchemaNode}
    (hwf : wfSchema s = true) (hs : slookup (s.properties.getD []) k = some sub) :
    wfSchema sub = true := by
  cases hp : s.properties with
  | none => rw [hp] at hs; simp [slookup] at hs
  | some props =>
    rw [hp] at hs
    obtain ⟨_, _, hlist⟩ := wfSchema_props hwf hp
    exact wfSchemaList_mem (slookup_mem hs) hlist

theorem wfSchema_items {s : SchemaNode} {sub : SchemaNode}
    (hwf : wfSchema s = true) (hs : s.items = some sub) : wfSchema sub = true := by
  obtain ⟨t, ps, it, req, addl, dflt, pp⟩ := s
  rw [wfSchema.eq_def] at hwf
  dsimp only at hwf
  simp only [Bool.and_eq_true] at hwf
  obtain ⟨_, hit⟩ := hwf
  simp [SchemaNode.items] at hs
  rw [hs] at hit
  exact hit

theorem keyPaths_slashFree :
    ∀ (q : List String) (v : Json), wfJson v = true → q ∈ keyPaths v →
      segsSlashFree q = true := by
  intro q
  induction q with
  | nil =>
    intro v hwf hq
    rfl
  | cons seg rest ih =>
    intro v hwf hq
    cases v with
    | obj kvs =>
      obtain ⟨k, w, hm, hcase⟩ := keyPathsPairs_elim hq
      obtain ⟨hww, hsk⟩ := wfJson_obj_mem hwf hm
      rcases hcase with h1 | ⟨q', hq', h2⟩
      · injection h1 with e1 e2
        subst e1; subst e2
        simp [segsSlashFree, hsk]
      · injection h2 with e1 e2
        subst e1; subst e2
        have := ih w hww hq'
        simp [segsSlashFree, hsk]
        rw [segsSlashFree] at this
        simpa using this
    | arr xs =>
      obtain ⟨j, w, q', hm, hq', hpeq⟩ := keyPathsElems_elim hq
      injection hpeq with e1 e2
      subst e1; subst e2
      have hmem : w ∈ xs := by
        have := List.mem_map_of_mem Prod.snd hm
        rwa [enumFrom_map_snd'] at this
      have := ih w (wfJson_arr_mem hwf hmem) hq'
      simp [segsSlashFree, natToString_slashFree]
      rw [segsSlashFree] at this
      simpa using this
    | null => simp [keyPaths] at hq
    | bool b => simp [keyPaths] at hq
    | num q0 => simp [keyPaths] at hq
    | str t => simp [keyPaths] at hq

theorem pathChars_append (l1 l2 : List String) :
    pathChars (l1 ++ l2) = pathChars l1 ++ pathChars l2 := by
  simp [pathChars]

theorem renderPath_append_inj {path A B : List String}
    (hA : segsSlashFree A = true) (hB : segsSlashFree B = true)
    (h : renderPath (path ++ A) = renderPath (path ++ B)) : A = B := by
  have hd := congrArg String.data h
  rw [renderPath_data, renderPath_data, pathChars_append, pathChars_append] at hd
  exact pathChars_inj A B hA hB (List.append_cancel_left hd)

theorem prune_fold_rec_paths
    {recur : Json → SchemaNode → List String → Option (Json × List ChangeRecord)}
    {rx : RegexModel} {s : SchemaNode} {path : List String}
    (hrec : ∀ u sub p' out', recur u sub p' = some out' →
      ∀ r ∈ out'.2, ∃ q, q ∈ keyPaths u ∧ r.path = renderPath (p' ++ q)) :
    ∀ (kvs : List (String × Json)) (out : List (String × Json) × List ChangeRecord × List ChangeRecord),
      kvs.foldr (pruneStep recur rx s path) (some ([], [], [])) = some out →
      ∀ r, (r ∈ out.2.1 ∨ r ∈ out.2.2) →
        ∃ q, q ∈ keyPathsPairs kvs ∧ r.path = renderPath (path ++ q) := by
  intro kvs
  induction kvs with
  | nil =>
    intro out h r hm
    simp at h
    rw [← h] at hm
    simp at hm
  | cons kv rest ih =>
    intro out h r hm
    obtain ⟨k0, v0⟩ := kv
    rw [List.foldr_cons] at h
    rcases hacc : rest.foldr (pruneStep recur rx s path) (some ([], [], [])) with _ | ⟨rk, rrec, rrem⟩
    · rw [hacc] at h; simp [pruneStep] at h
    · rw [hacc] at h
      rcases pruneStep_cases h with ⟨_, _, hout⟩ | ⟨sub, v', d, hsl, hr, hout⟩ | ⟨hsl, hout⟩
      · rw [hout] at hm
        dsimp only at hm
        rcases hm with hm | hm
        · obtain ⟨q, hq, hpath⟩ := ih (rk, rrec, rrem) hacc r (Or.inl hm)
          exact ⟨q, by rw [keyPathsPairs]; simp; right; right; simpa [keyPathsPairs] using hq, hpath⟩
        · rcases List.mem_cons.mp hm with hm' | hm'
          · refine ⟨[k0], by simp [keyPathsPairs], ?_⟩
            rw [hm']
          · obtain ⟨q, hq, hpath⟩ := ih (rk, rrec, rrem) hacc r (Or.inr hm')
            exact ⟨q, by rw [keyPathsPairs]; simp; right; right; simpa [keyPathsPairs] using hq, hpath⟩
      · rw [hout] at hm
        dsimp only at hm
        rcases hm with hm | hm
        · rcases List.mem_append.mp hm with hm' | hm'
          · obtain ⟨q', hq', hpath⟩ := hrec v0 sub (path ++ [k0]) (v', d) hr r hm'
            refine ⟨k0 :: q', ?_, ?_⟩
            · rw [keyPathsPairs]
              simp
              right; left
              first
              | exact hq'
              | exact ⟨q', hq', rfl⟩
            · rw [hpath]
              exact congrArg renderPath (by simp)
          · obtain ⟨q, hq, hpath⟩ := ih (rk, rrec, rrem) hacc r (Or.inl hm')
            exact ⟨q, by rw [keyPathsPairs]; simp; right; right; simpa [keyPathsPairs] using hq, hpath⟩
        · obtain ⟨q, hq, hpath⟩ := ih (rk, rrec, rrem) hacc r (Or.inr hm)
          exact ⟨q, by rw [keyPathsPairs]; simp; right; right; simpa [keyPathsPairs] using hq, hpath⟩
      · rw [hout] at hm
        dsimp only at hm
        rcases hm with hm | hm
        · obtain ⟨q, hq, hpath⟩ := ih (rk, rrec, rrem) hacc r (Or.inl hm)
          exact ⟨q, by rw [keyPathsPairs]; simp; right; right; simpa [keyPathsPairs] using hq, hpath⟩
        · obtain ⟨q, hq, hpath⟩ := ih (rk, rrec, rrem) hacc r (Or.inr hm)
          exact ⟨q, by rw [keyPathsPairs]; simp; right; right; simpa [keyPathsPairs] using hq, hpath⟩

theorem prune_arrfold_rec_paths
    {recur : Json → SchemaNode → List String → Option (Json × List ChangeRecord)}
    {itemSchema : SchemaNode} {path : List String}
    (hrec : ∀ u p' out', recur u itemSchema p' = some out' →
      ∀ r ∈ out'.2, ∃ q, q ∈ keyPaths u ∧ r.path = renderPath (p' ++ q)) :
    ∀ (xs : List Json) (n : Nat) (vals : List Json) (delta : List ChangeRecord),
      (xs.enumFrom n).foldr (pruneArrStep recur itemSchema path) (some ([], [])) = some (vals, delta) →
      ∀ r ∈ delta, ∃ q, q ∈ keyPathsElems n xs ∧ r.path = renderPath (path ++ q) := by
  intro xs
  induction xs with
  | nil =>
    intro n vals delta h r hm
    simp [List.enumFrom] at h
    rw [h.2] at hm
    simp at hm
  | cons x rest ih =>
    intro n vals delta h r hm
    rw [List.enumFrom, List.foldr_cons] at h
    rcases hacc : (rest.enumFrom (n + 1)).foldr (pruneArrStep recur itemSchema path) (some ([], []))
      with _ | ⟨rv, rd⟩
    · rw [hacc] at h; simp [pruneArrStep] at h
    · rw [hacc] at h
      obtain ⟨v', d, hr, hout⟩ := pruneArrStep_cases h
      injection hout with h1 h2
      rw [h2] at hm
      rcases List.mem_append.mp hm with hm' | hm'
      · obtain ⟨q', hq', hpath⟩ := hrec x (path ++ [natToString (n, x).1]) (v', d) hr r hm'
        refine ⟨natToString n :: q', ?_, ?_⟩
        · rw [keyPathsElems]
          simp
          left
          first
          | exact hq'
          | exact ⟨q', hq', rfl⟩
        · rw [hpath]
          exact congrArg renderPath (by simp)
      · obtain ⟨q, hq, hpath⟩ := ih (n + 1) rv rd hacc r hm'
        exact ⟨q, by rw [keyPathsElems]; exact List.mem_append_right _ hq, hpath⟩

/-- Every pruner record sits at a rendered key path of the input. -/
theorem prune_rec_paths :
    ∀ (fuel : Nat) (rx : RegexModel) (v : Json) (s : SchemaNode) (path : List String)
      (out : Json × List ChangeRecord),
      removeAdditionalProperties fuel rx v s path = some out →
      ∀ r ∈ out.2, ∃ q, q ∈ keyPaths v ∧ r.path = renderPath (path ++ q) := by
  intro fuel
  induction fuel with
  | zero =>
    intro rx v s path out h r hm
    simp [removeAdditionalProperties] at h
    rw [← h] at hm
    simp at hm
  | succ fuel ih =>
    intro rx v s path out h r hm
    cases v with
    | arr xs =>
      rw [removeAdditionalProperties.eq_def] at h
      dsimp only at h
      cases hit : s.items with
      | none =>
        rw [hit] at h; simp at h
        rw [← h] at hm
        simp at hm
      | some itemSchema =>
        simp only [hit] at h
        rcases hproc : (xs.enum.foldr
            (pruneArrStep (fun v sub p => removeAdditionalProperties fuel rx v sub p) itemSchema path)
            (some ([], []))) with _ | ⟨vals, delta⟩
        · simp only [hproc] at h; exact Option.noConfusion h
        · simp only [hproc] at h
          simp at h
          rw [← h] at hm
          have hm2 : r ∈ delta := hm
          obtain ⟨q, hq, hpath⟩ := prune_arrfold_rec_paths
            (fun u p' out' hu r' hr' => ih rx u itemSchema p' out' hu r' hr')
            xs 0 vals delta hproc r hm2
          exact ⟨q, hq, hpath⟩
    | obj kvs =>
      rw [removeAdditionalProperties.eq_def] at h
      dsimp only at h
      by_cases hcond : (s.type = some (.single "object") ∨ s.properties.isSome = true)
      · rw [if_pos hcond] at h
        rcases hproc : (kvs.foldr
            (pruneStep (fun v sub p => removeAdditionalProperties fuel rx v sub p) rx s path)
            (some ([], [], []))) with _ | ⟨kvs', recD, remD⟩
        · simp only [hproc] at h; exact Option.noConfusion h
        · simp only [hproc] at h
          simp at h
          rw [← h] at hm
          have hm2 : r ∈ recD ++ remD := hm
          obtain ⟨q, hq, hpath⟩ := prune_fold_rec_paths
            (fun u sub p' out' hu r' hr' => ih rx u sub p' out' hu r' hr')
            kvs (kvs', recD, remD) hproc r
            (by rcases List.mem_append.mp hm2 with h' | h'
                · exact Or.inl h'
                · exact Or.inr h')
          exact ⟨q, hq, hpath⟩
      · rw [if_neg hcond] at h
        simp at h
        rw [← h] at hm
        simp at hm
    | null => simp [removeAdditionalProperties] at h; rw [← h] at hm; simp at hm
    | bool b => simp [removeAdditionalProperties] at h; rw [← h] at hm; simp at hm
    | num q0 => simp [removeAdditionalProperties] at h; rw [← h] at hm; simp at hm
    | str t => simp [removeAdditionalProperties] at h; rw [← h] at hm; simp at hm

theorem slookup_of_mem_distinct :
    ∀ {props : List (String × SchemaNode)} {pe : String × SchemaNode},
      distinctKeysB (props.map Prod.fst) = true → pe ∈ props →
      slookup props pe.1 = some pe.2 := by
  intro props
  induction props with
  | nil => intro pe _ hm; simp at hm
  | cons q rest ih =>
    intro pe hd hm
    obtain ⟨k0, s0⟩ := q
    rw [List.map_cons, distinctKeysB] at hd
    simp only [Bool.and_eq_true] at hd
    rcases List.mem_cons.mp hm with h' | h'
    · rw [h']
      simp [slookup]
    · have hne : k0 ≠ pe.1 := by
        intro he
        have hcont := hd.1
        simp at hcont
        apply hcont pe.2
        have hpe : (pe.1, pe.2) ∈ rest := by simpa using h'
        rw [← he] at hpe
        exact hpe
      simp [slookup, hne]
      exact ih hd.2 h'

theorem mem_foldr_append {α β : Type} (rs : List (α × List β)) (r : β)
    (h : r ∈ rs.foldr (fun e acc => e.2 ++ acc) []) : ∃ e ∈ rs, r ∈ e.2 := by
  induction rs with
  | nil => simp at h
  | cons e rest ih =>
    rw [List.foldr_cons] at h
    rcases List.mem_append.mp h with h' | h'
    · exact ⟨e, by simp, h'⟩
    · obtain ⟨e', he', hr⟩ := ih h'
      exact ⟨e', List.mem_cons_of_mem _ he', hr⟩

theorem coerce_fold_rec_paths {recur : Json → SchemaNode → List String → Json × List ChangeRecord}
    {path : List String} {s : SchemaNode} {props : List (String × SchemaNode)}
    (hct : ((s.type.getD (.single "")).toList).contains "object" = true)
    (hpp : s.properties = some props)
    (hdk : distinctKeysB (props.map Prod.fst) = true)
    (hsf : (props.map Prod.fst).all slashFree = true)
    (hrec : ∀ u (pe : String × SchemaNode) p', pe ∈ props →
      ∀ r ∈ (recur u pe.2 p').2,
        ∃ q, CPos pe.2 q ∧ segsSlashFree q = true ∧ r.path = renderPath (p' ++ q)) :
    ∀ (props' : List (String × SchemaNode)), (∀ pe ∈ props', pe ∈ props) →
    ∀ (acc : List (String × Json) × List ChangeRecord),
      (∀ r ∈ acc.2, ∃ q, CPos s q ∧ segsSlashFree q = true ∧ r.path = renderPath (path ++ q)) →
      ∀ r ∈ (props'.foldl (coercePropsStep recur path) acc).2,
        ∃ q, CPos s q ∧ segsSlashFree q = true ∧ r.path = renderPath (path ++ q) := by
  intro props'
  induction props' with
  | nil =>
    intro _ acc hInv r hr
    simp only [List.foldl_nil] at hr
    exact hInv r hr
  | cons pe rest ih =>
    intro hsub acc hInv r hr
    rw [List.foldl_cons] at hr
    refine ih (fun q hq => hsub q (List.mem_cons_of_mem _ hq)) (coercePropsStep recur path acc pe) ?_ r hr
    intro r' hr'
    rcases hj : jlookup acc.1 pe.1 with _ | u
    · rw [coercePropsStep_eq_none hj] at hr'
      exact hInv r' hr'
    · rw [coercePropsStep_eq_some hj] at hr'
      dsimp only at hr'
      rcases List.mem_append.mp hr' with h' | h'
      · exact hInv r' h'
      · have hpe := hsub pe (by simp)
        obtain ⟨q', hcp, hqsf, hpath⟩ := hrec u pe (path ++ [pe.1]) hpe r' h'
        refine ⟨pe.1 :: q', ?_, ?_, ?_⟩
        · refine CPos.key hct ?_ hcp
          rw [hpp]
          exact slookup_of_mem_distinct hdk hpe
        · have hk := List.all_eq_true.mp hsf pe.1 (List.mem_map_of_mem Prod.fst hpe)
          rw [segsSlashFree] at hqsf ⊢
          simp [hk]
          simpa using hqsf
        · rw [hpath]
          exact congrArg renderPath (by simp)

/-- Every coercer record sits at a rendered coercion position of the
governing schema. -/
theorem coerce_rec_paths :
    ∀ (fuel : Nat) (v : Json) (s : SchemaNode) (path : List String),
      wfSchema s = true →
      ∀ r ∈ (applyTypeCoercion fuel v s path).2,
        ∃ q, CPos s q ∧ segsSlashFree q = true ∧ r.path = renderPath (path ++ q) := by
  intro fuel
  induction fuel with
  | zero => intro v s path _ r hr; simp [applyTypeCoercion] at hr
  | succ fuel ih =>
    intro v s path hwf r hr
    by_cases hf : schemaTypeFalsy s.type = true
    · rw [applyTypeCoercion_falsy hf] at hr
      simp at hr
    · rw [Bool.not_eq_true] at hf
      by_cases hct : ((s.type.getD (.single "")).toList).contains (typeNameOf v) = true
      · cases v with
        | obj kvs =>
          cases hpp : s.properties with
          | some props =>
            rw [applyTypeCoercion_obj hf hct hpp] at hr
            dsimp only at hr
            obtain ⟨hdk, hsf, _⟩ := wfSchema_props hwf hpp
            exact coerce_fold_rec_paths hct hpp hdk hsf
              (fun u pe p' hpe r' hr' =>
                ih u pe.2 p' (wfSchema_slookup hwf
                  (by rw [hpp]; exact slookup_of_mem_distinct hdk hpe)) r' hr')
              props (fun q hq => hq) (kvs, []) (fun r' hr' => by simp at hr') r hr
          | none =>
            rw [applyTypeCoercion_obj_noprops hf hct hpp] at hr
            simp at hr
        | arr xs =>
          cases hit : s.items with
          | some itemSchema =>
            rw [applyTypeCoercion_arr hf hct hit] at hr
            dsimp only at hr
            obtain ⟨e, he, hre⟩ := mem_foldr_append _ r hr
            obtain ⟨ix, hix, hei⟩ := List.mem_map.mp he
            obtain ⟨q', hcp, hqsf, hpath⟩ := ih ix.2 itemSchema (path ++ [natToString ix.1])
              (wfSchema_items hwf hit) r (by rw [hei]; exact hre)
            refine ⟨natToString ix.1 :: q', CPos.idx hct hit hcp, ?_, ?_⟩
            · rw [segsSlashFree]
              simp [natToString_slashFree]
              rw [segsSlashFree] at hqsf
              simpa using hqsf
            · rw [hpath]
              exact congrArg renderPath (by simp)
          | none =>
            rw [applyTypeCoercion_arr_noitems hf hct hit] at hr
            simp at hr
        | null => rw [applyTypeCoercion_scalar_match hf hct trivial] at hr; simp at hr
        | bool b => rw [applyTypeCoercion_scalar_match hf hct trivial] at hr; simp at hr
        | num q0 => rw [applyTypeCoercion_scalar_match hf hct trivial] at hr; simp at hr
        | str t => rw [applyTypeCoercion_scalar_match hf hct trivial] at hr; simp at hr
      · rw [Bool.not_eq_true] at hct
        rw [applyTypeCoercion_nomatch hf hct] at hr
        rcases @coerceFirst_cases (renderPath path) v
            ((s.type.getD (.single "")).toList) with hcf | ⟨c, rc, hcf, hract, hrpath⟩
        · rw [hcf] at hr
          simp at hr
        · rw [hcf] at hr
          simp at hr
          refine ⟨[], CPos.nil s, rfl, ?_⟩
          rw [hr, hrpath]
          exact congrArg renderPath (List.append_nil path).symm

theorem defaults_fold_rec_paths {recur : Json → SchemaNode → List String → Json × List ChangeRecord}
    {req : List String} {path : List String} {s : SchemaNode} {props : List (String × SchemaNode)}
    (hpp : s.properties = some props)
    (hdk : distinctKeysB (props.map Prod.fst) = true)
    (hsf : (props.map Prod.fst).all slashFree = true)
    (hrec : ∀ u (pe : String × SchemaNode) p', pe ∈ props →
      ∀ r ∈ (recur u pe.2 p').2,
        ∃ q, SPos pe.2 q ∧ segsSlashFree q = true ∧ r.path = renderPath (p' ++ q)) :
    ∀ (props' : List (String × SchemaNode)), (∀ pe ∈ props', pe ∈ props) →
    ∀ (acc : List (String × Json) × List ChangeRecord),
      (∀ r ∈ acc.2, ∃ q, SPos s q ∧ segsSlashFree q = true ∧ r.path = renderPath (path ++ q)) →
      ∀ r ∈ (props'.foldl (defaultsStep recur req path) acc).2,
        ∃ q, SPos s q ∧ segsSlashFree q = true ∧ r.path = renderPath (path ++ q) := by
  intro props'
  induction props' with
  | nil =>
    intro _ acc hInv r hr
    simp only [List.foldl_nil] at hr
    exact hInv r hr
  | cons pe rest ih =>
    intro hsub acc hInv r hr
    rw [List.foldl_cons] at hr
    refine ih (fun q hq => hsub q (List.mem_cons_of_mem _ hq)) (defaultsStep recur req path acc pe) ?_ r hr
    intro r' hr'
    have hpe := hsub pe (by simp)
    have hsl : slookup (s.properties.getD []) pe.1 = some pe.2 := by
      rw [hpp]
      exact slookup_of_mem_distinct hdk hpe
    have hk1 : slashFree pe.1 = true := List.all_eq_true.mp hsf pe.1 (List.mem_map_of_mem Prod.fst hpe)
    rcases @defaultsStep_cases recur req path acc pe with
      ⟨hj, hid | ⟨x, rr, heq, hract, hrpath⟩⟩ | ⟨u, hj, heq⟩
    · rw [hid] at hr'
      exact hInv r' hr'
    · rw [heq] at hr'
      dsimp only at hr'
      rcases List.mem_append.mp hr' with h' | h'
      · exact hInv r' h'
      · have hr'' : r' = rr := by simpa using h'
        refine ⟨[pe.1], SPos.key hsl (SPos.nil _), ?_, ?_⟩
        · simp [segsSlashFree, hk1]
        · rw [hr'', hrpath]
    · rw [heq] at hr'
      dsimp only at hr'
      rcases List.mem_append.mp hr' with h' | h'
      · exact hInv r' h'
      · obtain ⟨q', hsp, hqsf, hpath⟩ := hrec u pe (path ++ [pe.1]) hpe r' h'
        refine ⟨pe.1 :: q', SPos.key hsl hsp, ?_, ?_⟩
        · rw [segsSlashFree]
          simp [hk1]
          rw [segsSlashFree] at hqsf
          simpa using hqsf
        · rw [hpath]
          exact congrArg renderPath (by simp)

/-- Every Default Applicator record sits at a rendered defaulting
position of the governing schema. -/
theorem defaults_rec_paths :
    ∀ (fuel : Nat) (v : Json) (s : SchemaNode) (path : List String) (out : Json × List ChangeRecord),
      wfSchema s = true →
      applyDefaults fuel v s path = out →
      ∀ r ∈ out.2, ∃ q, SPos s q ∧ segsSlashFree q = true ∧ r.path = renderPath (path ++ q) := by
  intro fuel
  induction fuel with
  | zero =>
    intro v s path out _ h r hr
    rw [← h] at hr
    have hr2 : r ∈ ([] : List ChangeRecord) := hr
    simp at hr2
  | succ fuel ih =>
    intro v s path out hwf h r hr
    rw [applyDefaults.eq_def] at h
    dsimp only at h
    by_cases hc : (s.type = some (.single "object") ∨ s.properties.isSome = true)
    · rw [if_pos hc] at h
      have hfoldcase : ∀ (kvs0 : List (String × Json)) (kvs2 : List (String × Json)) (d2 : List ChangeRecord),
          ((s.properties.getD []).foldl
            (defaultsStep (fun v sub p => applyDefaults fuel v sub p) (s.required.getD []) path)
            (kvs0, [])) = (kvs2, d2) →
          r ∈ d2 →
          ∃ q, SPos s q ∧ segsSlashFree q = true ∧ r.path = renderPath (path ++ q) := by
        intro kvs0 kvs2 d2 hfold hrd
        cases hpp : s.properties with
        | none =>
          rw [hpp] at hfold
          simp at hfold
          have hd2 : d2 = [] := by
            first
            | exact hfold.2.symm
            | exact hfold.2
          rw [hd2] at hrd
          simp at hrd
        | some props =>
          obtain ⟨hdk, hsf, hlist⟩ := wfSchema_props hwf hpp
          have := @defaults_fold_rec_paths _ (s.required.getD []) path _ _ hpp hdk hsf
            (fun u pe p' hpe r' hr' =>
              ih u pe.2 p' (applyDefaults fuel u pe.2 p')
                (wfSchemaList_mem hpe hlist) rfl r' hr')
            props (fun q hq => hq) (kvs0, []) (fun r' hr' => by simp at hr') r
          rw [hpp] at hfold
          simp only [Option.getD_some] at hfold
          rw [hfold] at this
          exact this hrd
      cases v with
      | obj kvs =>
        dsimp only at h
        rcases hfold : ((s.properties.getD []).foldl
            (defaultsStep (fun v sub p => applyDefaults fuel v sub p) (s.required.getD []) path)
            (kvs, [])) with ⟨kvs2, d2⟩
        rw [hfold] at h
        rw [← h] at hr
        exact hfoldcase kvs kvs2 d2 hfold hr
      | null =>
        dsimp only at h
        split at h
        · rename_i d hd
          rw [← h] at hr
          have hr' : r = ChangeRecord.mk (renderPath path) "defaulted" (some .null) (some d)
              "Applied schema default for missing object" := by simpa using hr
          refine ⟨[], SPos.nil s, rfl, ?_⟩
          rw [hr']
          exact congrArg renderPath (List.append_nil path).symm
        · try dsimp only at h
          rcases hfold : ((s.properties.getD []).foldl
              (defaultsStep (fun v sub p => applyDefaults fuel v sub p) (s.required.getD []) path)
              ([], [])) with ⟨kvs2, d2⟩
          rw [hfold] at h
          rw [← h] at hr
          exact hfoldcase [] kvs2 d2 hfold hr
      | bool b =>
        dsimp only at h
        split at h
        · rename_i d hd
          rw [← h] at hr
          have hr' : r = ChangeRecord.mk (renderPath path) "defaulted" (some (.bool b)) (some d)
              "Applied schema default for missing object" := by simpa using hr
          refine ⟨[], SPos.nil s, rfl, ?_⟩
          rw [hr']
          exact congrArg renderPath (List.append_nil path).symm
        · try dsimp only at h
          rcases hfold : ((s.properties.getD []).foldl
              (defaultsStep (fun v sub p => applyDefaults fuel v sub p) (s.required.getD []) path)
              ([], [])) with ⟨kvs2, d2⟩
          rw [hfold] at h
          rw [← h] at hr
          exact hfoldcase [] kvs2 d2 hfold hr
      | num q0 =>
        dsimp only at h
        split at h
        · rename_i d hd
          rw [← h] at hr
          have hr' : r = ChangeRecord.mk (renderPath path) "defaulted" (some (.num q0)) (some d)
              "Applied schema default for missing object" := by simpa using hr
          refine ⟨[], SPos.nil s, rfl, ?_⟩
          rw [hr']
          exact congrArg renderPath (List.append_nil path).symm
        · try dsimp only at h
          rcases hfold : ((s.properties.getD []).foldl
              (defaultsStep (fun v sub p => applyDefaults fuel v sub p) (s.required.getD []) path)
              ([], [])) with ⟨kvs2, d2⟩
          rw [hfold] at h
          rw [← h] at hr
          exact hfoldcase [] kvs2 d2 hfold hr
      | str st =>
        dsimp only at h
        split at h
        · rename_i d hd
          rw [← h] at hr
          have hr' : r = ChangeRecord.mk (renderPath path) "defaulted" (some (.str st)) (some d)
              "Applied schema default for missing object" := by simpa using hr
          refine ⟨[], SPos.nil s, rfl, ?_⟩
          rw [hr']
          exact congrArg renderPath (List.append_nil path).symm
        · try dsimp only at h
          rcases hfold : ((s.properties.getD []).foldl
              (defaultsStep (fun v sub p => applyDefaults fuel v sub p) (s.required.getD []) path)
              ([], [])) with ⟨kvs2, d2⟩
          rw [hfold] at h
          rw [← h] at hr
          exact hfoldcase [] kvs2 d2 hfold hr
      | arr xs =>
        dsimp only at h
        split at h
        · rename_i d hd
          rw [← h] at hr
          have hr' : r = ChangeRecord.mk (renderPath path) "defaulted" (some (.arr xs)) (some d)
              "Applied schema default for missing object" := by simpa using hr
          refine ⟨[], SPos.nil s, rfl, ?_⟩
          rw [hr']
          exact congrArg renderPath (List.append_nil path).symm
        · try dsimp only at h
          rcases hfold : ((s.properties.getD []).foldl
              (defaultsStep (fun v sub p => applyDefaults fuel v sub p) (s.required.getD []) path)
              ([], [])) with ⟨kvs2, d2⟩
          rw [hfold] at h
          rw [← h] at hr
          exact hfoldcase [] kvs2 d2 hfold hr
    · rw [if_neg hc] at h
      split at h
      · rename_i itemSchema hty hit
        cases v with
        | arr xs =>
          dsimp only at h
          rw [← h] at hr
          obtain ⟨e, he, hre⟩ := mem_foldr_append _ r hr
          obtain ⟨ix, hix, hei⟩ := List.mem_map.mp he
          obtain ⟨q', hsp, hqsf, hpath⟩ := ih ix.2 itemSchema (path ++ [natToString ix.1])
            (applyDefaults fuel ix.2 itemSchema (path ++ [natToString ix.1]))
            (wfSchema_items hwf hit) rfl r (by rw [hei]; exact hre)
          refine ⟨natToString ix.1 :: q', SPos.idx hc hty hit hsp, ?_, ?_⟩
          · rw [segsSlashFree]
            simp [natToString_slashFree]
            rw [segsSlashFree] at hqsf
            simpa using hqsf
          · rw [hpath]
            exact congrArg renderPath (by simp)
        | null =>
          try dsimp only at h
          split at h
          · rename_i d hd
            rw [← h] at hr
            have hr' : r = ChangeRecord.mk (renderPath path) "defaulted" (some .null) (some d)
                "Applied schema default for non-array value" := by simpa using hr
            refine ⟨[], SPos.nil s, rfl, ?_⟩
            rw [hr']
            exact congrArg renderPath (List.append_nil path).symm
          · rw [← h] at hr; simp at hr
        | bool b =>
          try dsimp only at h
          split at h
          · rename_i d hd
            rw [← h] at hr
            have hr' : r = ChangeRecord.mk (renderPath path) "defaulted" (some (.bool b)) (some d)
                "Applied schema default for non-array value" := by simpa using hr
            refine ⟨[], SPos.nil s, rfl, ?_⟩
            rw [hr']
            exact congrArg renderPath (List.append_nil path).symm
          · rw [← h] at hr; simp at hr
        | num q0 =>
          try dsimp only at h
          split at h
          · rename_i d hd
            rw [← h] at hr
            have hr' : r = ChangeRecord.mk (renderPath path) "defaulted" (some (.num q0)) (some d)
                "Applied schema default for non-array value" := by simpa using hr
            refine ⟨[], SPos.nil s, rfl, ?_⟩
            rw [hr']
            exact congrArg renderPath (List.append_nil path).symm
          · rw [← h] at hr; simp at hr
        | str st =>
          try dsimp only at h
          split at h
          · rename_i d hd
            rw [← h] at hr
            have hr' : r = ChangeRecord.mk (renderPath path) "defaulted" (some (.str st)) (some d)
                "Applied schema default for non-array value" := by simpa using hr
            refine ⟨[], SPos.nil s, rfl, ?_⟩
            rw [hr']
            exact congrArg renderPath (List.append_nil path).symm
          · rw [← h] at hr; simp at hr
        | obj kvs =>
          try dsimp only at h
          split at h
          · rename_i d hd
            rw [← h] at hr
            have hr' : r = ChangeRecord.mk (renderPath path) "defaulted" (some (.obj kvs)) (some d)
                "Applied schema default for non-array value" := by simpa using hr
            refine ⟨[], SPos.nil s, rfl, ?_⟩
            rw [hr']
            exact congrArg renderPath (List.append_nil path).symm
          · rw [← h] at hr; simp at hr
      · rw [← h] at hr
        simp at hr

theorem slookup_none_of_hasProp_false {ps : List (String × SchemaNode)} {k : String}
    (h : hasProp ps k = false) : slookup ps k = none := by
  cases hs : slookup ps k with
  | none => rfl
  | some sub => rw [slookup_some_hasProp hs] at h; exact absurd h (by simp)

theorem slookup_isSome_props {s : SchemaNode} {k : String} {sub : SchemaNode}
    (h : slookup (s.properties.getD []) k = some sub) : s.properties.isSome = true := by
  cases hp : s.properties with
  | none => rw [hp] at h; simp [slookup] at h
  | some l => simp

/-- A disallowed, unmatched key is dropped with a `removed` record. -/
theorem pruneStep_removes {recur : Json → SchemaNode → List String → Option (Json × List ChangeRecord)}
    {rx : RegexModel} {s : SchemaNode} {path : List String} {k : String} {vk : Json}
    {rk : List (String × Json)} {rrec rrem : List ChangeRecord}
    (haddl : s.addl = some false)
    (hkn : hasProp (s.properties.getD []) k = false)
    (hpat : s.patternProps = none ∨
      ∃ pats, s.patternProps = some pats ∧ someRegex rx k (pats.map (fun p => p.1)) = some false) :
    pruneStep recur rx s path (k, vk) (some (rk, rrec, rrem)) =
      some (rk, rrec,
        ChangeRecord.mk (renderPath (path ++ [k])) "removed" (some vk) none
          "Property not allowed by schema (additionalProperties: false)" :: rrem) := by
  unfold pruneStep
  rcases hpat with hpn | ⟨pats, hps, hsr⟩
  · rw [hpn]
    simp [Option.bind, haddl, hkn]
  · rw [hps]
    simp only [hsr]
    simp [Option.bind, haddl, hkn]

theorem wfJson_obj_tail {kv : String × Json} {rest : List (String × Json)}
    (h : wfJson (.obj (kv :: rest)) = true) : wfJson (.obj rest) = true := by
  rw [wfJson] at h ⊢
  simp only [List.map_cons, distinctKeysB, wfJsonPairs, List.all_cons, Bool.and_eq_true] at h
  simp only [Bool.and_eq_true]
  exact ⟨⟨h.1.1.2, h.1.2.2⟩, h.2.2⟩

theorem enumFrom_le_fst {α : Type} :
    ∀ {l : List α} {n : Nat} {j : Nat} {x : α}, (j, x) ∈ l.enumFrom n → n ≤ j := by
  intro l
  induction l with
  | nil => intro n j x h; simp [List.enumFrom] at h
  | cons a rest ih =>
    intro n j x h
    rw [List.enumFrom] at h
    rcases List.mem_cons.mp h with h' | h'
    · injection h' with h1 _
      omega
    · have := ih h'
      omega

theorem filter_none_of_char {d : List ChangeRecord} {T : String}
    (h : ∀ r ∈ d, r.path ≠ T) : d.filter (fun r => r.path == T) = [] := by
  rw [List.filter_eq_nil_iff]
  intro r hr
  simp
  exact h r hr

/-- No coercion position of a well-formed schema renders to the path of
a pruned-at key: chasing the segments leads into the key's governing
node, where the key is undeclared and no array rule applies. -/
theorem CPos_chase :
    ∀ {P : List String} {v : Json} {s : SchemaNode} {w : Json} {sO : SchemaNode},
      PReach v s P w sO → wfSchema s = true →
      ∀ {k : String},
        hasProp (sO.properties.getD []) k = false →
        (sO.type = some (.single "object") ∨ sO.properties.isSome = true) →
        CPos s (P ++ [k]) → False := by
  intro P v s w sO hre
  induction hre with
  | refl v s =>
    intro hwf k hkn hgate hcp
    rcases hcp with _ | ⟨hct, hsl, _⟩ | ⟨hct, hit, _⟩
    · exact absurd (slookup_some_hasProp hsl) (by rw [hkn]; simp)
    · rcases hgate with hty | hps
      · rw [hty] at hct
        simp [SchemaType.toList] at hct
      · exact wfSchema_not_both hwf ⟨hps, by rw [hit]; rfl⟩
  | key hj hsl hrest ih =>
    intro hwf k hkn hgate hcp
    rw [List.cons_append] at hcp
    rcases hcp with _ | ⟨hct, hsl2, hcp'⟩ | ⟨hct, hit, hcp'⟩
    · have hsub : _ = _ := hsl.symm.trans hsl2
      injection hsub with hsub
      rw [← hsub] at hcp'
      exact ih (wfSchema_slookup hwf hsl) hkn hgate hcp'
    · exact wfSchema_not_both hwf ⟨slookup_isSome_props hsl, by rw [hit]; rfl⟩
  | idx hget hit hrest ih =>
    intro hwf k hkn hgate hcp
    rw [List.cons_append] at hcp
    generalize natToString _ = seg at hcp
    rcases hcp with _ | ⟨hct, hsl2, hcp'⟩ | ⟨hct, hit2, hcp'⟩
    · exact wfSchema_not_both hwf ⟨slookup_isSome_props hsl2, by rw [hit]; rfl⟩
    · have hsub : _ = _ := hit.symm.trans hit2
      injection hsub with hsub
      rw [← hsub] at hcp'
      exact ih (wfSchema_items hwf hit) hkn hgate hcp'

/-- No defaulting position of a well-formed schema renders to the path
of a pruned-at key. -/
theorem SPos_chase :
    ∀ {P : List String} {v : Json} {s : SchemaNode} {w : Json} {sO : SchemaNode},
      PReach v s P w sO → wfSchema s = true →
      ∀ {k : String},
        hasProp (sO.properties.getD []) k = false →
        (sO.type = some (.single "object") ∨ sO.properties.isSome = true) →
        SPos s (P ++ [k]) → False := by
  intro P v s w sO hre
  induction hre with
  | refl v s =>
    intro hwf k hkn hgate hcp
    rcases hcp with _ | ⟨hsl, _⟩ | ⟨hng, hty, hit, _⟩
    · exact absurd (slookup_some_hasProp hsl) (by rw [hkn]; simp)
    · exact hng hgate
  | key hj hsl hrest ih =>
    intro hwf k hkn hgate hcp
    rw [List.cons_append] at hcp
    rcases hcp with _ | ⟨hsl2, hcp'⟩ | ⟨hng, hty, hit, hcp'⟩
    · have hsub : _ = _ := hsl.symm.trans hsl2
      injection hsub with hsub
      rw [← hsub] at hcp'
      exact ih (wfSchema_slookup hwf hsl) hkn hgate hcp'
    · exact hng (Or.inr (slookup_isSome_props hsl))
  | idx hget hit hrest ih =>
    intro hwf k hkn hgate hcp
    rw [List.cons_append] at hcp
    generalize natToString _ = seg at hcp
    rcases hcp with _ | ⟨hsl2, hcp'⟩ | ⟨hng, hty, hit2, hcp'⟩
    · exact wfSchema_not_both hwf ⟨slookup_isSome_props hsl2, by rw [hit]; rfl⟩
    · have hsub : _ = _ := hit.symm.trans hit2
      injection hsub with hsub
      rw [← hsub] at hcp'
      exact ih (wfSchema_items hwf hit) hkn hgate hcp'

theorem PReach_wf {P : List String} {v : Json} {s : SchemaNode} {w : Json} {sO : SchemaNode}
    (hre : PReach v s P w sO) : wfJson v = true → wfJson w = true := by
  induction hre with
  | refl v s => exact id
  | key hj hsl hrest ih =>
    intro hwf
    exact ih (wfJson_obj_mem hwf (jlookup_mem hj)).1
  | idx hget hit hrest ih =>
    intro hwf
    exact ih (wfJson_arr_mem hwf (List.get?_mem hget))

theorem PReach_slashfree {P : List String} {v : Json} {s : SchemaNode} {w : Json} {sO : SchemaNode}
    (hre : PReach v s P w sO) : wfJson v = true → segsSlashFree P = true := by
  induction hre with
  | refl v s => intro _; rfl
  | key hj hsl hrest ih =>
    intro hwf
    obtain ⟨hwu, hsk⟩ := wfJson_obj_mem hwf (jlookup_mem hj)
    rw [segsSlashFree]
    simp [hsk]
    have := ih hwu
    rw [segsSlashFree] at this
    simpa using this
  | idx hget hit hrest ih =>
    intro hwf
    have hwu := wfJson_arr_mem hwf (List.get?_mem hget)
    rw [segsSlashFree]
    simp [natToString_slashFree]
    have := ih hwu
    rw [segsSlashFree] at this
    simpa using this

theorem wfJson_obj_head_notin {kv : String × Json} {rest : List (String × Json)}
    (h : wfJson (.obj (kv :: rest)) = true) : (rest.map Prod.fst).contains kv.1 = false := by
  rw [wfJson] at h
  simp only [List.map_cons, distinctKeysB, Bool.and_eq_true] at h
  have := h.1.1.1
  simp only [Bool.not_eq_true'] at this
  exact this

theorem keyPathsPairs_head_mem {kvs : List (String × Json)} {q : List String}
    (hq : q ∈ keyPathsPairs kvs) :
    ∃ k' rest', q = k' :: rest' ∧ k' ∈ kvs.map Prod.fst := by
  obtain ⟨k', w, hm, hcase⟩ := keyPathsPairs_elim hq
  rcases hcase with h1 | ⟨q', _, h2⟩
  · exact ⟨k', [], h1, List.mem_map_of_mem Prod.fst hm⟩
  · exact ⟨k', q', h2, List.mem_map_of_mem Prod.fst hm⟩

/-- At the disallowed key's own object, the per-key fold leaves exactly
the one `removed` record at the key's rendered path. -/
theorem prune_fold_filter_here
    {recur : Json → SchemaNode → List String → Option (Json × List ChangeRecord)}
    {rx : RegexModel} {s : SchemaNode} {path : List String}
    (hrecchar : ∀ u sub p' out', recur u sub p' = some out' →
      ∀ r ∈ out'.2, ∃ q, q ∈ keyPaths u ∧ r.path = renderPath (p' ++ q))
    {k : String} {vk : Json}
    (haddl : s.addl = some false)
    (hkn : hasProp (s.properties.getD []) k = false)
    (hpat : s.patternProps = none ∨
      ∃ pats, s.patternProps = some pats ∧ someRegex rx k (pats.map (fun p => p.1)) = some false)
    (hksf : slashFree k = true) :
    ∀ (kvs : List (String × Json)) (out : List (String × Json) × List ChangeRecord × List ChangeRecord),
      wfJson (.obj kvs) = true →
      jlookup kvs k = some vk →
      kvs.foldr (pruneStep recur rx s path) (some ([], [], [])) = some out →
      (out.2.1 ++ out.2.2).filter (fun r => r.path == renderPath (path ++ [k])) =
        [ChangeRecord.mk (renderPath (path ++ [k])) "removed" (some vk) none
          "Property not allowed by schema (additionalProperties: false)"] := by
  intro kvs
  induction kvs with
  | nil => intro out _ hjl _; simp [jlookup] at hjl
  | cons kv rest ih =>
    intro out hwf hjl h
    obtain ⟨k0, v0⟩ := kv
    have hmemhead : ((k0, v0) : String × Json) ∈ (k0, v0) :: rest := List.mem_cons_self _ _
    have hwv0 : wfJson v0 = true := (wfJson_obj_mem hwf hmemhead).1
    have hk0sf : slashFree k0 = true := (wfJson_obj_mem hwf hmemhead).2
    rw [List.foldr_cons] at h
    rcases hacc : rest.foldr (pruneStep recur rx s path) (some ([], [], [])) with _ | ⟨rk, rrec, rrem⟩
    · rw [hacc] at h; simp [pruneStep] at h
    · rw [hacc] at h
      by_cases hke : k0 = k
      · subst hke
        have hvk : v0 = vk := by
          simp [jlookup] at hjl
          exact hjl
        subst hvk
        have hni := wfJson_obj_head_notin hwf
        have hrestnone : ∀ r, (r ∈ rrec ∨ r ∈ rrem) →
            (r.path == renderPath (path ++ [k0])) = false := by
          intro r hr
          obtain ⟨q, hq, hpath⟩ := prune_fold_rec_paths hrecchar rest (rk, rrec, rrem) hacc r hr
          obtain ⟨k2, rest2, hq2, hmem2⟩ := keyPathsPairs_head_mem hq
          simp only [beq_eq_false_iff_ne, ne_eq]
          rw [hpath]
          intro hcontra
          have hqsf : segsSlashFree q = true :=
            keyPaths_slashFree q (.obj rest) (wfJson_obj_tail hwf) hq
          have := renderPath_append_inj hqsf (by simp [segsSlashFree, hksf]) hcontra
          rw [hq2] at this
          injection this with h1 _
          rw [h1] at hmem2
          simp at hni
          obtain ⟨x, hx⟩ := by simpa using hmem2
          exact hni x hx
        rw [pruneStep_removes haddl hkn hpat] at h
        have hout : out = (rk, rrec,
            ChangeRecord.mk (renderPath (path ++ [k0])) "removed" (some v0) none
              "Property not allowed by schema (additionalProperties: false)" :: rrem) := by
          injection h with h2
          exact h2.symm
        rw [hout]
        dsimp only
        rw [List.filter_append]
        have h1 : rrec.filter (fun r => r.path == renderPath (path ++ [k0])) = [] := by
          rw [List.filter_eq_nil_iff]
          intro r hr
          simp only [Bool.not_eq_true]
          exact hrestnone r (Or.inl hr)
        have h2 : rrem.filter (fun r => r.path == renderPath (path ++ [k0])) = [] := by
          rw [List.filter_eq_nil_iff]
          intro r hr
          simp only [Bool.not_eq_true]
          exact hrestnone r (Or.inr hr)
        rw [h1, List.filter_cons]
        simp only [beq_self_eq_true, if_true]
        rw [h2]
        rfl
      · have hjl2 : jlookup rest k = some vk := by
          simpa [jlookup, hke] using hjl
        have hheadnone : ∀ (d : List ChangeRecord),
            (∀ r ∈ d, ∃ q', q' ∈ keyPaths v0 ∧ r.path = renderPath ((path ++ [k0]) ++ q')) →
            d.filter (fun r => r.path == renderPath (path ++ [k])) = [] := by
          intro d hd
          rw [List.filter_eq_nil_iff]
          intro r hr
          obtain ⟨q', hq', hpath⟩ := hd r hr
          simp only [Bool.not_eq_true, beq_eq_false_iff_ne, ne_eq]
          rw [hpath]
          intro hcontra
          have hq'sf : segsSlashFree q' = true := keyPaths_slashFree q' v0 hwv0 hq'
          have heq2 : renderPath (path ++ (k0 :: q')) = renderPath (path ++ [k]) := by
            rw [← hcontra]
            exact congrArg renderPath (by simp)
          have := renderPath_append_inj
            (by rw [segsSlashFree]; simp [hk0sf]; rw [segsSlashFree] at hq'sf; simpa using hq'sf)
            (by simp [segsSlashFree, hksf]) heq2
          injection this with h1 _
          exact hke h1
        rcases pruneStep_cases h with ⟨haddl2, hkn2, hout⟩ | ⟨sub, v', d, hsl, hr, hout⟩ | ⟨hsl, hout⟩
        · rw [hout]
          dsimp only
          rw [List.filter_append, List.filter_cons]
          have hrecne : ((ChangeRecord.mk (renderPath (path ++ [k0])) "removed" (some v0) none
              "Property not allowed by schema (additionalProperties: false)").path ==
                renderPath (path ++ [k])) = false := by
            simp only [beq_eq_false_iff_ne, ne_eq]
            intro hcontra
            have := renderPath_append_inj (by simp [segsSlashFree, hk0sf])
              (by simp [segsSlashFree, hksf]) hcontra
            injection this with h1 _
            exact hke h1
          rw [hrecne]
          simp only [Bool.false_eq_true, if_false]
          have := ih (rk, rrec, rrem) (wfJson_obj_tail hwf) hjl2 hacc
          dsimp only at this
          rw [List.filter_append] at this
          exact this
        · rw [hout]
          dsimp only
          rw [List.filter_append, List.filter_append]
          have hd : d.filter (fun r => r.path == renderPath (path ++ [k])) = [] :=
            hheadnone d (fun r2 hr2 => hrecchar v0 sub (path ++ [k0]) (v', d) hr r2 hr2)
          rw [hd]
          have := ih (rk, rrec, rrem) (wfJson_obj_tail hwf) hjl2 hacc
          dsimp only at this
          rw [List.filter_append] at this
          simpa using this
        · rw [hout]
          dsimp only
          have := ih (rk, rrec, rrem) (wfJson_obj_tail hwf) hjl2 hacc
          dsimp only at this
          exact this

/-- Descending through a declared key: the fold's records filtered at a
deeper target reduce to the declared key's recursion delta. -/
theorem prune_fold_filter_descend
    {recur : Json → SchemaNode → List String → Option (Json × List ChangeRecord)}
    {rx : RegexModel} {s : SchemaNode} {path : List String}
    (hrecchar : ∀ u sub p' out', recur u sub p' = some out' →
      ∀ r ∈ out'.2, ∃ q, q ∈ keyPaths u ∧ r.path = renderPath (p' ++ q))
    {k0 : String} {sub : SchemaNode} {tail : List String}
    (hsl : slookup (s.properties.getD []) k0 = some sub)
    (htailsf : segsSlashFree tail = true) :
    ∀ (kvs : List (String × Json)) (out : List (String × Json) × List ChangeRecord × List ChangeRecord)
      (u : Json),
      wfJson (.obj kvs) = true →
      jlookup kvs k0 = some u →
      kvs.foldr (pruneStep recur rx s path) (some ([], [], [])) = some out →
      ∃ u' dU, recur u sub (path ++ [k0]) = some (u', dU) ∧
        (out.2.1 ++ out.2.2).filter (fun r => r.path == renderPath (path ++ (k0 :: tail))) =
          dU.filter (fun r => r.path == renderPath (path ++ (k0 :: tail))) := by
  intro kvs
  induction kvs with
  | nil => intro out u _ hjl _; simp [jlookup] at hjl
  | cons kv rest ih =>
    intro out u hwf hjl h
    obtain ⟨k1, v1⟩ := kv
    have hmemhead : ((k1, v1) : String × Json) ∈ (k1, v1) :: rest := List.mem_cons_self _ _
    have hwv1 : wfJson v1 = true := (wfJson_obj_mem hwf hmemhead).1
    have hk1sf : slashFree k1 = true := (wfJson_obj_mem hwf hmemhead).2
    rw [List.foldr_cons] at h
    rcases hacc : rest.foldr (pruneStep recur rx s path) (some ([], [], [])) with _ | ⟨rk, rrec, rrem⟩
    · rw [hacc] at h; simp [pruneStep] at h
    · rw [hacc] at h
      by_cases hke : k1 = k0
      · subst hke
        have hu : v1 = u := by
          simp [jlookup] at hjl
          exact hjl
        subst hu
        have hni := wfJson_obj_head_notin hwf
        have hrestnone : ∀ r, (r ∈ rrec ∨ r ∈ rrem) →
            (r.path == renderPath (path ++ (k1 :: tail))) = false := by
          intro r hr
          obtain ⟨q, hq, hpath⟩ := prune_fold_rec_paths hrecchar rest (rk, rrec, rrem) hacc r hr
          obtain ⟨k2, rest2, hq2, hmem2⟩ := keyPathsPairs_head_mem hq
          simp only [beq_eq_false_iff_ne, ne_eq]
          rw [hpath]
          intro hcontra
          have hqsf : segsSlashFree q = true :=
            keyPaths_slashFree q (.obj rest) (wfJson_obj_tail hwf) hq
          have htsf : segsSlashFree (k1 :: tail) = true := by
            rw [segsSlashFree]
            simp [hk1sf]
            rw [segsSlashFree] at htailsf
            simpa using htailsf
          have := renderPath_append_inj hqsf htsf hcontra
          rw [hq2] at this
          injection this with h1 _
          rw [h1] at hmem2
          simp at hni
          obtain ⟨x, hx⟩ := by simpa using hmem2
          exact hni x hx
        rcases pruneStep_cases h with ⟨haddl2, hkn2, hout⟩ | ⟨sub2, v', d, hsl2, hr, hout⟩ | ⟨hsl2, hout⟩
        · rw [slookup_some_hasProp hsl] at hkn2
          exact absurd hkn2 (by simp)
        · have hsub2 : sub2 = sub := by
            have := hsl2.symm.trans hsl
            injection this
          subst hsub2
          refine ⟨v', d, hr, ?_⟩
          rw [hout]
          dsimp only
          rw [List.filter_append, List.filter_append]
          have h1 : rrec.filter (fun r => r.path == renderPath (path ++ (k1 :: tail))) = [] := by
            rw [List.filter_eq_nil_iff]
            intro r hr
            simp only [Bool.not_eq_true]
            exact hrestnone r (Or.inl hr)
          have h2 : rrem.filter (fun r => r.path == renderPath (path ++ (k1 :: tail))) = [] := by
            rw [List.filter_eq_nil_iff]
            intro r hr
            simp only [Bool.not_eq_true]
            exact hrestnone r (Or.inr hr)
          rw [h1, h2]
          simp
        · rw [hsl2] at hsl
          exact Option.noConfusion hsl
      · have hjl2 : jlookup rest k0 = some u := by
          simpa [jlookup, hke] using hjl
        have hheadne : ∀ (T : List String), T = [k1] ∨ (∃ q', q' ∈ keyPaths v1 ∧ T = k1 :: q') →
            True := fun _ _ => trivial
        have hheadnone : ∀ (d : List ChangeRecord),
            (∀ r ∈ d, ∃ q', q' ∈ keyPaths v1 ∧ r.path = renderPath ((path ++ [k1]) ++ q')) →
            d.filter (fun r => r.path == renderPath (path ++ (k0 :: tail))) = [] := by
          intro d hd
          rw [List.filter_eq_nil_iff]
          intro r hr
          obtain ⟨q', hq', hpath⟩ := hd r hr
          simp only [Bool.not_eq_true, beq_eq_false_iff_ne, ne_eq]
          rw [hpath]
          intro hcontra
          have hq'sf : segsSlashFree q' = true := keyPaths_slashFree q' v1 hwv1 hq'
          have heq2 : renderPath (path ++ (k1 :: q')) = renderPath (path ++ (k0 :: tail)) := by
            rw [← hcontra]
            exact congrArg renderPath (by simp)
          have hk0sf : segsSlashFree (k0 :: tail) = true := by
            -- k0 slash-free is not directly available; derive from hjl2 membership
            have hk0m := (wfJson_obj_mem (wfJson_obj_tail hwf) (jlookup_mem hjl2)).2
            rw [segsSlashFree]
            simp [hk0m]
            rw [segsSlashFree] at htailsf
            simpa using htailsf
          have := renderPath_append_inj
            (by rw [segsSlashFree]; simp [hk1sf]; rw [segsSlashFree] at hq'sf; simpa using hq'sf)
            hk0sf heq2
          injection this with h1 _
          exact hke h1
        rcases pruneStep_cases h with ⟨haddl2, hkn2, hout⟩ | ⟨sub2, v', d, hsl2, hr, hout⟩ | ⟨hsl2, hout⟩
        · obtain ⟨u', dU, hrU, hfil⟩ := ih (rk, rrec, rrem) u (wfJson_obj_tail hwf) hjl2 hacc
          refine ⟨u', dU, hrU, ?_⟩
          rw [hout]
          dsimp only
          rw [List.filter_append, List.filter_cons]
          have hrecne : ((ChangeRecord.mk (renderPath (path ++ [k1])) "removed" (some v1) none
              "Property not allowed by schema (additionalProperties: false)").path ==
                renderPath (path ++ (k0 :: tail))) = false := by
            simp only [beq_eq_false_iff_ne, ne_eq]
            intro hcontra
            have hk0m := (wfJson_obj_mem (wfJson_obj_tail hwf) (jlookup_mem hjl2)).2
            have := renderPath_append_inj (by simp [segsSlashFree, hk1sf])
              (by rw [segsSlashFree]; simp [hk0m]; rw [segsSlashFree] at htailsf; simpa using htailsf)
              hcontra
            injection this with h1 _
            exact hke h1
          rw [hrecne]
          simp only [Bool.false_eq_true, if_false]
          dsimp only at hfil
          rw [List.filter_append] at hfil
          exact hfil
        · obtain ⟨u', dU, hrU, hfil⟩ := ih (rk, rrec, rrem) u (wfJson_obj_tail hwf) hjl2 hacc
          refine ⟨u', dU, hrU, ?_⟩
          rw [hout]
          dsimp only
          rw [List.filter_append, List.filter_append]
          have hd : d.filter (fun r => r.path == renderPath (path ++ (k0 :: tail))) = [] :=
            hheadnone d (fun r2 hr2 => hrecchar v1 sub2 (path ++ [k1]) (v', d) hr r2 hr2)
          rw [hd]
          dsimp only at hfil
          rw [List.filter_append] at hfil
          simpa using hfil
        · obtain ⟨u', dU, hrU, hfil⟩ := ih (rk, rrec, rrem) u (wfJson_obj_tail hwf) hjl2 hacc
          refine ⟨u', dU, hrU, ?_⟩
          rw [hout]
          dsimp only
          dsimp only at hfil
          exact hfil

/-- Descending through an array element: the element fold's records
filtered at a deeper target reduce to that element's recursion delta. -/
theorem prune_arrfold_filter_descend
    {recur : Json → SchemaNode → List String → Option (Json × List ChangeRecord)}
    {itemSchema : SchemaNode} {path : List String}
    (hrecchar : ∀ u p' out', recur u itemSchema p' = some out' →
      ∀ r ∈ out'.2, ∃ q, q ∈ keyPaths u ∧ r.path = renderPath (p' ++ q)) {tail : List String}
    (htailsf2 : segsSlashFree tail = true) :
    ∀ (xs : List Json) (i n : Nat) (u : Json) (vals : List Json) (delta : List ChangeRecord),
      wfJson (.arr xs) = true →
      xs.get? i = some u →
      (xs.enumFrom n).foldr (pruneArrStep recur itemSchema path) (some ([], [])) = some (vals, delta) →
      ∃ u' dU, recur u itemSchema (path ++ [natToString (n + i)]) = some (u', dU) ∧
        delta.filter (fun r => r.path == renderPath (path ++ (natToString (n + i) :: tail))) =
          dU.filter (fun r => r.path == renderPath (path ++ (natToString (n + i) :: tail))) := by
  intro xs
  induction xs with
  | nil => intro i n u vals delta _ hget _; simp at hget
  | cons x rest ih =>
    intro i n u vals delta hwf hget h
    have hwx : wfJson x = true := wfJson_arr_mem hwf (by simp)
    have hwrest : wfJson (.arr rest) = true := by
      rw [wfJson] at hwf ⊢
      rw [wfJsonElems] at hwf
      simp only [Bool.and_eq_true] at hwf
      exact hwf.2
    rw [List.enumFrom, List.foldr_cons] at h
    rcases hacc : (rest.enumFrom (n + 1)).foldr (pruneArrStep recur itemSchema path) (some ([], []))
      with _ | ⟨rv, rd⟩
    · rw [hacc] at h; simp [pruneArrStep] at h
    · rw [hacc] at h
      obtain ⟨v', d, hr, hout⟩ := pruneArrStep_cases h
      injection hout with h1 h2
      cases i with
      | zero =>
        have hu : x = u := by simpa using hget
        subst hu
        refine ⟨v', d, by simpa using hr, ?_⟩
        rw [h2, List.filter_append]
        have hrdnone : rd.filter
            (fun r => r.path == renderPath (path ++ (natToString (n + 0) :: tail))) = [] := by
          rw [List.filter_eq_nil_iff]
          intro r hrm
          obtain ⟨q, hq, hpath⟩ := prune_arrfold_rec_paths hrecchar rest (n + 1) rv rd hacc r hrm
          obtain ⟨j2, w2, q2, hm2, hq2, hpeq⟩ := keyPathsElems_elim hq
          simp only [Bool.not_eq_true, beq_eq_false_iff_ne, ne_eq]
          rw [hpath]
          intro hcontra
          have hqsf : segsSlashFree q = true := by
            rw [hpeq, segsSlashFree]
            simp [natToString_slashFree]
            have hw2 : wfJson w2 = true := wfJson_arr_mem hwrest (by
              have := List.mem_map_of_mem Prod.snd hm2
              rwa [enumFrom_map_snd'] at this)
            have := keyPaths_slashFree q2 w2 hw2 hq2
            rw [segsSlashFree] at this
            simpa using this
          have htsf : segsSlashFree (natToString (n + 0) :: tail) = true := by
            rw [segsSlashFree]
            simp [natToString_slashFree]
            rw [segsSlashFree] at htailsf2
            simpa using htailsf2
          have := renderPath_append_inj hqsf htsf hcontra
          rw [hpeq] at this
          injection this with hj _
          have hj2 := natToString_inj hj
          have := enumFrom_le_fst hm2
          omega
        rw [hrdnone]
        simp
      | succ i0 =>
        have hget2 : rest.get? i0 = some u := by simpa using hget
        obtain ⟨u', dU, hrU, hfil⟩ := ih i0 (n + 1) u rv rd hwrest hget2 hacc
        have hidx : n + 1 + i0 = n + (i0 + 1) := by omega
        rw [hidx] at hrU hfil
        refine ⟨u', dU, hrU, ?_⟩
        rw [h2, List.filter_append]
        have hdnone : d.filter
            (fun r => r.path == renderPath (path ++ (natToString (n + (i0 + 1)) :: tail))) = [] := by
          rw [List.filter_eq_nil_iff]
          intro r hrm
          obtain ⟨q', hq', hpath⟩ := hrecchar x (path ++ [natToString (n, x).1]) (v', d) hr r hrm
          simp only [Bool.not_eq_true, beq_eq_false_iff_ne, ne_eq]
          rw [hpath]
          intro hcontra
          have heq2 : renderPath (path ++ (natToString n :: q')) =
              renderPath (path ++ (natToString (n + (i0 + 1)) :: tail)) := by
            rw [← hcontra]
            exact congrArg renderPath (by simp)
          have hq'sf : segsSlashFree q' = true := keyPaths_slashFree q' x hwx hq'
          have := renderPath_append_inj
            (by rw [segsSlashFree]; simp [natToString_slashFree];
                rw [segsSlashFree] at hq'sf; simpa using hq'sf)
            (by rw [segsSlashFree]; simp [natToString_slashFree];
                rw [segsSlashFree] at htailsf2; simpa using htailsf2)
            heq2
          injection this with hj _
          have := natToString_inj hj
          omega
        rw [hdnone]
        simp
        exact hfil

/-- The pruner's ledger, filtered at the rendered path of a disallowed,
unmatched key reached through declared segments, is exactly the one
`removed` record for that key. -/
theorem prune_filter_target {P : List String} {v : Json} {s : SchemaNode}
    {w : Json} {sO : SchemaNode}
    (hre : PReach v s P w sO) :
    ∀ (kvsO : List (String × Json)), w = .obj kvsO →
    ∀ (fuel : Nat) (rx : RegexModel) (path : List String) (out : Json × List ChangeRecord),
      wfJson v = true →
      removeAdditionalProperties fuel rx v s path = some out →
      P.length < fuel →
      ∀ (k : String) (vk : Json),
        (sO.type = some (.single "object") ∨ sO.properties.isSome = true) →
        sO.addl = some false →
        hasProp (sO.properties.getD []) k = false →
        (sO.patternProps = none ∨
          ∃ pats, sO.patternProps = some pats ∧ someRegex rx k (pats.map (fun p => p.1)) = some false) →
        jlookup kvsO k = some vk →
        slashFree k = true →
        out.2.filter (fun r => r.path == renderPath (path ++ (P ++ [k]))) =
          [ChangeRecord.mk (renderPath (path ++ (P ++ [k]))) "removed" (some vk) none
            "Property not allowed by schema (additionalProperties: false)"] := by
  induction hre with
  | refl v s =>
    intro kvsO hw fuel rx path out hwf h hlen k vk hgate haddl hkn hpat hjl hksf
    subst hw
    cases fuel with
    | zero => omega
    | succ f =>
      rw [removeAdditionalProperties.eq_def] at h
      dsimp only at h
      rw [if_pos hgate] at h
      rcases hproc : (kvsO.foldr
          (pruneStep (fun v sub p => removeAdditionalProperties f rx v sub p) rx s path)
          (some ([], [], []))) with _ | ⟨kvs', recD, remD⟩
      · simp only [hproc] at h; exact Option.noConfusion h
      · simp only [hproc] at h
        simp at h
        have hfil := prune_fold_filter_here
          (fun u sub p' out' hu r' hr' => prune_rec_paths f rx u sub p' out' hu r' hr')
          haddl hkn hpat hksf kvsO (kvs', recD, remD) hwf hjl hproc
        dsimp only at hfil
        rw [← h]
        dsimp only
        exact hfil
  | @key kvs s1 k0 u sub rest w2 s2 hj hsl hrest ih =>
    intro kvsO hw fuel rx path out hwf h hlen k vk hgate haddl hkn hpat hjl hksf
    cases fuel with
    | zero => omega
    | succ f =>
      rw [removeAdditionalProperties.eq_def] at h
      dsimp only at h
      rw [if_pos (Or.inr (slookup_isSome_props hsl))] at h
      rcases hproc : (kvs.foldr
          (pruneStep (fun v sub p => removeAdditionalProperties f rx v sub p) rx s1 path)
          (some ([], [], []))) with _ | ⟨kvs', recD, remD⟩
      · simp only [hproc] at h; exact Option.noConfusion h
      · simp only [hproc] at h
        simp at h
        have hwu : wfJson u = true := (wfJson_obj_mem hwf (jlookup_mem hj)).1
        have htailsf : segsSlashFree (rest ++ [k]) = true := by
          rw [segsSlashFree, List.all_append]
          simp only [Bool.and_eq_true]
          constructor
          · have := PReach_slashfree hrest hwu
            rw [segsSlashFree] at this
            exact this
          · simp [hksf]
        obtain ⟨u', dU, hrU, hfil⟩ := prune_fold_filter_descend
          (fun u2 sub2 p' out' hu r' hr' => prune_rec_paths f rx u2 sub2 p' out' hu r' hr')
          hsl htailsf kvs (kvs', recD, remD) u hwf hj hproc
        have hih := ih kvsO hw f rx (path ++ [k0]) (u', dU) hwu hrU (by simp at hlen ⊢; omega)
          k vk hgate haddl hkn hpat hjl hksf
        have hpe : renderPath ((path ++ [k0]) ++ (rest ++ [k])) =
            renderPath (path ++ (k0 :: (rest ++ [k]))) :=
          congrArg renderPath (by simp)
        rw [← h]
        dsimp only
        rw [hpe] at hih
        have hfin : (recD ++ remD).filter
            (fun r => r.path == renderPath (path ++ (k0 :: (rest ++ [k])))) =
            [ChangeRecord.mk (renderPath (path ++ (k0 :: (rest ++ [k])))) "removed" (some vk) none
              "Property not allowed by schema (additionalProperties: false)"] := by
          dsimp only at hfil
          rw [hfil]
          exact hih
        have hlist : (k0 :: rest) ++ [k] = k0 :: (rest ++ [k]) := by simp
        rw [hlist]
        exact hfin
  | @idx xs s1 j u sub rest w2 s2 hget hit hrest ih =>
    intro kvsO hw fuel rx path out hwf h hlen k vk hgate haddl hkn hpat hjl hksf
    cases fuel with
    | zero => omega
    | succ f =>
      rw [removeAdditionalProperties.eq_def] at h
      dsimp only at h
      simp only [hit] at h
      rcases hproc : (xs.enum.foldr
          (pruneArrStep (fun v sub p => removeAdditionalProperties f rx v sub p) sub path)
          (some ([], []))) with _ | ⟨vals, delta⟩
      · simp only [hproc] at h; exact Option.noConfusion h
      · simp only [hproc] at h
        simp at h
        have hwu : wfJson u = true := wfJson_arr_mem hwf (List.get?_mem hget)
        have htailsf : segsSlashFree (rest ++ [k]) = true := by
          rw [segsSlashFree, List.all_append]
          simp only [Bool.and_eq_true]
          constructor
          · have := PReach_slashfree hrest hwu
            rw [segsSlashFree] at this
            exact this
          · simp [hksf]
        obtain ⟨u', dU, hrU, hfil⟩ := prune_arrfold_filter_descend
          (fun u2 p' out' hu r' hr' => prune_rec_paths f rx u2 sub p' out' hu r' hr')
          htailsf xs j 0 u vals delta hwf hget hproc
        simp only [Nat.zero_add] at hrU hfil
        have hih := ih kvsO hw f rx (path ++ [natToString j]) (u', dU) hwu hrU
          (by simp at hlen ⊢; omega) k vk hgate haddl hkn hpat hjl hksf
        have hpe : renderPath ((path ++ [natToString j]) ++ (rest ++ [k])) =
            renderPath (path ++ (natToString j :: (rest ++ [k]))) :=
          congrArg renderPath (by simp)
        rw [← h]
        dsimp only
        rw [hpe] at hih
        have hlist : (natToString j :: rest) ++ [k] = natToString j :: (rest ++ [k]) := by simp
        rw [hlist, hfil]
        exact hih

/-- Counterexample to C8: path strings are built as `path + "/" + key`
with no escaping, so the disallowed key `"a/b"` (removed at `/a/b`) and
the declared nested key `a.b` (coerced at `/a/b`) collide: two records,
one of them `coerced`, share the removed key's path. -/
theorem C8_slash_collision_counterexample :
    repairJson 100 rxNoPatterns (.node c8Schema)
        (.obj [("a/b", .str "x"), ("a", .obj [("b", .str "30")])]) =
      .ok (.obj [("a", .obj [("b", .num ⟨30, 0⟩)])])
        [ChangeRecord.mk "/a/b" "removed" (some (.str "x")) none
          "Property not allowed by schema (additionalProperties: false)",
         ChangeRecord.mk "/a/b" "coerced" (some (.str "30")) (some (.num ⟨30, 0⟩))
          "Coerced string to integer"]
        none [] ∧
    ([ChangeRecord.mk "/a/b" "removed" (some (Json.str "x")) none
          "Property not allowed by schema (additionalProperties: false)",
      ChangeRecord.mk "/a/b" "coerced" (some (.str "30")) (some (.num ⟨30, 0⟩))
          "Coerced string to integer"].filter (fun r => r.path == "/a/b")).length = 2 := by
  exact ⟨by decide, by decide⟩

/-- C8 (amended): under well-formed values (distinct, slash-free keys)
and schemas (no properties/items mix, distinct slash-free property
names), a key that is disallowed at its governing node — reached
through declared segments with enough fuel — yields exactly one change
record at its rendered path in the whole run, the `removed` one: the
pruner logs it once, and no coercion or defaulting position of the
schema can render to that path. -/
theorem C8_removed_key_single_record :
    ∀ (fuel : Nat) (rx : RegexModel) (s : SchemaNode) (it parsed : Json)
      (v : Json) (ch : List ChangeRecord) (po : Option (List String)) (w : List String)
      (P : List String) (kvsO : List (String × Json)) (sO : SchemaNode) (k : String) (vk : Json),
      wfJson parsed = true →
      wfSchema s = true →
      (parsedInputOf it).1 = some parsed →
      repairJson fuel rx (.node s) it = .ok v ch po w →
      PReach parsed s P (.obj kvsO) sO →
      P.length < fuel →
      (sO.type = some (.single "object") ∨ sO.properties.isSome = true) →
      sO.addl = some false →
      hasProp (sO.properties.getD []) k = false →
      (sO.patternProps = none ∨
        ∃ pats, sO.patternProps = some pats ∧
          someRegex rx k (pats.map (fun p => p.1)) = some false) →
      jlookup kvsO k = some vk →
      ch.filter (fun r => r.path == renderPath (P ++ [k])) =
        [ChangeRecord.mk (renderPath (P ++ [k])) "removed" (some vk) none
          "Property not allowed by schema (additionalProperties: false)"] := by
  intro fuel rx s it parsed v ch po w P kvsO sO k vk
  intro hwfv hwfs hp h hre hlen hgate haddl hkn hpat hjl
  have hksf : slashFree k = true :=
    (wfJson_obj_mem (PReach_wf hre hwfv) (jlookup_mem hjl)).2
  have hPsf : segsSlashFree P = true := PReach_slashfree hre hwfv
  have hPkf : segsSlashFree (P ++ [k]) = true := by
    rw [segsSlashFree, List.all_append]
    simp only [Bool.and_eq_true]
    constructor
    · rw [segsSlashFree] at hPsf; exact hPsf
    · simp [hksf]
  match h1 : parsedInputOf it with
  | (none, perrs) => rw [h1] at hp; simp at hp
  | (some p0, perrs) =>
    rw [h1] at hp
    dsimp only at hp
    injection hp with hp
    subst hp
    match h2 : removeAdditionalProperties fuel rx p0 s [] with
    | none => simp [repairJson, repairPipeline, h1, h2] at h
    | some (v1, d1) =>
      rcases h3 : applyTypeCoercion fuel v1 s [] with ⟨v2, d2⟩
      rcases h4 : applyDefaults fuel v2 s [] with ⟨v3, d3⟩
      by_cases hcomp : ajvCompileOk fuel rx s = false
      · simp [repairJson, repairPipeline, h1, h2, h3, h4, hcomp] at h
      · simp [repairJson, repairPipeline, h1, h2, h3, h4, hcomp] at h
        obtain ⟨_, hch, _⟩ := h
        rw [← hch, List.filter_append, List.filter_append]
        have hfil1 := prune_filter_target hre kvsO rfl fuel rx [] (v1, d1)
          hwfv h2 hlen k vk hgate haddl hkn hpat hjl hksf
        dsimp only at hfil1
        simp only [List.nil_append] at hfil1
        have hfil2 : d2.filter (fun r => r.path == renderPath (P ++ [k])) = [] := by
          rw [List.filter_eq_nil_iff]
          intro r hr
          simp only [Bool.not_eq_true, beq_eq_false_iff_ne, ne_eq]
          obtain ⟨q, hcp, hqsf, hpath⟩ := coerce_rec_paths fuel v1 s [] hwfs r (by rw [h3]; exact hr)
          rw [hpath]
          intro hcontra
          have heq2 : renderPath ([] ++ q) = renderPath ([] ++ (P ++ [k])) := by
            rw [hcontra]
            exact congrArg renderPath (by simp)
          have hq := renderPath_append_inj hqsf hPkf heq2
          rw [hq] at hcp
          exact CPos_chase hre hwfs hkn hgate hcp
        have hfil3 : d3.filter (fun r => r.path == renderPath (P ++ [k])) = [] := by
          rw [List.filter_eq_nil_iff]
          intro r hr
          simp only [Bool.not_eq_true, beq_eq_false_iff_ne, ne_eq]
          obtain ⟨q, hsp, hqsf, hpath⟩ := defaults_rec_paths fuel v2 s [] (v3, d3) hwfs h4 r hr
          rw [hpath]
          intro hcontra
          have heq2 : renderPath ([] ++ q) = renderPath ([] ++ (P ++ [k])) := by
            rw [hcontra]
            exact congrArg renderPath (by simp)
          have hq := renderPath_append_inj hqsf hPkf heq2
          rw [hq] at hsp
          exact SPos_chase hre hwfs hkn hgate hsp
        rw [hfil1, hfil2, hfil3]
        simp

/-- Witness for `C8_removed_key_single_record`: the scenario schema with
the single disallowed key `extra` at the root. -/
theorem C8_removed_key_single_record_witness :
    wfJson (Json.obj [("extra", .str "f")]) = true ∧
    wfSchema c1Schema = true ∧
    [ChangeRecord.mk "/extra" "removed" (some (Json.str "f")) none
        "Property not allowed by schema (additionalProperties: false)",
     ChangeRecord.mk "/active" "defaulted" none (some (.bool true))
        "Applied schema default value"].filter
      (fun r => r.path == renderPath ([] ++ ["extra"])) =
      [ChangeRecord.mk (renderPath ([] ++ ["extra"])) "removed" (some (.str "f")) none
        "Property not allowed by schema (additionalProperties: false)"] :=
  ⟨by decide, by decide,
   C8_removed_key_single_record 3 rxNoPatterns c1Schema
     (.obj [("extra", .str "f")]) (.obj [("extra", .str "f")])
     (.obj [("active", .bool true)])
     [ChangeRecord.mk "/extra" "removed" (some (.str "f")) none
        "Property not allowed by schema (additionalProperties: false)",
      ChangeRecord.mk "/active" "defaulted" none (some (.bool true))
        "Applied schema default value"]
     none [] [] [("extra", .str "f")] c1Schema "extra" (.str "f")
     (by decide) (by decide) rfl (by decide) (PReach.refl _ _) (by decide)
     (by decide) (by decide) (by decide) (Or.inl rfl) (by decide)⟩


theorem isPrefixOf_append_self : ∀ (l t : List Char), l.isPrefixOf (l ++ t) = true := by
  intro l t
  induction l with
  | nil => simp [List.isPrefixOf]
  | cons c cs ih => simp [List.isPrefixOf, ih]

theorem pathBelow_render (A B : List String) :
    pathBelow (renderPath A) (renderPath (A ++ B)) = true := by
  rw [pathBelow, renderPath_data, renderPath_data, pathChars_append]
  exact isPrefixOf_append_self _ _

theorem touches_render (A B : List String) :
    pathTouches (renderPath A) (renderPath (A ++ B)) = true := by
  rw [pathTouches, pathBelow_render]
  rfl

theorem touches_root (segs : List String) :
    pathTouches (renderPath segs) "/" = true := by
  cases segs with
  | nil =>
    rw [pathTouches, pathBelow]
    have : (renderPath []).data = [] := by rw [renderPath_data]; rfl
    rw [this]
    rfl
  | cons s rest =>
    rw [pathTouches, pathBelow, pathBelow, renderPath_data]
    rw [pathChars]
    simp [List.isPrefixOf]

theorem renderPath_cons_ne_empty (s : String) (rest : List String) :
    renderPath (s :: rest) ≠ "" := by
  intro h
  have h2 : (renderPath (s :: rest)).data = ("" : String).data := by rw [h]
  rw [renderPath_data, pathChars] at h2
  simp at h2

theorem jlookup_assignKey_ne {kvs : List (String × Json)} {key k : String} {x : Json}
    (hne : k ≠ key) : jlookup (assignKey kvs key x) k = jlookup kvs k := by
  have hne2 : ¬ (key = k) := fun h => hne h.symm
  induction kvs with
  | nil =>
    show jlookup [(key, x)] k = none
    rw [jlookup, if_neg hne2]
    rfl
  | cons kv rest ih =>
    obtain ⟨k0, v0⟩ := kv
    rw [assignKey]
    by_cases hk : k0 = key
    · have hne3 : ¬ (k0 = k) := fun h => hne2 (hk ▸ h)
      rw [if_pos hk, jlookup, jlookup, if_neg hne2, if_neg hne3]
    · rw [if_neg hk, jlookup, jlookup, ih]

theorem assignKey_keys_present {kvs : List (String × Json)} {key : String} {x v0 : Json}
    (h : jlookup kvs key = some v0) :
    (assignKey kvs key x).map Prod.fst = kvs.map Prod.fst := by
  induction kvs with
  | nil => simp [jlookup] at h
  | cons kv rest ih =>
    obtain ⟨k0, w0⟩ := kv
    by_cases hk : k0 = key
    · subst hk
      simp [assignKey]
    · simp [jlookup, hk] at h
      simp [assignKey, hk, ih h]

theorem sameShallow_refl (a : Json) : sameShallow a a = true := by
  cases a <;> simp [sameShallow]


theorem propsOkList_mem {l : List (String × SchemaNode)} {pe : String × SchemaNode}
    (hm : pe ∈ l) (hl : propsOkList l = true) : propsOk pe.2 = true := by
  induction l with
  | nil => simp at hm
  | cons q rest ih =>
    rw [propsOkList, Bool.and_eq_true] at hl
    rcases List.mem_cons.mp hm with h | h
    · rw [h]; exact hl.1
    · exact ih h hl.2

theorem propsOk_patternProps {s : SchemaNode} (h : propsOk s = true) :
    s.patternProps = none := by
  obtain ⟨t, ps, it, req, addl, dflt, pp⟩ := s
  rw [propsOk.eq_def] at h
  dsimp only at h
  simp only [Bool.and_eq_true] at h
  cases pp with
  | none => rfl
  | some l => simp at h

theorem propsOk_slookup {s : SchemaNode} {k : String} {sub : SchemaNode}
    (h : propsOk s = true) (hs : slookup (s.properties.getD []) k = some sub) :
    propsOk sub = true := by
  obtain ⟨t, ps, it, req, addl, dflt, pp⟩ := s
  rw [propsOk.eq_def] at h
  dsimp only at h
  simp only [Bool.and_eq_true] at h
  cases hps : ps with
  | none =>
    rw [hps] at hs
    simp [SchemaNode.properties, slookup] at hs
  | some l =>
    rw [hps] at h hs
    simp only [SchemaNode.properties, Option.getD] at hs
    obtain ⟨⟨_, hmat⟩, _⟩ := h
    rw [Bool.and_eq_true] at hmat
    exact propsOkList_mem (slookup_mem hs) hmat.2

theorem propsOk_items {s : SchemaNode} {sub : SchemaNode}
    (h : propsOk s = true) (hs : s.items = some sub) : propsOk sub = true := by
  obtain ⟨t, ps, it, req, addl, dflt, pp⟩ := s
  rw [propsOk.eq_def] at h
  dsimp only at h
  simp only [Bool.and_eq_true] at h
  simp only [SchemaNode.items] at hs
  rw [hs] at h
  exact h.2

theorem propsOk_type_of_props {s : SchemaNode} {l : List (String × SchemaNode)}
    (h : propsOk s = true) (hps : s.properties = some l) :
    s.type = none ∨ s.type = some (.single "object") := by
  obtain ⟨t, ps, it, req, addl, dflt, pp⟩ := s
  rw [propsOk.eq_def] at h
  dsimp only at h
  simp only [Bool.and_eq_true] at h
  simp only [SchemaNode.properties] at hps
  rw [hps] at h
  obtain ⟨⟨_, hmat⟩, _⟩ := h
  rw [Bool.and_eq_true] at hmat
  have := hmat.1
  simp only [decide_eq_true_eq] at this
  exact this

theorem EChain_propsOk {v : Json} {s : SchemaNode} {q : List String} {u : Json}
    {sub : SchemaNode} (hch : EChain v s q u sub) (h : propsOk s = true) :
    propsOk sub = true := by
  induction hch with
  | nil => exact h
  | key hm hsl hrest ih => exact ih (propsOk_slookup h hsl)
  | idx hm hit hrest ih => exact ih (propsOk_items h hit)

theorem EChain_wfSchema {v : Json} {s : SchemaNode} {q : List String} {u : Json}
    {sub : SchemaNode} (hch : EChain v s q u sub) (h : wfSchema s = true) :
    wfSchema sub = true := by
  induction hch with
  | nil => exact h
  | key hm hsl hrest ih => exact ih (wfSchema_slookup h hsl)
  | idx hm hit hrest ih => exact ih (wfSchema_items h hit)

theorem nodeErrs_mem_cases {rx : RegexModel} {s : SchemaNode} {v : Json} {ps : String}
    {e : VErr} (h : e ∈ nodeErrs rx s v ps) :
    e = VErr.mk "type" ps none ∨
    (∃ r, e = VErr.mk "required" ps (some r)) ∨
    e = VErr.mk "additionalProperties" ps none := by
  cases v
  case obj kvs =>
    rw [nodeErrs.eq_def] at h
    try dsimp only at h
    rcases List.mem_append.mp h with h' | h'
    · left
      split at h'
      · simp at h'
      · split at h'
        · simp at h'
        · simpa using h'
    · rcases List.mem_append.mp h' with h2 | h2
      · right; left
        obtain ⟨r, hrm, hr⟩ := List.mem_filterMap.mp h2
        split at hr
        · simp at hr
        · exact ⟨r, (Option.some_inj.mp hr).symm⟩
      · right; right
        split at h2
        · obtain ⟨kv, hkm, hr⟩ := List.mem_filterMap.mp h2
          split at hr
          · simp at hr
          · exact (Option.some_inj.mp hr).symm
        · simp at h2
  all_goals
    (rw [nodeErrs.eq_def] at h
     try dsimp only at h
     rw [List.append_nil] at h
     refine Or.inl ?_
     split at h
     next => simp at h
     next =>
       split at h
       next => simp at h
       next => simpa using h)

theorem nodeErrs_instPath {rx : RegexModel} {s : SchemaNode} {v : Json} {ps : String}
    {e : VErr} (h : e ∈ nodeErrs rx s v ps) : e.instPath = ps := by
  rcases nodeErrs_mem_cases h with h' | ⟨r, h'⟩ | h' <;> rw [h']

theorem nodeErrs_keyword {rx : RegexModel} {s : SchemaNode} {v : Json} {ps : String}
    {e : VErr} (h : e ∈ nodeErrs rx s v ps) :
    e.keyword = "type" ∨ e.keyword = "required" ∨ e.keyword = "additionalProperties" := by
  rcases nodeErrs_mem_cases h with h' | ⟨r, h'⟩ | h' <;> rw [h']
  · exact Or.inl rfl
  · exact Or.inr (Or.inl rfl)
  · exact Or.inr (Or.inr rfl)

theorem typeMatches_shallow {a b : Json} (h : sameShallow a b = true) (t : String) :
    typeMatches t a = typeMatches t b := by
  cases a <;> cases b <;> simp [sameShallow] at h <;> try rfl
  rename_i qa qb
  have hiff : qa.d = 0 ↔ qb.d = 0 := by
    by_cases h1 : qa.d = 0 <;> by_cases h2 : qb.d = 0 <;>
      simp [h1, h2] at h ⊢
  rw [typeMatches, typeMatches, decide_eq_decide]
  constructor
  · rintro (h1 | ⟨h1, h2⟩)
    · exact Or.inl h1
    · exact Or.inr ⟨h1, hiff.mp h2⟩
  · rintro (h1 | ⟨h1, h2⟩)
    · exact Or.inl h1
    · exact Or.inr ⟨h1, hiff.mpr h2⟩

theorem hasKey_fst (kvs : List (String × Json)) (r : String) :
    hasKey kvs r = (kvs.map Prod.fst).any (fun x => x = r) := by
  induction kvs with
  | nil => rfl
  | cons kv rest ih =>
    rw [hasKey, List.any_cons, List.map_cons, List.any_cons, ← ih]
    rfl

theorem nodeErrs_shallow {rx : RegexModel} {s : SchemaNode} {a b : Json} {ps : String}
    (h : sameShallow a b = true) : nodeErrs rx s a ps = nodeErrs rx s b ps := by
  have htm : (fun t => typeMatches t a) = (fun t => typeMatches t b) :=
    funext (typeMatches_shallow h)
  cases a <;> cases b
  case obj.obj ka kb =>
    simp only [sameShallow] at h
    have hk : List.map Prod.fst ka = List.map Prod.fst kb := by
      first
      | exact h
      | simpa using h
    simp only [nodeErrs.eq_def]
    rw [htm]
    congr 1
    have hhk : ∀ r, hasKey ka r = hasKey kb r := by
      intro r
      rw [hasKey_fst, hasKey_fst, hk]
    have hfn : (fun r => if hasKey ka r then (none : Option VErr)
        else some (VErr.mk "required" ps (some r))) =
        (fun r => if hasKey kb r then none else some (VErr.mk "required" ps (some r))) := by
      funext r
      rw [hhk]
    have e1 : ∀ (kvs : List (String × Json)), kvs.filterMap (fun kv =>
        if hasProp (s.properties.getD []) kv.1
            ∨ (s.patternProps.getD []).any (fun p => rx.test p.1 kv.1) then none
        else some (VErr.mk "additionalProperties" ps none)) =
        (kvs.map Prod.fst).filterMap (fun x =>
        if hasProp (s.properties.getD []) x
            ∨ (s.patternProps.getD []).any (fun p => rx.test p.1 x) then none
        else some (VErr.mk "additionalProperties" ps none)) := by
      intro kvs
      rw [List.filterMap_map]
      rfl
    try dsimp only
    rw [hfn]
    congr 1
    by_cases haddl : s.addl = some false
    · rw [if_pos haddl, if_pos haddl, e1, e1, hk]
    · rw [if_neg haddl, if_neg haddl]
  all_goals first
    | (exfalso; revert h; simp [sameShallow]; done)
    | (simp only [nodeErrs.eq_def]; try rw [htm])

theorem foldr_app2_mem {α β : Type} (g1 g2 : α → List β) :
    ∀ (l : List α) (e : β),
      e ∈ l.foldr (fun x acc => g1 x ++ (g2 x ++ acc)) [] →
      ∃ x ∈ l, e ∈ g1 x ∨ e ∈ g2 x := by
  intro l
  induction l with
  | nil => intro e h; simp at h
  | cons a rest ih =>
    intro e h
    rw [List.foldr_cons] at h
    rcases List.mem_append.mp h with h' | h'
    · exact ⟨a, by simp, Or.inl h'⟩
    · rcases List.mem_append.mp h' with h2 | h2
      · exact ⟨a, by simp, Or.inr h2⟩
      · obtain ⟨x, hx, hm⟩ := ih e h2
        exact ⟨x, List.mem_cons_of_mem _ hx, hm⟩

theorem foldr_app2_mem_intro {α β : Type} (g1 g2 : α → List β) :
    ∀ (l : List α) (x : α) (e : β), x ∈ l → e ∈ g1 x →
      e ∈ l.foldr (fun x acc => g1 x ++ (g2 x ++ acc)) [] := by
  intro l
  induction l with
  | nil => intro x e hx _; simp at hx
  | cons a rest ih =>
    intro x e hx he
    rw [List.foldr_cons]
    rcases List.mem_cons.mp hx with h | h
    · exact List.mem_append.mpr (Or.inl (h ▸ he))
    · exact List.mem_append.mpr (Or.inr (List.mem_append.mpr (Or.inr (ih x e h he))))

theorem foldr_app1_mem {α β : Type} (g : α → List β) :
    ∀ (l : List α) (e : β),
      e ∈ l.foldr (fun x acc => g x ++ acc) [] → ∃ x ∈ l, e ∈ g x := by
  intro l
  induction l with
  | nil => intro e h; simp at h
  | cons a rest ih =>
    intro e h
    rw [List.foldr_cons] at h
    rcases List.mem_append.mp h with h' | h'
    · exact ⟨a, by simp, h'⟩
    · obtain ⟨x, hx, hm⟩ := ih e h'
      exact ⟨x, List.mem_cons_of_mem _ hx, hm⟩

theorem foldr_app1_mem_intro {α β : Type} (g : α → List β) :
    ∀ (l : List α) (x : α) (e : β), x ∈ l → e ∈ g x →
      e ∈ l.foldr (fun x acc => g x ++ acc) [] := by
  intro l
  induction l with
  | nil => intro x e hx _; simp at hx
  | cons a rest ih =>
    intro x e hx he
    rw [List.foldr_cons]
    rcases List.mem_cons.mp hx with h | h
    · exact List.mem_append.mpr (Or.inl (h ▸ he))
    · exact List.mem_append.mpr (Or.inr (ih x e h he))

theorem ajvErrors_zero {rx : RegexModel} {s : SchemaNode} {v : Json} {path : List String} :
    ajvErrors 0 rx s v path = [] := rfl

theorem ajvErrors_obj {fuel : Nat} {rx : RegexModel} {s : SchemaNode}
    {kvs : List (String × Json)} {path : List String} :
    ajvErrors (fuel + 1) rx s (.obj kvs) path =
      nodeErrs rx s (.obj kvs) (renderPath path) ++
      kvs.foldr (ajvRecStep (fun sub w p => ajvErrors fuel rx sub w p) rx s path) [] := rfl

theorem ajvErrors_arr {fuel : Nat} {rx : RegexModel} {s : SchemaNode}
    {xs : List Json} {path : List String} :
    ajvErrors (fuel + 1) rx s (.arr xs) path =
      nodeErrs rx s (.arr xs) (renderPath path) ++
      (match s.items with
       | some isch =>
         xs.enum.foldr (ajvArrStep (fun sub w p => ajvErrors fuel rx sub w p) isch path) []
       | none => []) := rfl

theorem ajvErrors_null {fuel : Nat} {rx : RegexModel} {s : SchemaNode} {path : List String} :
    ajvErrors (fuel + 1) rx s .null path =
      nodeErrs rx s .null (renderPath path) ++ [] := rfl

theorem ajvErrors_bool {fuel : Nat} {rx : RegexModel} {s : SchemaNode} {b : Bool}
    {path : List String} :
    ajvErrors (fuel + 1) rx s (.bool b) path =
      nodeErrs rx s (.bool b) (renderPath path) ++ [] := rfl

theorem ajvErrors_num {fuel : Nat} {rx : RegexModel} {s : SchemaNode} {n : JsNum}
    {path : List String} :
    ajvErrors (fuel + 1) rx s (.num n) path =
      nodeErrs rx s (.num n) (renderPath path) ++ [] := rfl

theorem ajvErrors_str {fuel : Nat} {rx : RegexModel} {s : SchemaNode} {t : String}
    {path : List String} :
    ajvErrors (fuel + 1) rx s (.str t) path =
      nodeErrs rx s (.str t) (renderPath path) ++ [] := rfl

theorem patfold_mem {recur : SchemaNode → Json → List String → List VErr}
    {rx : RegexModel} {k : String} {w : Json} {path : List String} :
    ∀ (pats : List (String × SchemaNode)) (e : VErr),
      e ∈ pats.foldr (fun p acc2 =>
        (if rx.test p.1 k then recur p.2 w (path ++ [k]) else []) ++ acc2) [] →
      ∃ p ∈ pats, rx.test p.1 k = true ∧ e ∈ recur p.2 w (path ++ [k]) := by
  intro pats
  induction pats with
  | nil => intro e h; simp at h
  | cons p rest ih =>
    intro e h
    rw [List.foldr_cons] at h
    rcases List.mem_append.mp h with h' | h'
    · by_cases ht : rx.test p.1 k = true
      · rw [if_pos ht] at h'
        exact ⟨p, by simp, ht, h'⟩
      · rw [if_neg ht] at h'
        simp at h'
    · obtain ⟨p', hp', hrest⟩ := ih e h'
      exact ⟨p', List.mem_cons_of_mem _ hp', hrest⟩

theorem ajvRec_fold_mem {recur : SchemaNode → Json → List String → List VErr}
    {rx : RegexModel} {s : SchemaNode} {path : List String} :
    ∀ (kvs : List (String × Json)) (e : VErr),
      e ∈ kvs.foldr (ajvRecStep recur rx s path) [] →
      ∃ kv ∈ kvs,
        (∃ sub, slookup (s.properties.getD []) kv.1 = some sub ∧
          e ∈ recur sub kv.2 (path ++ [kv.1])) ∨
        (∃ p ∈ s.patternProps.getD [], rx.test p.1 kv.1 = true ∧
          e ∈ recur p.2 kv.2 (path ++ [kv.1])) := by
  intro kvs
  induction kvs with
  | nil => intro e h; simp at h
  | cons kv rest ih =>
    intro e h
    rw [List.foldr_cons, ajvRecStep] at h
    rcases List.mem_append.mp h with h' | h'
    · rcases List.mem_append.mp h' with h2 | h2
      · rcases hsl : slookup (s.properties.getD []) kv.1 with _ | sub
        · simp only [hsl] at h2
          simp at h2
        · simp only [hsl] at h2
          exact ⟨kv, by simp, Or.inl ⟨sub, hsl, h2⟩⟩
      · obtain ⟨p, hp, ht, hm⟩ := patfold_mem (s.patternProps.getD []) e h2
        exact ⟨kv, by simp, Or.inr ⟨p, hp, ht, hm⟩⟩
    · obtain ⟨kv', hkv', hrest⟩ := ih e h'
      exact ⟨kv', List.mem_cons_of_mem _ hkv', hrest⟩

theorem ajvRec_fold_mem_intro {recur : SchemaNode → Json → List String → List VErr}
    {rx : RegexModel} {s : SchemaNode} {path : List String} :
    ∀ (kvs : List (String × Json)) (kv : String × Json) (sub : SchemaNode) (e : VErr),
      kv ∈ kvs → slookup (s.properties.getD []) kv.1 = some sub →
      e ∈ recur sub kv.2 (path ++ [kv.1]) →
      e ∈ kvs.foldr (ajvRecStep recur rx s path) [] := by
  intro kvs
  induction kvs with
  | nil => intro kv sub e hkv _ _; simp at hkv
  | cons kv0 rest ih =>
    intro kv sub e hkv hsl hm
    rw [List.foldr_cons, ajvRecStep]
    rcases List.mem_cons.mp hkv with h | h
    · subst h
      refine List.mem_append.mpr (Or.inl (List.mem_append.mpr (Or.inl ?_)))
      simp only [hsl]
      exact hm
    · exact List.mem_append.mpr (Or.inr (ih kv sub e h hsl hm))

theorem ajvArr_fold_mem {recur : SchemaNode → Json → List String → List VErr}
    {isch : SchemaNode} {path : List String} :
    ∀ (l : List (Nat × Json)) (e : VErr),
      e ∈ l.foldr (ajvArrStep recur isch path) [] →
      ∃ ix ∈ l, e ∈ recur isch ix.2 (path ++ [natToString ix.1]) := by
  intro l
  induction l with
  | nil => intro e h; simp at h
  | cons ix rest ih =>
    intro e h
    rw [List.foldr_cons, ajvArrStep] at h
    rcases List.mem_append.mp h with h' | h'
    · exact ⟨ix, by simp, h'⟩
    · obtain ⟨ix', hix', hm⟩ := ih e h'
      exact ⟨ix', List.mem_cons_of_mem _ hix', hm⟩

theorem ajvArr_fold_mem_intro {recur : SchemaNode → Json → List String → List VErr}
    {isch : SchemaNode} {path : List String} :
    ∀ (l : List (Nat × Json)) (ix : Nat × Json) (e : VErr),
      ix ∈ l → e ∈ recur isch ix.2 (path ++ [natToString ix.1]) →
      e ∈ l.foldr (ajvArrStep recur isch path) [] := by
  intro l
  induction l with
  | nil => intro ix e hix _; simp at hix
  | cons ix0 rest ih =>
    intro ix e hix hm
    rw [List.foldr_cons, ajvArrStep]
    rcases List.mem_cons.mp hix with h | h
    · subst h
      exact List.mem_append.mpr (Or.inl hm)
    · exact List.mem_append.mpr (Or.inr (ih ix e h hm))

theorem ajvErrors_site {rx : RegexModel} :
    ∀ (fuel : Nat) (s : SchemaNode) (v : Json) (path : List String) (e0 : VErr),
      propsOk s = true →
      e0 ∈ ajvErrors fuel rx s v path →
      ∃ q u sub, EChain v s q u sub ∧ q.length + 1 ≤ fuel ∧
        e0 ∈ nodeErrs rx sub u (renderPath (path ++ q)) := by
  intro fuel
  induction fuel with
  | zero =>
    intro s v path e0 _ h
    rw [ajvErrors_zero] at h
    simp at h
  | succ fuel ih =>
    intro s v path e0 hpo h
    cases v with
    | obj kvs =>
      rw [ajvErrors_obj] at h
      rcases List.mem_append.mp h with h' | h'
      · exact ⟨[], .obj kvs, s, EChain.nil _ _, by simp,
          by rw [List.append_nil]; exact h'⟩
      · obtain ⟨kv, hkv, hc⟩ := ajvRec_fold_mem kvs e0 h'
        rcases hc with ⟨sub1, hsl, hm⟩ | ⟨p, hp, hrest⟩
        · obtain ⟨q', u, sub, hch, hlen, hne⟩ :=
            ih sub1 kv.2 (path ++ [kv.1]) e0 (propsOk_slookup hpo hsl) hm
          refine ⟨kv.1 :: q', u, sub, EChain.key (by simpa using hkv) hsl hch, ?_, ?_⟩
          · simp only [List.length_cons]
            omega
          · rw [← List.append_cons] at hne
            exact hne
        · rw [propsOk_patternProps hpo] at hp
          simp at hp
    | arr xs =>
      rw [ajvErrors_arr] at h
      rcases List.mem_append.mp h with h' | h'
      · exact ⟨[], .arr xs, s, EChain.nil _ _, by simp,
          by rw [List.append_nil]; exact h'⟩
      · rcases hit : s.items with _ | isch
        · simp only [hit] at h'
          simp at h'
        · simp only [hit] at h'
          obtain ⟨ix, hix, hm⟩ := ajvArr_fold_mem xs.enum e0 h'
          obtain ⟨q', u, sub, hch, hlen, hne⟩ :=
            ih isch ix.2 (path ++ [natToString ix.1]) e0 (propsOk_items hpo hit) hm
          refine ⟨natToString ix.1 :: q', u, sub,
            EChain.idx (by simpa using hix) hit hch, ?_, ?_⟩
          · simp only [List.length_cons]
            omega
          · rw [← List.append_cons] at hne
            exact hne
    | null =>
      rw [ajvErrors_null, List.append_nil] at h
      exact ⟨[], .null, s, EChain.nil _ _, by simp, by rw [List.append_nil]; exact h⟩
    | bool b =>
      rw [ajvErrors_bool, List.append_nil] at h
      exact ⟨[], .bool b, s, EChain.nil _ _, by simp, by rw [List.append_nil]; exact h⟩
    | num n =>
      rw [ajvErrors_num, List.append_nil] at h
      exact ⟨[], .num n, s, EChain.nil _ _, by simp, by rw [List.append_nil]; exact h⟩
    | str t =>
      rw [ajvErrors_str, List.append_nil] at h
      exact ⟨[], .str t, s, EChain.nil _ _, by simp, by rw [List.append_nil]; exact h⟩

theorem ajvErrors_build {rx : RegexModel} :
    ∀ {q : List String} {v : Json} {s : SchemaNode} {u : Json} {sub : SchemaNode},
      EChain v s q u sub →
      ∀ (fuel : Nat) (path : List String) (e0 : VErr),
        q.length + 1 ≤ fuel →
        e0 ∈ nodeErrs rx sub u (renderPath (path ++ q)) →
        e0 ∈ ajvErrors fuel rx s v path := by
  intro q v s u sub hch
  induction hch with
  | nil v0 s0 =>
    intro fuel path e0 hlen hne
    rcases fuel with _ | fuel
    · simp at hlen
    · rw [List.append_nil] at hne
      cases v0 with
      | obj kvs =>
        rw [ajvErrors_obj]
        exact List.mem_append.mpr (Or.inl hne)
      | arr xs =>
        rw [ajvErrors_arr]
        exact List.mem_append.mpr (Or.inl hne)
      | null =>
        rw [ajvErrors_null]
        exact List.mem_append.mpr (Or.inl hne)
      | bool b =>
        rw [ajvErrors_bool]
        exact List.mem_append.mpr (Or.inl hne)
      | num n =>
        rw [ajvErrors_num]
        exact List.mem_append.mpr (Or.inl hne)
      | str t =>
        rw [ajvErrors_str]
        exact List.mem_append.mpr (Or.inl hne)
  | @key kvs s0 k u1 sub1 rest w out hkv hsl hrest ih =>
    intro fuel path e0 hlen hne
    rcases fuel with _ | fuel
    · simp at hlen
    · rw [ajvErrors_obj]
      refine List.mem_append.mpr (Or.inr ?_)
      refine ajvRec_fold_mem_intro kvs (k, u1) sub1 e0 hkv hsl ?_
      refine ih fuel (path ++ [k]) e0 ?_ ?_
      · simp only [List.length_cons] at hlen
        omega
      · rw [List.append_cons] at hne
        exact hne
  | @idx xs s0 j x isch rest w out hix hit hrest ih =>
    intro fuel path e0 hlen hne
    rcases fuel with _ | fuel
    · simp at hlen
    · rw [ajvErrors_arr]
      refine List.mem_append.mpr (Or.inr ?_)
      simp only [hit]
      refine ajvArr_fold_mem_intro xs.enum (j, x) e0 hix ?_
      refine ih fuel (path ++ [natToString j]) e0 ?_ ?_
      · simp only [List.length_cons] at hlen
        omega
      · rw [List.append_cons] at hne
        exact hne

theorem touches_render_rev (A B : List String) :
    pathTouches (renderPath (A ++ B)) (renderPath A) = true := by
  rw [pathTouches, pathBelow_render]
  simp

theorem prune_fold_track {recur : Json → SchemaNode → List String → Option (Json × List ChangeRecord)}
    {rx : RegexModel} {s : SchemaNode} {path : List String} :
    ∀ (kvs : List (String × Json)) (out : List (String × Json) × List ChangeRecord × List ChangeRecord),
      kvs.foldr (pruneStep recur rx s path) (some ([], [], [])) = some out →
      ∀ k u1, (k, u1) ∈ out.1 →
        ∃ w, (k, w) ∈ kvs ∧
          ((slookup (s.properties.getD []) k = none ∧ u1 = w) ∨
           (∃ sub1 d, slookup (s.properties.getD []) k = some sub1 ∧
             recur w sub1 (path ++ [k]) = some (u1, d) ∧ ∀ r ∈ d, r ∈ out.2.1)) := by
  intro kvs
  induction kvs with
  | nil =>
    intro out h k u1 hm
    simp at h
    rw [← h] at hm
    simp at hm
  | cons kv rest ih =>
    intro out h k u1 hm
    obtain ⟨k0, v0⟩ := kv
    rw [List.foldr_cons] at h
    rcases htl : rest.foldr (pruneStep recur rx s path) (some ([], [], [])) with _ | tl
    · rw [htl] at h
      simp [pruneStep, Option.bind] at h
    · rw [htl] at h
      obtain ⟨rk, rrec, rrem⟩ := tl
      rcases pruneStep_cases h with ⟨_, _, hout⟩ | ⟨sub0, v', d, hsl0, hrec0, hout⟩ | ⟨hsl0, hout⟩
      · subst hout
        obtain ⟨w, hw, hcase⟩ := ih (rk, rrec, rrem) htl k u1 hm
        exact ⟨w, List.mem_cons_of_mem _ hw, hcase⟩
      · subst hout
        rcases List.mem_cons.mp hm with hh | hh
        · rw [Prod.mk.injEq] at hh
          obtain ⟨hk, hu⟩ := hh
          subst hk
          rw [← hu] at hrec0
          refine ⟨v0, List.mem_cons_self _ _, Or.inr ⟨sub0, d, hsl0, hrec0, ?_⟩⟩
          intro r hrd
          exact List.mem_append.mpr (Or.inl hrd)
        · obtain ⟨w, hw, hcase⟩ := ih (rk, rrec, rrem) htl k u1 hh
          refine ⟨w, List.mem_cons_of_mem _ hw, ?_⟩
          rcases hcase with hk | ⟨sub1, d', hsl, hr, hd⟩
          · exact Or.inl hk
          · refine Or.inr ⟨sub1, d', hsl, hr, ?_⟩
            intro r hrd
            exact List.mem_append.mpr (Or.inr (hd r hrd))
      · subst hout
        rcases List.mem_cons.mp hm with hh | hh
        · rw [Prod.mk.injEq] at hh
          obtain ⟨hk, hu⟩ := hh
          subst hk
          exact ⟨v0, List.mem_cons_self _ _, Or.inl ⟨hsl0, hu⟩⟩
        · obtain ⟨w, hw, hcase⟩ := ih (rk, rrec, rrem) htl k u1 hh
          exact ⟨w, List.mem_cons_of_mem _ hw, hcase⟩

theorem prune_arrfold_track {recur : Json → SchemaNode → List String → Option (Json × List ChangeRecord)}
    {itemSchema : SchemaNode} {path : List String} :
    ∀ (xs : List Json) (n : Nat) (out : List Json × List ChangeRecord),
      (xs.enumFrom n).foldr (pruneArrStep recur itemSchema path) (some ([], [])) = some out →
      ∀ i u1, out.1[i]? = some u1 →
        ∃ x d, xs[i]? = some x ∧
          recur x itemSchema (path ++ [natToString (n + i)]) = some (u1, d) ∧
          ∀ r ∈ d, r ∈ out.2 := by
  intro xs
  induction xs with
  | nil =>
    intro n out h i u1 hg
    simp [List.enumFrom] at h
    rw [← h] at hg
    simp at hg
  | cons x tl ih =>
    intro n out h i u1 hg
    rw [show (x :: tl).enumFrom n = (n, x) :: tl.enumFrom (n + 1) from rfl,
      List.foldr_cons] at h
    rcases htl : (tl.enumFrom (n + 1)).foldr (pruneArrStep recur itemSchema path)
        (some ([], [])) with _ | tlout
    · rw [htl] at h
      simp [pruneArrStep, Option.bind] at h
    · rw [htl] at h
      obtain ⟨rv, rd⟩ := tlout
      obtain ⟨v', d, hr, hout⟩ := pruneArrStep_cases h
      subst hout
      cases i with
      | zero =>
        simp only [List.getElem?_cons_zero, Option.some_inj] at hg
        subst hg
        refine ⟨x, d, by simp, ?_, ?_⟩
        · rw [Nat.add_zero]
          exact hr
        · intro r hrd
          exact List.mem_append.mpr (Or.inl hrd)
      | succ i =>
        simp only [List.getElem?_cons_succ] at hg
        obtain ⟨x', d', hx', hr', hd'⟩ := ih (n + 1) (rv, rd) htl i u1 hg
        refine ⟨x', d', by simpa using hx', ?_, ?_⟩
        · have he : n + (i + 1) = (n + 1) + i := by omega
          rw [he]
          exact hr'
        · intro r hrd
          exact List.mem_append.mpr (Or.inr (hd' r hrd))

theorem prune_back {rx : RegexModel} :
    ∀ (fuel : Nat) (v : Json) (s : SchemaNode) (path : List String)
      (v1 : Json) (d1 : List ChangeRecord) (q : List String) (u : Json) (sub : SchemaNode),
      removeAdditionalProperties fuel rx v s path = some (v1, d1) →
      EChain v1 s q u sub →
      (∀ r ∈ d1, pathTouches r.path (renderPath (path ++ q)) = false) →
      EChain v s q u sub := by
  intro fuel
  induction fuel with
  | zero =>
    intro v s path v1 d1 q u sub h hch hfar
    have h' : ((v, []) : Json × List ChangeRecord) = (v1, d1) := Option.some_inj.mp h
    rw [Prod.mk.injEq] at h'
    obtain ⟨hv1, hd1⟩ := h'
    subst hv1
    exact hch
  | succ fuel ih =>
    intro v s path v1 d1 q u sub h hch hfar
    cases q with
    | nil =>
      have hd : d1 = [] := by
        rcases hde : d1 with _ | ⟨r0, rs⟩
        · rfl
        · exfalso
          have hr : r0 ∈ d1 := by rw [hde]; exact List.mem_cons_self _ _
          obtain ⟨qq, hqq, hrp⟩ := prune_rec_paths (fuel + 1) rx v s path (v1, d1) h r0 hr
          have hf := hfar r0 hr
          rw [List.append_nil, hrp, touches_render_rev] at hf
          exact Bool.noConfusion hf
      subst hd
      have hv : v1 = v := prune_nil_id (fuel + 1) rx v s path v1 h
      subst hv
      cases hch
      exact EChain.nil _ _
    | cons seg qrest =>
      cases v with
      | obj kvs =>
        rw [removeAdditionalProperties.eq_def] at h
        dsimp only at h
        by_cases hcond : (s.type = some (.single "object") ∨ s.properties.isSome = true)
        · rw [if_pos hcond] at h
          rcases hproc : (kvs.foldr
              (pruneStep (fun v sub p => removeAdditionalProperties fuel rx v sub p) rx s path)
              (some ([], [], []))) with _ | ⟨kvs', recD, remD⟩
          · simp only [hproc] at h
            exact Option.noConfusion h
          · simp only [hproc] at h
            have h' := Option.some_inj.mp h
            rw [Prod.mk.injEq] at h'
            obtain ⟨hv1, hd1⟩ := h'
            subst hv1
            subst hd1
            cases hch with
            | @key _ _ _ u1 sub1 _ _ _ hkv hsl hrest =>
              obtain ⟨w, hw, hcase⟩ := prune_fold_track kvs (kvs', recD, remD) hproc seg u1 hkv
              rcases hcase with ⟨hnone, _⟩ | ⟨sub1', d, hsl', hr, hd⟩
              · exfalso
                rw [hsl] at hnone
                exact Option.noConfusion hnone
              · have hsub : sub1' = sub1 := Option.some_inj.mp (hsl'.symm.trans hsl)
                subst hsub
                refine EChain.key hw hsl ?_
                refine ih w sub1' (path ++ [seg]) u1 d qrest u sub hr hrest ?_
                intro r hrd
                have hf := hfar r (List.mem_append.mpr (Or.inl (hd r hrd)))
                rw [List.append_cons] at hf
                exact hf
        · rw [if_neg hcond] at h
          have h' := Option.some_inj.mp h
          rw [Prod.mk.injEq] at h'
          obtain ⟨hv1, hd1⟩ := h'
          subst hv1
          exact hch
      | arr xs =>
        rw [removeAdditionalProperties.eq_def] at h
        dsimp only at h
        cases hit : s.items with
        | none =>
          rw [hit] at h
          have h' := Option.some_inj.mp h
          rw [Prod.mk.injEq] at h'
          obtain ⟨hv1, hd1⟩ := h'
          subst hv1
          exact hch
        | some itemSchema =>
          simp only [hit] at h
          rcases hproc : (xs.enum.foldr
              (pruneArrStep (fun v sub p => removeAdditionalProperties fuel rx v sub p)
                itemSchema path)
              (some ([], []))) with _ | ⟨vals, delta⟩
          · simp only [hproc] at h
            exact Option.noConfusion h
          · simp only [hproc] at h
            have h' := Option.some_inj.mp h
            rw [Prod.mk.injEq] at h'
            obtain ⟨hv1, hd1⟩ := h'
            subst hv1
            subst hd1
            cases hch with
            | @idx _ _ j x' isch2 _ _ _ hix hit2 hrest =>
              have hisch : isch2 = itemSchema := Option.some_inj.mp (hit2.symm.trans hit)
              subst hisch
              have hg : vals[j]? = some x' := List.mem_enum_iff_getElem?.mp hix
              obtain ⟨x, d, hx, hr, hd⟩ := prune_arrfold_track xs 0 (vals, delta) hproc j x' hg
              rw [Nat.zero_add] at hr
              refine EChain.idx (List.mem_enum_iff_getElem?.mpr hx) hit ?_
              refine ih x isch2 (path ++ [natToString j]) x' d qrest u sub hr hrest ?_
              intro r hrd
              have hf := hfar r (hd r hrd)
              rw [List.append_cons] at hf
              exact hf
      | null =>
        have h' : ((Json.null, []) : Json × List ChangeRecord) = (v1, d1) := Option.some_inj.mp h
        rw [Prod.mk.injEq] at h'
        obtain ⟨hv1, hd1⟩ := h'
        subst hv1
        exact hch
      | bool b =>
        have h' : ((Json.bool b, []) : Json × List ChangeRecord) = (v1, d1) := Option.some_inj.mp h
        rw [Prod.mk.injEq] at h'
        obtain ⟨hv1, hd1⟩ := h'
        subst hv1
        exact hch
      | num n =>
        have h' : ((Json.num n, []) : Json × List ChangeRecord) = (v1, d1) := Option.some_inj.mp h
        rw [Prod.mk.injEq] at h'
        obtain ⟨hv1, hd1⟩ := h'
        subst hv1
        exact hch
      | str t =>
        have h' : ((Json.str t, []) : Json × List ChangeRecord) = (v1, d1) := Option.some_inj.mp h
        rw [Prod.mk.injEq] at h'
        obtain ⟨hv1, hd1⟩ := h'
        subst hv1
        exact hch

theorem coerce_fold_track {recur : Json → SchemaNode → List String → Json × List ChangeRecord}
    {path : List String} :
    ∀ (props : List (String × SchemaNode)) (kvs0 : List (String × Json))
      (d0 : List ChangeRecord) (out : List (String × Json) × List ChangeRecord),
      distinctKeysB (props.map Prod.fst) = true →
      props.foldl (coercePropsStep recur path) (kvs0, d0) = out →
      ∀ k u1, (k, u1) ∈ out.1 →
        (k, u1) ∈ kvs0 ∨
        (∃ pe ∈ props, pe.1 = k ∧ ∃ x, jlookup kvs0 k = some x ∧
          u1 = (recur x pe.2 (path ++ [k])).1 ∧
          ∀ r ∈ (recur x pe.2 (path ++ [k])).2, r ∈ out.2) := by
  intro props
  induction props with
  | nil =>
    intro kvs0 d0 out hd h k u1 hm
    rw [List.foldl_nil] at h
    rw [← h] at hm
    exact Or.inl hm
  | cons pe tl ih =>
    intro kvs0 d0 out hd h k u1 hm
    rw [List.map_cons, distinctKeysB, Bool.and_eq_true] at hd
    rw [List.foldl_cons] at h
    rcases hj : jlookup kvs0 pe.1 with _ | x
    · rw [coercePropsStep_eq_none hj] at h
      rcases ih kvs0 d0 out hd.2 h k u1 hm with hin | ⟨pe', hpe', hk, x', hjl, hu, hsub⟩
      · exact Or.inl hin
      · exact Or.inr ⟨pe', List.mem_cons_of_mem _ hpe', hk, x', hjl, hu, hsub⟩
    · rw [coercePropsStep_eq_some hj] at h
      rcases ih _ _ out hd.2 h k u1 hm with hin | ⟨pe', hpe', hk, x', hjl, hu, hsub⟩
      · rcases mem_assignKey hin with hold | ⟨hkpe, hux⟩
        · exact Or.inl hold
        · subst hkpe
          refine Or.inr ⟨pe, List.mem_cons_self _ _, rfl, x, hj, hux, ?_⟩
          intro r hr
          obtain ⟨t, ht⟩ := @coerce_fold_delta_mono recur path tl
            (assignKey kvs0 pe.1 (recur x pe.2 (path ++ [pe.1])).1,
             d0 ++ (recur x pe.2 (path ++ [pe.1])).2)
          rw [h] at ht
          rw [ht]
          exact List.mem_append.mpr (Or.inl (List.mem_append.mpr (Or.inr hr)))
      · have hne : pe.1 ≠ k := by
          intro he
          have h1 := hd.1
          simp at h1
          apply h1 pe'.2
          have hpe2 : (pe'.1, pe'.2) ∈ tl := by simpa using hpe'
          rw [hk, ← he] at hpe2
          exact hpe2
        refine Or.inr ⟨pe', List.mem_cons_of_mem _ hpe', hk, x', ?_, hu, hsub⟩
        rw [jlookup_assignKey_ne (fun hh => hne hh.symm)] at hjl
        exact hjl

theorem coerce_back :
    ∀ (fuel : Nat) (v : Json) (s : SchemaNode) (path : List String)
      (q : List String) (u : Json) (sub : SchemaNode),
      wfSchema s = true →
      EChain (applyTypeCoercion fuel v s path).1 s q u sub →
      (∀ r ∈ (applyTypeCoercion fuel v s path).2,
        pathTouches r.path (renderPath (path ++ q)) = false) →
      EChain v s q u sub := by
  intro fuel
  induction fuel with
  | zero =>
    intro v s path q u sub hwf hch hfar
    exact hch
  | succ fuel ih =>
    intro v s path q u sub hwf hch hfar
    cases q with
    | nil =>
      have hd : (applyTypeCoercion (fuel + 1) v s path).2 = [] := by
        rcases hde : (applyTypeCoercion (fuel + 1) v s path).2 with _ | ⟨r0, rs⟩
        · rfl
        · exfalso
          have hr : r0 ∈ (applyTypeCoercion (fuel + 1) v s path).2 := by
            rw [hde]
            exact List.mem_cons_self _ _
          obtain ⟨qq, hcp, hsf, hrp⟩ := coerce_rec_paths (fuel + 1) v s path hwf r0 hr
          have hf := hfar r0 hr
          rw [List.append_nil, hrp, touches_render_rev] at hf
          exact Bool.noConfusion hf
      have hv := applyTypeCoercion_nil_id (fuel + 1) v s path hd
      rw [hv] at hch
      exact hch
    | cons seg qrest =>
      by_cases hfa : schemaTypeFalsy s.type = true
      · rw [applyTypeCoercion_falsy hfa] at hch
        exact hch
      · rw [Bool.not_eq_true] at hfa
        by_cases hct : ((s.type.getD (.single "")).toList).contains (typeNameOf v) = true
        · cases v with
          | obj kvs =>
            have hct2 : ((s.type.getD (.single "")).toList).contains "object" = true := hct
            cases hps : s.properties with
            | none =>
              rw [applyTypeCoercion_obj_noprops hfa hct2 hps] at hch
              exact hch
            | some props =>
              rw [applyTypeCoercion_obj hfa hct2 hps] at hch hfar
              cases hch with
              | @key _ _ _ u1 sub1 _ _ _ hkv hsl hrest =>
                have hdk : distinctKeysB (props.map Prod.fst) = true :=
                  (wfSchema_props hwf hps).1
                rcases coerce_fold_track props kvs []
                    (props.foldl (coercePropsStep
                      (fun v sub p => applyTypeCoercion fuel v sub p) path) (kvs, []))
                    hdk rfl seg u1 hkv with hin | ⟨pe, hpe, hk, x, hjl, hu, hsubd⟩
                · exact EChain.key hin hsl hrest
                · have hsl2 : slookup (s.properties.getD []) seg = some pe.2 := by
                    rw [hps]
                    simp only [Option.getD_some]
                    rw [← hk]
                    exact slookup_of_mem_distinct hdk hpe
                  have hsub1 : pe.2 = sub1 := Option.some_inj.mp (hsl2.symm.trans hsl)
                  subst hsub1
                  refine EChain.key (jlookup_mem hjl) hsl ?_
                  rw [hu] at hrest
                  refine ih x pe.2 (path ++ [seg]) qrest u sub (wfSchema_slookup hwf hsl) hrest ?_
                  intro r hr
                  have hf := hfar r (hsubd r hr)
                  rw [List.append_cons] at hf
                  exact hf
          | arr xs =>
            have hct2 : ((s.type.getD (.single "")).toList).contains "array" = true := hct
            cases hit : s.items with
            | none =>
              rw [applyTypeCoercion_arr_noitems hfa hct2 hit] at hch
              exact hch
            | some itemSchema =>
              rw [applyTypeCoercion_arr hfa hct2 hit] at hch hfar
              cases hch with
              | @idx _ _ j x' isch2 _ _ _ hix hit2 hrest =>
                have hisch : isch2 = itemSchema := Option.some_inj.mp (hit2.symm.trans hit)
                subst hisch
                have hg := List.mem_enum_iff_getElem?.mp hix
                rw [List.getElem?_map] at hg
                rw [List.getElem?_map] at hg
                rw [List.getElem?_enum] at hg
                rcases hx : xs[j]? with _ | x
                · rw [hx] at hg
                  exact Option.noConfusion hg
                · rw [hx] at hg
                  simp only [Option.map_some'] at hg
                  rw [Option.some_inj] at hg
                  refine EChain.idx (List.mem_enum_iff_getElem?.mpr hx) hit ?_
                  refine ih x isch2 (path ++ [natToString j]) qrest u sub
                    (wfSchema_items hwf hit) ?_ ?_
                  · rw [hg]
                    exact hrest
                  · intro r hr
                    have hrin : r ∈ ((xs.enum.map (fun ix => applyTypeCoercion fuel ix.2
                        isch2 (path ++ [natToString ix.1]))).foldr
                        (fun r acc => r.2 ++ acc) []) := by
                      refine foldr_app1_mem_intro _ _
                        (applyTypeCoercion fuel x isch2 (path ++ [natToString j])) r ?_ hr
                      have : (xs.enum.map (fun ix => applyTypeCoercion fuel ix.2
                          isch2 (path ++ [natToString ix.1])))[j]? =
                          some (applyTypeCoercion fuel x isch2 (path ++ [natToString j])) := by
                        rw [List.getElem?_map, List.getElem?_enum, hx]
                        rfl
                      exact List.get?_mem (by rw [List.get?_eq_getElem?]; exact this)
                    have hf := hfar r hrin
                    rw [List.append_cons] at hf
                    exact hf
          | null =>
            rw [applyTypeCoercion_scalar_match hfa hct trivial] at hch
            exact hch
          | bool b =>
            rw [applyTypeCoercion_scalar_match hfa hct trivial] at hch
            exact hch
          | num n =>
            rw [applyTypeCoercion_scalar_match hfa hct trivial] at hch
            exact hch
          | str t =>
            rw [applyTypeCoercion_scalar_match hfa hct trivial] at hch
            exact hch
        · rw [Bool.not_eq_true] at hct
          rw [applyTypeCoercion_nomatch hfa hct] at hch hfar
          rcases @coerceFirst_cases (renderPath path) v
              ((s.type.getD (.single "")).toList) with hcf | ⟨c, rc, hcf, hract, hrpath⟩
          · rw [hcf] at hch
            exact hch
          · exfalso
            rw [hcf] at hfar
            have hf := hfar rc (List.mem_cons_self _ _)
            rw [hrpath] at hf
            have : pathTouches (renderPath path) (renderPath (path ++ (seg :: qrest))) = true :=
              touches_render path (seg :: qrest)
            rw [this] at hf
            exact Bool.noConfusion hf

theorem distinct_head_ne {pe pe' : String × SchemaNode} {tl : List (String × SchemaNode)}
    {k : String}
    (hd1 : (!(tl.map Prod.fst).contains pe.1) = true)
    (hpe' : pe' ∈ tl) (hk : pe'.1 = k) : pe.1 ≠ k := by
  intro he
  simp at hd1
  apply hd1 pe'.2
  have hpe2 : (pe'.1, pe'.2) ∈ tl := by simpa using hpe'
  rw [hk, ← he] at hpe2
  exact hpe2

theorem wfSchema_getD_distinct {s : SchemaNode} (hwf : wfSchema s = true) :
    distinctKeysB ((s.properties.getD []).map Prod.fst) = true := by
  cases hps : s.properties with
  | none => rfl
  | some props =>
    simp only [Option.getD_some]
    exact (wfSchema_props hwf hps).1

theorem defaults_fold_track {recur : Json → SchemaNode → List String → Json × List ChangeRecord}
    {req : List String} {path : List String} :
    ∀ (props : List (String × SchemaNode)) (kvs0 : List (String × Json))
      (d0 : List ChangeRecord) (out : List (String × Json) × List ChangeRecord),
      distinctKeysB (props.map Prod.fst) = true →
      props.foldl (defaultsStep recur req path) (kvs0, d0) = out →
      ∀ k u1, (k, u1) ∈ out.1 →
        (k, u1) ∈ kvs0 ∨
        (∃ pe ∈ props, pe.1 = k ∧ ∃ x, jlookup kvs0 k = some x ∧
          u1 = (recur x pe.2 (path ++ [k])).1 ∧
          ∀ r ∈ (recur x pe.2 (path ++ [k])).2, r ∈ out.2) ∨
        (∃ r ∈ out.2, r.path = renderPath (path ++ [k])) := by
  intro props
  induction props with
  | nil =>
    intro kvs0 d0 out hd h k u1 hm
    rw [List.foldl_nil] at h
    rw [← h] at hm
    exact Or.inl hm
  | cons pe tl ih =>
    intro kvs0 d0 out hd h k u1 hm
    rw [List.map_cons, distinctKeysB, Bool.and_eq_true] at hd
    rw [List.foldl_cons] at h
    rcases @defaultsStep_cases recur req path (kvs0, d0) pe with
      ⟨hj, hid | ⟨x, r0, heq, hract, hrpath⟩⟩ | ⟨x, hj, heq⟩
    · rw [hid] at h
      rcases ih kvs0 d0 out hd.2 h k u1 hm with hin | ⟨pe', hpe', rest⟩ | hrec
      · exact Or.inl hin
      · exact Or.inr (Or.inl ⟨pe', List.mem_cons_of_mem _ hpe', rest⟩)
      · exact Or.inr (Or.inr hrec)
    · rw [heq] at h
      rcases ih _ _ out hd.2 h k u1 hm with hin | ⟨pe', hpe', hk, x', hjl, hu, hsubd⟩ | hrec
      · rcases mem_assignKey hin with hold | ⟨hkpe, hux⟩
        · exact Or.inl hold
        · subst hkpe
          refine Or.inr (Or.inr ⟨r0, ?_, hrpath⟩)
          obtain ⟨t, ht⟩ := @defaults_fold_delta_mono recur req path tl
            (assignKey kvs0 pe.1 x, d0 ++ [r0])
          rw [h] at ht
          rw [ht]
          exact List.mem_append.mpr (Or.inl (List.mem_append.mpr (Or.inr (List.mem_cons_self _ _))))
      · have hne : pe.1 ≠ k := distinct_head_ne hd.1 hpe' hk
        refine Or.inr (Or.inl ⟨pe', List.mem_cons_of_mem _ hpe', hk, x', ?_, hu, hsubd⟩)
        rw [jlookup_assignKey_ne (fun hh => hne hh.symm)] at hjl
        exact hjl
      · exact Or.inr (Or.inr hrec)
    · rw [heq] at h
      rcases ih _ _ out hd.2 h k u1 hm with hin | ⟨pe', hpe', hk, x', hjl, hu, hsubd⟩ | hrec
      · rcases mem_assignKey hin with hold | ⟨hkpe, hux⟩
        · exact Or.inl hold
        · subst hkpe
          refine Or.inr (Or.inl ⟨pe, List.mem_cons_self _ _, rfl, x, hj, hux, ?_⟩)
          intro r hr
          obtain ⟨t, ht⟩ := @defaults_fold_delta_mono recur req path tl
            (assignKey kvs0 pe.1 (recur x pe.2 (path ++ [pe.1])).1,
             d0 ++ (recur x pe.2 (path ++ [pe.1])).2)
          rw [h] at ht
          rw [ht]
          exact List.mem_append.mpr (Or.inl (List.mem_append.mpr (Or.inr hr)))
      · have hne : pe.1 ≠ k := distinct_head_ne hd.1 hpe' hk
        refine Or.inr (Or.inl ⟨pe', List.mem_cons_of_mem _ hpe', hk, x', ?_, hu, hsubd⟩)
        rw [jlookup_assignKey_ne (fun hh => hne hh.symm)] at hjl
        exact hjl
      · exact Or.inr (Or.inr hrec)

theorem defaults_fold_keys {recur : Json → SchemaNode → List String → Json × List ChangeRecord}
    {req : List String} {path : List String} :
    ∀ (props : List (String × SchemaNode)) (kvs0 : List (String × Json))
      (d0 : List ChangeRecord) (out : List (String × Json) × List ChangeRecord),
      props.foldl (defaultsStep recur req path) (kvs0, d0) = out →
      out.2 = d0 →
      out.1.map Prod.fst = kvs0.map Prod.fst := by
  intro props
  induction props with
  | nil =>
    intro kvs0 d0 out h hn
    rw [List.foldl_nil] at h
    rw [← h]
  | cons pe tl ih =>
    intro kvs0 d0 out h hn
    rw [List.foldl_cons] at h
    rcases @defaultsStep_cases recur req path (kvs0, d0) pe with
      ⟨hj, hid | ⟨x, r0, heq, hract, hrpath⟩⟩ | ⟨x, hj, heq⟩
    · rw [hid] at h
      exact ih kvs0 d0 out h hn
    · exfalso
      rw [heq] at h
      obtain ⟨t, ht⟩ := @defaults_fold_delta_mono recur req path tl
        (assignKey kvs0 pe.1 x, d0 ++ [r0])
      rw [h, hn] at ht
      have hlen := congrArg List.length ht
      rw [List.length_append, List.length_append] at hlen
      simp only [List.length_singleton] at hlen
      omega
    · rw [heq] at h
      have hrec2 : (recur x pe.2 (path ++ [pe.1])).2 = [] := by
        obtain ⟨t, ht⟩ := @defaults_fold_delta_mono recur req path tl
          (assignKey kvs0 pe.1 (recur x pe.2 (path ++ [pe.1])).1,
           d0 ++ (recur x pe.2 (path ++ [pe.1])).2)
        rw [h, hn] at ht
        have hlen := congrArg List.length ht
        rw [List.length_append, List.length_append] at hlen
        refine List.length_eq_zero.mp ?_
        omega
      rw [hrec2, List.append_nil] at h
      have hk := ih (assignKey kvs0 pe.1 (recur x pe.2 (path ++ [pe.1])).1) d0 out h hn
      rw [assignKey_keys_present hj] at hk
      exact hk

theorem defaults_shallow_nil :
    ∀ (fuel : Nat) (v : Json) (s : SchemaNode) (path : List String)
      (out : Json × List ChangeRecord),
      applyDefaults fuel v s path = out → out.2 = [] →
      sameShallow v out.1 = true ∨
      ((s.type = some (.single "object") ∨ s.properties.isSome = true) ∧ out.1 = .obj []) := by
  intro fuel v s path out h hn
  cases fuel with
  | zero =>
    rw [← h]
    exact Or.inl (sameShallow_refl v)
  | succ fuel =>
    rw [applyDefaults.eq_def] at h
    dsimp only at h
    by_cases hc : (s.type = some (.single "object") ∨ s.properties.isSome = true)
    · rw [if_pos hc] at h
      cases v with
      | obj kvs =>
        dsimp only at h
        rcases hfold : ((s.properties.getD []).foldl
            (defaultsStep (fun v sub p => applyDefaults fuel v sub p) (s.required.getD []) path)
            (kvs, [])) with ⟨kvs2, d2⟩
        rw [hfold] at h
        rw [← h] at hn
        dsimp only at hn
        have hkeys := defaults_fold_keys (s.properties.getD []) kvs [] (kvs2, d2) hfold
          (by simpa using hn)
        rw [← h]
        left
        show (kvs.map Prod.fst == kvs2.map Prod.fst) = true
        dsimp only at hkeys
        rw [hkeys]
        simp
      | null =>
        dsimp only at h
        split at h
        · rw [← h] at hn
          simp at hn
        · rcases hfold : ((s.properties.getD []).foldl
              (defaultsStep (fun v sub p => applyDefaults fuel v sub p) (s.required.getD []) path)
              ([], [])) with ⟨kvs2, d2⟩
          rw [hfold] at h
          rw [← h] at hn
          dsimp only at hn
          have hkeys := defaults_fold_keys (s.properties.getD []) [] [] (kvs2, d2) hfold
            (by simpa using hn)
          right
          refine ⟨hc, ?_⟩
          rw [← h]
          dsimp only at hkeys ⊢
          have hk2 : List.map Prod.fst kvs2 = [] := by simpa using hkeys
          have hk0 : kvs2 = [] := List.map_eq_nil_iff.mp hk2
          rw [hk0]
      | bool b =>
        dsimp only at h
        split at h
        · rw [← h] at hn
          simp at hn
        · rcases hfold : ((s.properties.getD []).foldl
              (defaultsStep (fun v sub p => applyDefaults fuel v sub p) (s.required.getD []) path)
              ([], [])) with ⟨kvs2, d2⟩
          rw [hfold] at h
          rw [← h] at hn
          dsimp only at hn
          have hkeys := defaults_fold_keys (s.properties.getD []) [] [] (kvs2, d2) hfold
            (by simpa using hn)
          right
          refine ⟨hc, ?_⟩
          rw [← h]
          dsimp only at hkeys ⊢
          have hk2 : List.map Prod.fst kvs2 = [] := by simpa using hkeys
          have hk0 : kvs2 = [] := List.map_eq_nil_iff.mp hk2
          rw [hk0]
      | num q =>
        dsimp only at h
        split at h
        · rw [← h] at hn
          simp at hn
        · rcases hfold : ((s.properties.getD []).foldl
              (defaultsStep (fun v sub p => applyDefaults fuel v sub p) (s.required.getD []) path)
              ([], [])) with ⟨kvs2, d2⟩
          rw [hfold] at h
          rw [← h] at hn
          dsimp only at hn
          have hkeys := defaults_fold_keys (s.properties.getD []) [] [] (kvs2, d2) hfold
            (by simpa using hn)
          right
          refine ⟨hc, ?_⟩
          rw [← h]
          dsimp only at hkeys ⊢
          have hk2 : List.map Prod.fst kvs2 = [] := by simpa using hkeys
          have hk0 : kvs2 = [] := List.map_eq_nil_iff.mp hk2
          rw [hk0]
      | str t =>
        dsimp only at h
        split at h
        · rw [← h] at hn
          simp at hn
        · rcases hfold : ((s.properties.getD []).foldl
              (defaultsStep (fun v sub p => applyDefaults fuel v sub p) (s.required.getD []) path)
              ([], [])) with ⟨kvs2, d2⟩
          rw [hfold] at h
          rw [← h] at hn
          dsimp only at hn
          have hkeys := defaults_fold_keys (s.properties.getD []) [] [] (kvs2, d2) hfold
            (by simpa using hn)
          right
          refine ⟨hc, ?_⟩
          rw [← h]
          dsimp only at hkeys ⊢
          have hk2 : List.map Prod.fst kvs2 = [] := by simpa using hkeys
          have hk0 : kvs2 = [] := List.map_eq_nil_iff.mp hk2
          rw [hk0]
      | arr xs =>
        dsimp only at h
        split at h
        · rw [← h] at hn
          simp at hn
        · rcases hfold : ((s.properties.getD []).foldl
              (defaultsStep (fun v sub p => applyDefaults fuel v sub p) (s.required.getD []) path)
              ([], [])) with ⟨kvs2, d2⟩
          rw [hfold] at h
          rw [← h] at hn
          dsimp only at hn
          have hkeys := defaults_fold_keys (s.properties.getD []) [] [] (kvs2, d2) hfold
            (by simpa using hn)
          right
          refine ⟨hc, ?_⟩
          rw [← h]
          dsimp only at hkeys ⊢
          have hk2 : List.map Prod.fst kvs2 = [] := by simpa using hkeys
          have hk0 : kvs2 = [] := List.map_eq_nil_iff.mp hk2
          rw [hk0]
    · rw [if_neg hc] at h
      split at h
      · rename_i itemSchema hty hit
        cases v with
        | arr xs =>
          dsimp only at h
          rw [← h]
          exact Or.inl rfl
        | null =>
          dsimp only at h
          split at h
          · rw [← h] at hn
            simp at hn
          · rw [← h]
            exact Or.inl (sameShallow_refl _)
        | bool b =>
          dsimp only at h
          split at h
          · rw [← h] at hn
            simp at hn
          · rw [← h]
            exact Or.inl (sameShallow_refl _)
        | num q =>
          dsimp only at h
          split at h
          · rw [← h] at hn
            simp at hn
          · rw [← h]
            exact Or.inl (sameShallow_refl _)
        | str t =>
          dsimp only at h
          split at h
          · rw [← h] at hn
            simp at hn
          · rw [← h]
            exact Or.inl (sameShallow_refl _)
        | obj kvs =>
          dsimp only at h
          split at h
          · rw [← h] at hn
            simp at hn
          · rw [← h]
            exact Or.inl (sameShallow_refl _)
      · rw [← h]
        exact Or.inl (sameShallow_refl _)

theorem defaults_back :
    ∀ (fuel : Nat) (v : Json) (s : SchemaNode) (path : List String)
      (q : List String) (u : Json) (sub : SchemaNode),
      wfSchema s = true →
      EChain (applyDefaults fuel v s path).1 s q u sub →
      (∀ r ∈ (applyDefaults fuel v s path).2,
        pathTouches r.path (renderPath (path ++ q)) = false) →
      (∃ u0, EChain v s q u0 sub ∧ sameShallow u0 u = true) ∨
      ((sub.type = some (.single "object") ∨ sub.properties.isSome = true) ∧ u = .obj []) := by
  intro fuel
  induction fuel with
  | zero =>
    intro v s path q u sub hwf hch hfar
    exact Or.inl ⟨u, hch, sameShallow_refl u⟩
  | succ fuel ih =>
    intro v s path q u sub hwf hch hfar
    rcases hde : applyDefaults (fuel + 1) v s path with ⟨v3, d3⟩
    rw [hde] at hch hfar
    dsimp only at hch hfar
    cases q with
    | nil =>
      have hd : d3 = [] := by
        rcases hd3 : d3 with _ | ⟨r0, rs⟩
        · rfl
        · exfalso
          have hr : r0 ∈ d3 := by rw [hd3]; exact List.mem_cons_self _ _
          obtain ⟨qq, hsp, hsf, hrp⟩ := defaults_rec_paths (fuel + 1) v s path (v3, d3) hwf hde r0 hr
          have hf := hfar r0 hr
          rw [List.append_nil, hrp, touches_render_rev] at hf
          exact Bool.noConfusion hf
      rcases defaults_shallow_nil (fuel + 1) v s path (v3, d3) hde hd with hsh | ⟨hcx, hobj⟩
      · cases hch
        exact Or.inl ⟨v, EChain.nil _ _, hsh⟩
      · cases hch
        exact Or.inr ⟨hcx, hobj⟩
    | cons seg qrest =>
      rw [applyDefaults.eq_def] at hde
      dsimp only at hde
      by_cases hc : (s.type = some (.single "object") ∨ s.properties.isSome = true)
      · rw [if_pos hc] at hde
        cases v with
        | obj kvs =>
          dsimp only at hde
          rcases hfold : ((s.properties.getD []).foldl
              (defaultsStep (fun v sub p => applyDefaults fuel v sub p) (s.required.getD []) path)
              (kvs, [])) with ⟨kvs2, d2⟩
          rw [hfold] at hde
          rw [Prod.mk.injEq] at hde
          obtain ⟨hv3, hd3⟩ := hde
          subst hv3
          subst hd3
          cases hch with
          | @key _ _ _ u1 sub1 _ _ _ hkv hsl hrest =>
            have hdk := wfSchema_getD_distinct hwf
            rcases defaults_fold_track (s.properties.getD []) kvs [] (kvs2, d2) hdk hfold
                seg u1 hkv with hin | ⟨pe, hpe, hk, x, hjl, hu, hsubd⟩ | ⟨r0, hr0, hrp⟩
            · exact Or.inl ⟨u, EChain.key hin hsl hrest, sameShallow_refl u⟩
            · have hsl2 : slookup (s.properties.getD []) seg = some pe.2 := by
                rw [← hk]
                exact slookup_of_mem_distinct hdk hpe
              have hsub1 : pe.2 = sub1 := Option.some_inj.mp (hsl2.symm.trans hsl)
              subst hsub1
              rw [hu] at hrest
              have hfar2 : ∀ r ∈ (applyDefaults fuel x pe.2 (path ++ [seg])).2,
                  pathTouches r.path (renderPath ((path ++ [seg]) ++ qrest)) = false := by
                intro r hr
                have hf := hfar r (hsubd r hr)
                rw [List.append_cons] at hf
                exact hf
              rcases ih x pe.2 (path ++ [seg]) qrest u sub (wfSchema_slookup hwf hsl)
                  hrest hfar2 with ⟨u0, hch0, hsh0⟩ | hright
              · exact Or.inl ⟨u0, EChain.key (jlookup_mem hjl) hsl hch0, hsh0⟩
              · exact Or.inr hright
            · exfalso
              have hf := hfar r0 hr0
              rw [hrp] at hf
              have htr := touches_render (path ++ [seg]) qrest
              rw [← List.append_cons] at htr
              exact Bool.noConfusion (htr.symm.trans hf)
        | null =>
          dsimp only at hde
          split at hde
          · rw [Prod.mk.injEq] at hde
            obtain ⟨hv3, hd3⟩ := hde
            subst hd3
            exfalso
            have hf := hfar _ (List.mem_cons_self _ _)
            exact Bool.noConfusion ((touches_render path (seg :: qrest)).symm.trans hf)
          · rcases hfold : ((s.properties.getD []).foldl
                (defaultsStep (fun v sub p => applyDefaults fuel v sub p) (s.required.getD []) path)
                ([], [])) with ⟨kvs2, d2⟩
            rw [hfold] at hde
            rw [Prod.mk.injEq] at hde
            obtain ⟨hv3, hd3⟩ := hde
            subst hv3
            subst hd3
            cases hch with
            | @key _ _ _ u1 sub1 _ _ _ hkv hsl hrest =>
              have hdk := wfSchema_getD_distinct hwf
              rcases defaults_fold_track (s.properties.getD []) [] [] (kvs2, d2) hdk hfold
                  seg u1 hkv with hin | ⟨pe, hpe, hk, x, hjl, hu, hsubd⟩ | ⟨r0, hr0, hrp⟩
              · simp at hin
              · exact Option.noConfusion hjl
              · exfalso
                have hf := hfar r0 hr0
                rw [hrp] at hf
                have htr := touches_render (path ++ [seg]) qrest
                rw [← List.append_cons] at htr
                exact Bool.noConfusion (htr.symm.trans hf)
        | bool b =>
          dsimp only at hde
          split at hde
          · rw [Prod.mk.injEq] at hde
            obtain ⟨hv3, hd3⟩ := hde
            subst hd3
            exfalso
            have hf := hfar _ (List.mem_cons_self _ _)
            exact Bool.noConfusion ((touches_render path (seg :: qrest)).symm.trans hf)
          · rcases hfold : ((s.properties.getD []).foldl
                (defaultsStep (fun v sub p => applyDefaults fuel v sub p) (s.required.getD []) path)
                ([], [])) with ⟨kvs2, d2⟩
            rw [hfold] at hde
            rw [Prod.mk.injEq] at hde
            obtain ⟨hv3, hd3⟩ := hde
            subst hv3
            subst hd3
            cases hch with
            | @key _ _ _ u1 sub1 _ _ _ hkv hsl hrest =>
              have hdk := wfSchema_getD_distinct hwf
              rcases defaults_fold_track (s.properties.getD []) [] [] (kvs2, d2) hdk hfold
                  seg u1 hkv with hin | ⟨pe, hpe, hk, x, hjl, hu, hsubd⟩ | ⟨r0, hr0, hrp⟩
              · simp at hin
              · exact Option.noConfusion hjl
              · exfalso
                have hf := hfar r0 hr0
                rw [hrp] at hf
                have htr := touches_render (path ++ [seg]) qrest
                rw [← List.append_cons] at htr
                exact Bool.noConfusion (htr.symm.trans hf)
        | num nq =>
          dsimp only at hde
          split at hde
          · rw [Prod.mk.injEq] at hde
            obtain ⟨hv3, hd3⟩ := hde
            subst hd3
            exfalso
            have hf := hfar _ (List.mem_cons_self _ _)
            exact Bool.noConfusion ((touches_render path (seg :: qrest)).symm.trans hf)
          · rcases hfold : ((s.properties.getD []).foldl
                (defaultsStep (fun v sub p => applyDefaults fuel v sub p) (s.required.getD []) path)
                ([], [])) with ⟨kvs2, d2⟩
            rw [hfold] at hde
            rw [Prod.mk.injEq] at hde
            obtain ⟨hv3, hd3⟩ := hde
            subst hv3
            subst hd3
            cases hch with
            | @key _ _ _ u1 sub1 _ _ _ hkv hsl hrest =>
              have hdk := wfSchema_getD_distinct hwf
              rcases defaults_fold_track (s.properties.getD []) [] [] (kvs2, d2) hdk hfold
                  seg u1 hkv with hin | ⟨pe, hpe, hk, x, hjl, hu, hsubd⟩ | ⟨r0, hr0, hrp⟩
              · simp at hin
              · exact Option.noConfusion hjl
              · exfalso
                have hf := hfar r0 hr0
                rw [hrp] at hf
                have htr := touches_render (path ++ [seg]) qrest
                rw [← List.append_cons] at htr
                exact Bool.noConfusion (htr.symm.trans hf)
        | str t =>
          dsimp only at hde
          split at hde
          · rw [Prod.mk.injEq] at hde
            obtain ⟨hv3, hd3⟩ := hde
            subst hd3
            exfalso
            have hf := hfar _ (List.mem_cons_self _ _)
            exact Bool.noConfusion ((touches_render path (seg :: qrest)).symm.trans hf)
          · rcases hfold : ((s.properties.getD []).foldl
                (defaultsStep (fun v sub p => applyDefaults fuel v sub p) (s.required.getD []) path)
                ([], [])) with ⟨kvs2, d2⟩
            rw [hfold] at hde
            rw [Prod.mk.injEq] at hde
            obtain ⟨hv3, hd3⟩ := hde
            subst hv3
            subst hd3
            cases hch with
            | @key _ _ _ u1 sub1 _ _ _ hkv hsl hrest =>
              have hdk := wfSchema_getD_distinct hwf
              rcases defaults_fold_track (s.properties.getD []) [] [] (kvs2, d2) hdk hfold
                  seg u1 hkv with hin | ⟨pe, hpe, hk, x, hjl, hu, hsubd⟩ | ⟨r0, hr0, hrp⟩
              · simp at hin
              · exact Option.noConfusion hjl
              · exfalso
                have hf := hfar r0 hr0
                rw [hrp] at hf
                have htr := touches_render (path ++ [seg]) qrest
                rw [← List.append_cons] at htr
                exact Bool.noConfusion (htr.symm.trans hf)
        | arr xs =>
          dsimp only at hde
          split at hde
          · rw [Prod.mk.injEq] at hde
            obtain ⟨hv3, hd3⟩ := hde
            subst hd3
            exfalso
            have hf := hfar _ (List.mem_cons_self _ _)
            exact Bool.noConfusion ((touches_render path (seg :: qrest)).symm.trans hf)
          · rcases hfold : ((s.properties.getD []).foldl
                (defaultsStep (fun v sub p => applyDefaults fuel v sub p) (s.required.getD []) path)
                ([], [])) with ⟨kvs2, d2⟩
            rw [hfold] at hde
            rw [Prod.mk.injEq] at hde
            obtain ⟨hv3, hd3⟩ := hde
            subst hv3
            subst hd3
            cases hch with
            | @key _ _ _ u1 sub1 _ _ _ hkv hsl hrest =>
              have hdk := wfSchema_getD_distinct hwf
              rcases defaults_fold_track (s.properties.getD []) [] [] (kvs2, d2) hdk hfold
                  seg u1 hkv with hin | ⟨pe, hpe, hk, x, hjl, hu, hsubd⟩ | ⟨r0, hr0, hrp⟩
              · simp at hin
              · exact Option.noConfusion hjl
              · exfalso
                have hf := hfar r0 hr0
                rw [hrp] at hf
                have htr := touches_render (path ++ [seg]) qrest
                rw [← List.append_cons] at htr
                exact Bool.noConfusion (htr.symm.trans hf)
      · rw [if_neg hc] at hde
        split at hde
        · rename_i itemSchema hty hit
          cases v with
          | arr xs =>
            dsimp only at hde
            rw [Prod.mk.injEq] at hde
            obtain ⟨hv3, hd3⟩ := hde
            subst hv3
            subst hd3
            cases hch with
            | @idx _ _ j x' isch2 _ _ _ hix hit2 hrest =>
              have hisch : isch2 = itemSchema := Option.some_inj.mp (hit2.symm.trans hit)
              subst hisch
              have hg := List.mem_enum_iff_getElem?.mp hix
              rw [List.getElem?_map] at hg
              rw [List.getElem?_map] at hg
              rw [List.getElem?_enum] at hg
              rcases hx : xs[j]? with _ | x
              · rw [hx] at hg
                exact Option.noConfusion hg
              · rw [hx] at hg
                simp only [Option.map_some'] at hg
                rw [Option.some_inj] at hg
                have hfar2 : ∀ r ∈ (applyDefaults fuel x isch2 (path ++ [natToString j])).2,
                    pathTouches r.path (renderPath ((path ++ [natToString j]) ++ qrest)) = false := by
                  intro r hr
                  have hrin : r ∈ ((xs.enum.map (fun ix => applyDefaults fuel ix.2
                      isch2 (path ++ [natToString ix.1]))).foldr
                      (fun r acc => r.2 ++ acc) []) := by
                    refine foldr_app1_mem_intro _ _
                      (applyDefaults fuel x isch2 (path ++ [natToString j])) r ?_ hr
                    have hgm : (xs.enum.map (fun ix => applyDefaults fuel ix.2
                        isch2 (path ++ [natToString ix.1])))[j]? =
                        some (applyDefaults fuel x isch2 (path ++ [natToString j])) := by
                      rw [List.getElem?_map, List.getElem?_enum, hx]
                      rfl
                    exact List.get?_mem (by rw [List.get?_eq_getElem?]; exact hgm)
                  have hf := hfar r hrin
                  rw [List.append_cons] at hf
                  exact hf
                rw [← hg] at hrest
                rcases ih x isch2 (path ++ [natToString j]) qrest u sub
                    (wfSchema_items hwf hit) hrest hfar2 with ⟨u0, hch0, hsh0⟩ | hright
                · exact Or.inl ⟨u0, EChain.idx (List.mem_enum_iff_getElem?.mpr hx) hit hch0, hsh0⟩
                · exact Or.inr hright
          | null =>
            dsimp only at hde
            split at hde
            · rw [Prod.mk.injEq] at hde
              obtain ⟨hv3, hd3⟩ := hde
              subst hd3
              exfalso
              have hf := hfar _ (List.mem_cons_self _ _)
              exact Bool.noConfusion ((touches_render path (seg :: qrest)).symm.trans hf)
            · rw [Prod.mk.injEq] at hde
              obtain ⟨hv3, hd3⟩ := hde
              subst hv3
              exact Or.inl ⟨u, hch, sameShallow_refl u⟩
          | bool b =>
            dsimp only at hde
            split at hde
            · rw [Prod.mk.injEq] at hde
              obtain ⟨hv3, hd3⟩ := hde
              subst hd3
              exfalso
              have hf := hfar _ (List.mem_cons_self _ _)
              exact Bool.noConfusion ((touches_render path (seg :: qrest)).symm.trans hf)
            · rw [Prod.mk.injEq] at hde
              obtain ⟨hv3, hd3⟩ := hde
              subst hv3
              exact Or.inl ⟨u, hch, sameShallow_refl u⟩
          | num nq =>
            dsimp only at hde
            split at hde
            · rw [Prod.mk.injEq] at hde
              obtain ⟨hv3, hd3⟩ := hde
              subst hd3
              exfalso
              have hf := hfar _ (List.mem_cons_self _ _)
              exact Bool.noConfusion ((touches_render path (seg :: qrest)).symm.trans hf)
            · rw [Prod.mk.injEq] at hde
              obtain ⟨hv3, hd3⟩ := hde
              subst hv3
              exact Or.inl ⟨u, hch, sameShallow_refl u⟩
          | str t =>
            dsimp only at hde
            split at hde
            · rw [Prod.mk.injEq] at hde
              obtain ⟨hv3, hd3⟩ := hde
              subst hd3
              exfalso
              have hf := hfar _ (List.mem_cons_self _ _)
              exact Bool.noConfusion ((touches_render path (seg :: qrest)).symm.trans hf)
            · rw [Prod.mk.injEq] at hde
              obtain ⟨hv3, hd3⟩ := hde
              subst hv3
              exact Or.inl ⟨u, hch, sameShallow_refl u⟩
          | obj kvs =>
            dsimp only at hde
            split at hde
            · rw [Prod.mk.injEq] at hde
              obtain ⟨hv3, hd3⟩ := hde
              subst hd3
              exfalso
              have hf := hfar _ (List.mem_cons_self _ _)
              exact Bool.noConfusion ((touches_render path (seg :: qrest)).symm.trans hf)
            · rw [Prod.mk.injEq] at hde
              obtain ⟨hv3, hd3⟩ := hde
              subst hv3
              exact Or.inl ⟨u, hch, sameShallow_refl u⟩
        · rw [Prod.mk.injEq] at hde
          obtain ⟨hv3, hd3⟩ := hde
          subst hv3
          exact Or.inl ⟨u, hch, sameShallow_refl u⟩

theorem validateJson_node {fuel : Nat} {rx : RegexModel} {s : SchemaNode} {inst : Json} :
    validateJson fuel rx (.node s) inst =
      (if ajvCompileOk fuel rx s = false then .err "INVALID_INPUT" "Invalid JSON Schema"
       else
         ValidateOut.ok
           (((ajvErrors fuel rx s inst []).map
             (fun e => if e.instPath = "" then VErr.mk e.keyword "/" e.missing else e)).isEmpty)
           ((ajvErrors fuel rx s inst []).map
             (fun e => if e.instPath = "" then VErr.mk e.keyword "/" e.missing else e))) := rfl

theorem renderPath_nil : renderPath ([] : List String) = "" := rfl

/-- C4 (amended): restricted to the `type` and `additionalProperties`
targeted kinds, for well-formed pattern-free schemas whose `properties`
nodes carry no conflicting type, every (keyword, path) pair present
after repair at a path that no change record's rendered path touches
(as a string prefix in either direction) was already present before
repair; the unrestricted claim fails because injected defaults can
violate their own sub-schemas. -/
theorem C4_targeted_no_regress :
    ∀ (fuel : Nat) (rx : RegexModel) (s : SchemaNode) (it parsed : Json)
      (v : Json) (ch : List ChangeRecord) (po : Option (List String)) (w : List String)
      (vb va : Bool) (errsB errsA : List VErr) (kw p : String),
      wfSchema s = true →
      propsOk s = true →
      (parsedInputOf it).1 = some parsed →
      repairJson fuel rx (.node s) it = .ok v ch po w →
      validateJson fuel rx (.node s) parsed = .ok vb errsB →
      validateJson fuel rx (.node s) v = .ok va errsA →
      (kw = "type" ∨ kw = "additionalProperties") →
      (kw, p) ∈ targetedPairs s errsA →
      (∀ r ∈ ch, pathTouches r.path p = false) →
      (kw, p) ∈ targetedPairs s errsB := by
  intro fuel rx s it parsed v ch po w vb va errsB errsA kw p hwf hpo hp hr hvb hva hkw hmem hfar
  match h1 : parsedInputOf it with
  | (none, perrs) => rw [h1] at hp; simp at hp
  | (some p0, perrs) =>
    rw [h1] at hp
    dsimp only at hp
    injection hp with hp
    subst hp
    match h2 : removeAdditionalProperties fuel rx p0 s [] with
    | none => simp [repairJson, repairPipeline, h1, h2] at hr
    | some (v1, d1) =>
      rcases h3 : applyTypeCoercion fuel v1 s [] with ⟨v2, d2⟩
      rcases h4 : applyDefaults fuel v2 s [] with ⟨v3, d3⟩
      by_cases hcomp : ajvCompileOk fuel rx s = false
      · simp [repairJson, repairPipeline, h1, h2, h3, h4, hcomp] at hr
      · simp [repairJson, repairPipeline, h1, h2, h3, h4, hcomp] at hr
        obtain ⟨hv, hcheq, _⟩ := hr
        subst hv
        subst hcheq
        rw [validateJson_node, if_neg hcomp] at hvb hva
        rw [ValidateOut.ok.injEq] at hvb hva
        obtain ⟨_, hEB⟩ := hvb
        obtain ⟨_, hEA⟩ := hva
        subst hEB
        subst hEA
        rw [targetedPairs] at hmem
        obtain ⟨e, hemem, hfe⟩ := List.mem_filterMap.mp hmem
        have hfe0 := hfe
        -- extract e.keyword = kw and e.instPath = p
        have hkp : e.keyword = kw ∧ e.instPath = p := by
          by_cases h1t : (e.keyword = "type" ∨ e.keyword = "additionalProperties")
          · rw [if_pos h1t, Option.some_inj, Prod.mk.injEq] at hfe
            exact hfe
          · rw [if_neg h1t] at hfe
            by_cases h1r : e.keyword = "required"
            · rw [if_pos h1r] at hfe
              exfalso
              rcases hm : e.missing with _ | prop
              · simp only [hm] at hfe
                simp at hfe
              · simp only [hm] at hfe
                rcases hg : getSchemaAtPath s (e.instPath ++ "/" ++ prop) with _ | sub2
                · simp only [hg] at hfe
                  simp at hfe
                · simp only [hg] at hfe
                  split at hfe
                  · rw [Option.some_inj, Prod.mk.injEq] at hfe
                    have hkreq : "required" = kw := by rw [← h1r]; exact hfe.1
                    rcases hkw with hh | hh <;> rw [hh] at hkreq <;> exact absurd hkreq (by decide)
                  · simp at hfe
            · rw [if_neg h1r] at hfe
              simp at hfe
        obtain ⟨hek, hei⟩ := hkp
        obtain ⟨e0, he0, hnorm⟩ := List.mem_map.mp hemem
        have hkeq : e.keyword = e0.keyword := by
          rw [← hnorm]
          split
          · rfl
          · rfl
        have hek0 : e0.keyword = kw := by rw [← hkeq]; exact hek
        obtain ⟨q, u, subX, hchX, hlen, hne⟩ := ajvErrors_site fuel s v3 [] e0 hpo he0
        rw [List.nil_append] at hne
        have hip : e0.instPath = renderPath q := nodeErrs_instPath hne
        -- the record-exclusion for the three deltas, relative to renderPath q
        have hfarq : ∀ r, r ∈ d1 ∨ r ∈ d2 ∨ r ∈ d3 →
            pathTouches r.path (renderPath q) = false := by
          cases q with
          | nil =>
            -- p = "/" forces all three deltas empty
            rw [renderPath_nil] at hip
            rw [hip] at hnorm
            rw [if_pos rfl] at hnorm
            have hpslash : p = "/" := by
              rw [← hei, ← hnorm]
            have habs : ∀ r, r ∈ d1 ∨ r ∈ d2 ∨ r ∈ d3 → False := by
              intro r hrm
              have hrch : r ∈ d1 ++ (d2 ++ d3) := by
                rcases hrm with hh | hh | hh
                · exact List.mem_append.mpr (Or.inl hh)
                · exact List.mem_append.mpr (Or.inr (List.mem_append.mpr (Or.inl hh)))
                · exact List.mem_append.mpr (Or.inr (List.mem_append.mpr (Or.inr hh)))
              have hf := hfar r hrch
              rw [hpslash] at hf
              rcases hrm with hh | hh | hh
              · obtain ⟨qq, _, hrp⟩ := prune_rec_paths fuel rx p0 s [] (v1, d1) h2 r hh
                rw [List.nil_append] at hrp
                rw [hrp, touches_root] at hf
                exact Bool.noConfusion hf
              · have hh2 : r ∈ (applyTypeCoercion fuel v1 s []).2 := by rw [h3]; exact hh
                obtain ⟨qq, _, _, hrp⟩ := coerce_rec_paths fuel v1 s [] hwf r hh2
                rw [List.nil_append] at hrp
                rw [hrp, touches_root] at hf
                exact Bool.noConfusion hf
              · obtain ⟨qq, _, _, hrp⟩ := defaults_rec_paths fuel v2 s [] (v3, d3) hwf h4 r hh
                rw [List.nil_append] at hrp
                rw [hrp, touches_root] at hf
                exact Bool.noConfusion hf
            intro r hrm
            exact absurd hrm (fun hx => habs r hx)
          | cons seg qrest =>
            have hnn : ¬ (e0.instPath = "") := by
              rw [hip]
              exact renderPath_cons_ne_empty seg qrest
            rw [if_neg hnn] at hnorm
            have hpq : p = renderPath (seg :: qrest) := by
              rw [← hei, ← hnorm]
              exact hip
            intro r hrm
            have hrch : r ∈ d1 ++ (d2 ++ d3) := by
              rcases hrm with hh | hh | hh
              · exact List.mem_append.mpr (Or.inl hh)
              · exact List.mem_append.mpr (Or.inr (List.mem_append.mpr (Or.inl hh)))
              · exact List.mem_append.mpr (Or.inr (List.mem_append.mpr (Or.inr hh)))
            have hf := hfar r hrch
            rw [hpq] at hf
            exact hf
        -- back-transport through the three passes
        have hchD : EChain (applyDefaults fuel v2 s []).1 s q u subX := by
          rw [h4]
          exact hchX
        have hfarD : ∀ r ∈ (applyDefaults fuel v2 s []).2,
            pathTouches r.path (renderPath ([] ++ q)) = false := by
          rw [h4]
          intro r hrr
          rw [List.nil_append]
          exact hfarq r (Or.inr (Or.inr hrr))
        rcases defaults_back fuel v2 s [] q u subX hwf hchD hfarD with
          ⟨u0, hchC, hsh⟩ | ⟨hobjX, huobj⟩
        · have hchB : EChain (applyTypeCoercion fuel v1 s []).1 s q u0 subX := by
            rw [h3]
            exact hchC
          have hfarB : ∀ r ∈ (applyTypeCoercion fuel v1 s []).2,
              pathTouches r.path (renderPath ([] ++ q)) = false := by
            rw [h3]
            intro r hrr
            rw [List.nil_append]
            exact hfarq r (Or.inr (Or.inl hrr))
          have hchA := coerce_back fuel v1 s [] q u0 subX hwf hchB hfarB
          have hfarA : ∀ r ∈ d1, pathTouches r.path (renderPath ([] ++ q)) = false := by
            intro r hrr
            rw [List.nil_append]
            exact hfarq r (Or.inl hrr)
          have hchP := prune_back fuel p0 s [] v1 d1 q u0 subX h2 hchA hfarA
          have hne0 : e0 ∈ nodeErrs rx subX u0 (renderPath ([] ++ q)) := by
            rw [List.nil_append, nodeErrs_shallow hsh]
            exact hne
          have hbuild := ajvErrors_build hchP fuel [] e0 hlen hne0
          rw [targetedPairs]
          refine List.mem_filterMap.mpr ⟨e, ?_, hfe0⟩
          exact List.mem_map.mpr ⟨e0, hbuild, hnorm⟩
        · exfalso
          rw [huobj] at hne
          have hpoX : propsOk subX = true := EChain_propsOk hchX hpo
          rw [nodeErrs] at hne
          rcases List.mem_append.mp hne with h' | h'
          · rcases hobjX with hto | hps
            · rw [hto] at h'
              simp [SchemaType.toList, typeMatches] at h'
            · rcases hpseq : subX.properties with _ | props2
              · rw [hpseq] at hps
                simp at hps
              · rcases propsOk_type_of_props hpoX hpseq with ht0 | ht0
                · rw [ht0] at h'
                  simp at h'
                · rw [ht0] at h'
                  simp [SchemaType.toList, typeMatches] at h'
          · try dsimp only at h'
            rcases List.mem_append.mp h' with h2' | h2'
            · obtain ⟨r', hr', hfr⟩ := List.mem_filterMap.mp h2'
              split at hfr
              · simp at hfr
              · rw [Option.some_inj] at hfr
                have hreq : e0.keyword = "required" := by rw [← hfr]
                rw [hek0] at hreq
                rcases hkw with hh | hh <;> rw [hh] at hreq <;> exact absurd hreq (by decide)
            · split at h2'
              · simp at h2'
              · simp at h2'

/-- Counterexample to C4: under the schema `{type:"object",
properties:{a:{type:"string", default:5}}}` and the input `{}` the
Default Applicator injects `a := 5`, which violates its own
sub-schema: validation before repair is clean, validation after
repair carries the targeted pair `(type, /a)` — the subset claim
fails. -/
theorem C4_default_regression_counterexample :
    repairJson 100 rxNoPatterns (.node c4Schema) (.obj []) =
      .ok (.obj [("a", .num ⟨5, 0⟩)])
        [ChangeRecord.mk "/a" "defaulted" none (some (.num ⟨5, 0⟩))
          "Applied schema default value"]
        none
        ["Repaired JSON still has validation errors - some issues could not be automatically fixed"] ∧
    validateJson 100 rxNoPatterns (.node c4Schema) (.obj []) = .ok true [] ∧
    validateJson 100 rxNoPatterns (.node c4Schema) (.obj [("a", .num ⟨5, 0⟩)]) =
      .ok false [VErr.mk "type" "/a" none] ∧
    ("type", "/a") ∈ targetedPairs c4Schema [VErr.mk "type" "/a" none] ∧
    ("type", "/a") ∉ targetedPairs c4Schema [] :=
  ⟨by decide, by decide, by decide, by decide, by decide⟩

/-- Witness for `C4_targeted_no_regress`: the schema
`{type:"object", properties:{a:{type:"null"}}}` and the instance
`{a:"abc"}` repair to themselves with no change records, and the
targeted pair `(type, /a)` present after repair is present before. -/
theorem C4_targeted_no_regress_witness :
    wfSchema c4wSchema = true ∧ propsOk c4wSchema = true ∧
    ("type", "/a") ∈ targetedPairs c4wSchema [VErr.mk "type" "/a" none] :=
  ⟨by decide, by decide,
   C4_targeted_no_regress 100 rxNoPatterns c4wSchema (.obj [("a", .str "abc")])
     (.obj [("a", .str "abc")]) (.obj [("a", .str "abc")]) [] none
     ["Repaired JSON still has validation errors - some issues could not be automatically fixed"]
     false false [VErr.mk "type" "/a" none] [VErr.mk "type" "/a" none] "type" "/a"
     (by decide) (by decide) (by decide) (by decide) (by decide) (by decide)
     (Or.inl rfl) (by decide) (by decide)⟩

end JV
